import Mathlib

/-!
# Sudoku_Solver: the bitset matrix and the board engine

A shallow embedding of `src/bitmap.go` and `src/sudoku.go`.

* Go `int` values are `Int`; the boards that fit in memory keep every index far from the
  64-bit limits, so no wrap-around is modelled: a product such as `width * height` in
  `NewBitmap` is Go's product as long as it is below `2 ^ 63`.  `/` and `%` on `int`
  truncate toward zero (`Int.tdiv`, `Int.tmod`); `index & 63` on a two's-complement `int`
  is the residue of `index` modulo 64 in `0..63`.
* `uint64` words are `Nat` values below `2 ^ 64`.
* Slices are lists; an index outside the slice is a runtime panic, modelled as a `Fault`.
* Methods that mutate their receiver return the new receiver (state passing).
* The random source is an infinite sequence of raw draws with a cursor; `Intn n` reduces
  the next raw draw modulo `n`, so every outcome in `0..n-1` is possible at every call.
* Recursion (`Solve`) and the unbounded carve loop of `Generate` carry a fuel argument;
  running out of fuel is reported as `Fault.outOfFuel`, never as a result.
* A finite `float64` is the rational number it denotes.  A `float64` operation is the exact
  operation followed by rounding to the nearest `float64`, ties to even (`roundFloat64`);
  infinities and NaN are not modelled.  The conversion to `int` discards the fractional
  part.  Apart from the count of the cells left, the results about `Generate` hold for
  whatever count is computed.
-/

namespace SudokuSolver

/-! ## Runtime model -/

/-- Ways in which a run can stop without a result. -/
inductive Fault where
  | indexOutOfRange
  | negativeLength
  | divideByZero
  | invalidArgument
  | outOfFuel
  deriving DecidableEq, Repr

/-- Computations that may panic. -/
abbrev Exec := Except Fault

/-- Read `xs[i]`. -/
def sliceGet {α : Type} (xs : List α) (i : Int) : Exec α :=
  if i < 0 then .error .indexOutOfRange
  else match xs[i.toNat]? with
    | some x => .ok x
    | none => .error .indexOutOfRange

/-- Write `xs[i] = x`. -/
def sliceSet {α : Type} (xs : List α) (i : Int) (x : α) : Exec (List α) :=
  if i < 0 then .error .indexOutOfRange
  else if i.toNat < xs.length then .ok (xs.set i.toNat x)
  else .error .indexOutOfRange

/-- Counted loop `for i := start; i < start + n; i++ { body }` without early exit. -/
def forLoop {σ : Type} (body : Int → σ → Exec σ) : Nat → Int → σ → Exec σ
  | 0, _, st => .ok st
  | n + 1, i, st => do
    let st ← body i st
    forLoop body n (i + 1) st

/-! ## bitmap.go -/

/-- Packed boolean matrix: `struct { width, height int; data []uint64 }`. -/
structure Bitmap where
  width : Int
  height : Int
  data : List Nat
  deriving DecidableEq, Repr

/-- All-ones `uint64`. -/
def maxUint64 : Nat := 2 ^ 64 - 1

/-- Go `NewBitmap`.  The product `width * height` is Go's as long as it is below `2 ^ 63`. -/
def NewBitmap (width height : Int) : Exec Bitmap :=
  let total := width * height
  let size := Int.tdiv total 64
  let size := if Int.tmod total 64 ≠ 0 then size + 1 else size
  if size < 0 then .error .negativeLength
  else .ok { width := width, height := height, data := List.replicate size.toNat 0 }

/-- Go `Bitmap.Width`. -/
def Bitmap.Width (b : Bitmap) : Int := b.width

/-- Go `Bitmap.Height`. -/
def Bitmap.Height (b : Bitmap) : Int := b.height

/-- The `bits.OnesCount64` of a word. -/
def onesCount64 (w : Nat) : Int :=
  (((List.range 64).filter (fun i => w.testBit i)).length : Nat)

/-- Go `Bitmap.Size`: population count. -/
def Bitmap.Size (b : Bitmap) : Int :=
  b.data.foldl (fun total w => total + onesCount64 w) 0

/-- Go built-in `copy(dst, src)`. -/
def copySlice {α : Type} (dst src : List α) : List α :=
  src.take dst.length ++ dst.drop src.length

/-- Go `Bitmap.Copy`. -/
def Bitmap.Copy (b : Bitmap) : Exec Bitmap := do
  let new ← NewBitmap b.width b.height
  pure { new with data := copySlice new.data b.data }

/-- Go `Bitmap.At`. -/
def Bitmap.At (b : Bitmap) (x y : Int) : Exec Bool := do
  let index := y * b.width + x
  let w ← sliceGet b.data (Int.tdiv index 64)
  pure ((w &&& (1 <<< (index % 64).toNat)) != 0)

/-- Go `Bitmap.Set`. -/
def Bitmap.Set (b : Bitmap) (x y : Int) (value : Bool) : Exec Bitmap := do
  let index := y * b.width + x
  let w ← sliceGet b.data (Int.tdiv index 64)
  let bit := 1 <<< (index % 64).toNat
  let w := if value then w ||| bit else w &&& (bit ^^^ maxUint64)
  let data ← sliceSet b.data (Int.tdiv index 64) w
  pure { b with data := data }

/-- Go `Bitmap.Clear`. -/
def Bitmap.Clear (b : Bitmap) : Bitmap :=
  { b with data := b.data.map (fun _ => 0) }

/-! ## sudoku.go -/

/-- The `*rand.Rand` of the board: an infinite sequence of raw draws and a cursor. -/
structure Rand where
  draws : Nat → Nat
  pos : Nat

/-- Go `rand.Intn`: panics unless `0 < n`, else yields a value in `0..n-1`. -/
def Rand.Intn (r : Rand) (n : Int) : Exec (Int × Rand) :=
  if n ≤ 0 then .error .invalidArgument
  else .ok (((r.draws r.pos : Nat) : Int) % n, { r with pos := r.pos + 1 })

/-- Go `type Sudoku struct`. -/
structure Sudoku where
  size : Int
  data : List Int
  locked : List Bool
  rows : Bitmap
  cols : Bitmap
  regions : Bitmap
  rand : Rand
  generating : Bool

/-- Go `NewSudoku`; the random source stands for the clock-seeded one. -/
def NewSudoku (size : Int) (rand : Rand) : Exec Sudoku := do
  let sq := size * size
  if sq * sq < 0 then .error .negativeLength
  let rows ← NewBitmap sq sq
  let cols ← NewBitmap sq sq
  let regions ← NewBitmap sq sq
  pure {
    size := size
    data := List.replicate (sq * sq).toNat 0
    locked := List.replicate (sq * sq).toNat false
    rows := rows
    cols := cols
    regions := regions
    rand := rand
    generating := false }

/-- Go `Sudoku.Size`. -/
def Sudoku.Size (s : Sudoku) : Int := s.size

/-- Go `Sudoku.Clear`. -/
def Sudoku.Clear (s : Sudoku) : Exec Sudoku := do
  let st ← forLoop
    (fun i (st : List Int × List Bool) => do
      let data ← sliceSet st.1 i 0
      let locked ← sliceSet st.2 i false
      pure (data, locked))
    s.data.length 0 (s.data, s.locked)
  pure { s with
    data := st.1
    locked := st.2
    rows := s.rows.Clear
    cols := s.cols.Clear
    regions := s.regions.Clear }

/-- Go `Sudoku.Generating`. -/
def Sudoku.Generating (s : Sudoku) : Bool := s.generating

/-- Go `Sudoku.At`. -/
def Sudoku.At (s : Sudoku) (row col : Int) : Exec Int :=
  sliceGet s.data (row * (s.size * s.size) + col)

/-- Go `Sudoku.Has`. -/
def Sudoku.Has (s : Sudoku) (row col : Int) : Exec Bool := do
  let v ← s.At row col
  pure (v != 0)

/-- Go `Sudoku.IsLocked`. -/
def Sudoku.IsLocked (s : Sudoku) (row col : Int) : Exec Bool :=
  sliceGet s.locked (row * (s.size * s.size) + col)

/-- Go `Sudoku.Region`. -/
def Sudoku.Region (s : Sudoku) (row col : Int) : Exec Int :=
  if s.size = 0 then .error .divideByZero
  else .ok (Int.tdiv row s.size * s.size + Int.tdiv col s.size)

/-- Go `Sudoku.Set`. -/
def Sudoku.Set (s : Sudoku) (row col val : Int) : Exec (Bool × Sudoku) := do
  let region ← s.Region row col
  if ← s.rows.At row (val - 1) then return (false, s)
  if ← s.cols.At col (val - 1) then return (false, s)
  if ← s.regions.At region (val - 1) then return (false, s)
  let s ← (do
    if ← s.Has row col then
      let old := (← s.At row col) - 1
      let rows ← s.rows.Set row old false
      let cols ← s.cols.Set col old false
      let regions ← s.regions.Set region old false
      pure { s with rows := rows, cols := cols, regions := regions }
    else pure s : Exec Sudoku)
  let data ← sliceSet s.data (row * (s.size * s.size) + col) val
  let rows ← s.rows.Set row (val - 1) true
  let cols ← s.cols.Set col (val - 1) true
  let regions ← s.regions.Set region (val - 1) true
  return (true, { s with data := data, rows := rows, cols := cols, regions := regions })

/-- Go `Sudoku.Remove`. -/
def Sudoku.Remove (s : Sudoku) (row col : Int) : Exec Sudoku := do
  let val ← sliceGet s.data (row * (s.size * s.size) + col)
  let data ← sliceSet s.data (row * (s.size * s.size) + col) 0
  let rows ← s.rows.Set row (val - 1) false
  let cols ← s.cols.Set col (val - 1) false
  let region ← s.Region row col
  let regions ← s.regions.Set region (val - 1) false
  pure { s with data := data, rows := rows, cols := cols, regions := regions }

/-- Go constant `Row = 0b001`. -/
def Row : Int := 1

/-- Go constant `Col = 0b010`. -/
def Col : Int := 2

/-- Go constant `Region = 0b100`. -/
def Region : Int := 4

/-- Go `Sudoku.Conflict`; it reads the board and writes nothing. -/
def Sudoku.Conflict (s : Sudoku) (row col val : Int) : Exec Int := do
  if (← s.At row col) = val then return 0
  let mut result : Int := 0
  if ← s.rows.At row (val - 1) then
    result := Int.lor result SudokuSolver.Row
  if ← s.cols.At col (val - 1) then
    result := Int.lor result SudokuSolver.Col
  if ← s.regions.At (← s.Region row col) (val - 1) then
    result := Int.lor result SudokuSolver.Region
  return result

/-- Go `type Difficulty float64`: a fill percentage; a finite `float64` is the rational
number it denotes. -/
abbrev Difficulty := ℚ

/-- Go constant `Easy`. -/
def Easy : Difficulty := 75

/-- Go constant `Medium`. -/
def Medium : Difficulty := 50

/-- Go constant `Hard`. -/
def Hard : Difficulty := 30

/-- Helper of `floorLog2`: at most `fuel` halvings. -/
def log2Fuel : Nat → Nat → Nat
  | 0, _ => 0
  | fuel + 1, n => if n < 2 then 0 else log2Fuel fuel (n / 2) + 1

/-- The position of the leading bit of `n`: the `a` with `2 ^ a ≤ n < 2 ^ (a + 1)`, and `0`
for `n = 0`. -/
def floorLog2 (n : Nat) : Nat := log2Fuel n n

/-- The power `2 ^ e` for an integer exponent. -/
def pow2 (e : Int) : ℚ := mkRat (2 ^ e.toNat) (2 ^ (-e).toNat)

/-- The binary exponent of a nonzero rational: the `e` with `2 ^ e ≤ |q| < 2 ^ (e + 1)`. -/
def binaryExponent (q : ℚ) : Int :=
  let e : Int := (floorLog2 q.num.natAbs : Int) - (floorLog2 q.den : Int)
  if pow2 e ≤ |q| then e else e - 1

/-- Rounding to the nearest integer, ties to the even one. -/
def roundHalfEven (q : ℚ) : Int :=
  let f := ⌊q⌋
  if q - f < 1 / 2 then f
  else if 1 / 2 < q - f then f + 1
  else if f % 2 = 0 then f else f + 1

/-- The `float64` nearest to the real number `q` (IEEE 754 binary64, round to nearest, ties
to even): 53 significant bits, binary exponents from `-1022` on, below which the spacing
stays `2 ^ -1074`.  Results beyond the largest `float64`, which become infinities, are not
modelled. -/
def roundFloat64 (q : ℚ) : ℚ :=
  let e := max (binaryExponent q) (-1022)
  roundHalfEven (q / pow2 (e - 52)) * pow2 (e - 52)

/-- Go conversion `float64(n)` of an `int`. -/
def float64OfInt (n : Int) : ℚ := roundFloat64 n

/-- Go `x * y` on `float64`. -/
def float64Mul (x y : ℚ) : ℚ := roundFloat64 (x * y)

/-- Go `x / y` on `float64`, for a nonzero divisor. -/
def float64Div (x y : ℚ) : ℚ := roundFloat64 (x / y)

/-- Go conversion `int(x)` of a `float64`: the fractional part is discarded. -/
def truncToInt (q : ℚ) : Int := Int.tdiv q.num q.den

/-- The expression `int(float64(total) * float64(difficulty) / 100.0)` of `Generate`. -/
def keepCount (total : Int) (difficulty : Difficulty) : Int :=
  truncToInt (float64Div (float64Mul (float64OfInt total) difficulty) 100)

/-- Go `Sudoku.FindNextEmpty`, inner loop over the rows of one column. -/
def findEmptyInCol (s : Sudoku) (col : Int) : Nat → Int → Exec (Option (Int × Int))
  | 0, _ => .ok none
  | n + 1, row => do
    if (← s.At row col) = 0 then return some (row, col)
    findEmptyInCol s col n (row + 1)

/-- Go `Sudoku.FindNextEmpty`, outer loop over the columns. -/
def findEmptyFromCol (s : Sudoku) (sq : Int) : Nat → Int → Exec (Option (Int × Int))
  | 0, _ => .ok none
  | n + 1, col => do
    match ← findEmptyInCol s col sq.toNat 0 with
    | some p => return some p
    | none => findEmptyFromCol s sq n (col + 1)

/-- Go `Sudoku.FindNextEmpty`: `some (row, col)` for `true` with the out-parameters. -/
def Sudoku.FindNextEmpty (s : Sudoku) : Exec (Option (Int × Int)) :=
  let sq := s.size * s.size
  findEmptyFromCol s sq sq.toNat 0

/-- The candidate loop of `Solve`: `n` iterations are left, the loop variable is `i`,
`solve` is the recursive call. -/
def solveLoop (solve : Sudoku → Exec (Bool × Sudoku)) (row col : Int) :
    Nat → Int → Sudoku → Exec (Bool × Sudoku)
  | 0, _, s => .ok (false, s)
  | n + 1, i, s => do
    let (placed, s) ← s.Set row col (Int.tmod i (s.size * s.size) + 1)
    if placed then
      let (solved, s) ← solve s
      if solved then return (true, s)
      let s ← s.Remove row col
      solveLoop solve row col n (i + 1) s
    else
      solveLoop solve row col n (i + 1) s

/-- Go `Sudoku.Solve`; `fuel` bounds the recursion depth. -/
def Sudoku.Solve : Nat → Sudoku → Exec (Bool × Sudoku)
  | 0, _ => .error .outOfFuel
  | fuel + 1, s => do
    match ← s.FindNextEmpty with
    | none => return (true, s)
    | some (row, col) =>
      let (n, rand) ← s.rand.Intn 1000
      let s := { s with rand := rand }
      let start := n + 1
      solveLoop (Sudoku.Solve fuel) row col (s.size * s.size).toNat start s

/-- Go `Sudoku.Finish`. -/
def Sudoku.Finish (fuel : Nat) (s : Sudoku) : Exec (Bool × Sudoku) := do
  let s := { s with generating := true }
  let (res, s) ← s.Solve fuel
  let s := { s with generating := false }
  return (res, s)

/-- Seed phase of `Generate`: the body of the innermost loop, one `Set` call; the state is
the counter `i` and the board. -/
def seedCell (region start val row col : Int) (st : Int × Sudoku) : Exec (Int × Sudoku) := do
  let (i, s) := st
  let sq := s.size * s.size
  let r := Int.tmod (row + start) s.size
  let c := Int.tmod (col + start) s.size
  let (_, s) ← s.Set (region * s.size + r) (region * s.size + c)
    (Int.tmod (val + start + i) sq + 1)
  pure (i + 1, s)

/-- Seed phase of `Generate`: the body of the loop over the diagonal regions. -/
def seedRegion (region : Int) (s : Sudoku) : Exec Sudoku := do
  let (n, rand) ← s.rand.Intn 1000
  let s := { s with rand := rand }
  let start := n + 1
  let (n, rand) ← s.rand.Intn 1000
  let s := { s with rand := rand }
  let val := n + 1
  let (_, s) ← forLoop
    (fun row st => forLoop (seedCell region start val row) s.size.toNat 0 st)
    s.size.toNat 0 ((0 : Int), s)
  pure s

/-- First phase of `Generate`: raise the flag, clear the board, fill the diagonal regions. -/
def seedPhase (s : Sudoku) : Exec Sudoku := do
  let s := { s with generating := true }
  let s ← s.Clear
  forLoop seedRegion s.size.toNat 0 s

/-- Carve phase of `Generate`: `for removed < remove { ... }`. -/
def carve (sq remove : Int) : Nat → Int → Sudoku → Exec Sudoku
  | fuel, removed, s =>
    if removed < remove then
      match fuel with
      | 0 => .error .outOfFuel
      | fuel + 1 => do
        let (row, rand) ← s.rand.Intn sq
        let s := { s with rand := rand }
        let (col, rand) ← s.rand.Intn sq
        let s := { s with rand := rand }
        if ← s.Has row col then
          let s ← s.Remove row col
          carve sq remove fuel (removed + 1) s
        else
          carve sq remove fuel removed s
    else .ok s

/-- Lock phase of `Generate`. -/
def lockClues (s : Sudoku) : Exec Sudoku := do
  let locked ← forLoop
    (fun i (locked : List Bool) => do
      if (← sliceGet s.data i) ≠ 0 then sliceSet locked i true
      else pure locked)
    s.data.length 0 s.locked
  pure { s with locked := locked }

/-- Go `Sudoku.Generate`; `fuel` bounds the recursion of `Solve` and the carve loop. -/
def Sudoku.Generate (fuel : Nat) (s : Sudoku) (difficulty : Difficulty) :
    Exec (Bool × Sudoku) := do
  let s ← seedPhase s
  let sq := s.size * s.size
  let (solvable, s) ← s.Solve fuel
  if !solvable then return (false, s)
  let remove := sq * sq - keepCount (sq * sq) difficulty
  let s ← carve sq remove fuel 0 s
  let s ← lockClues s
  let s := { s with generating := false }
  return (true, s)

/-! ## Vocabulary of the specification -/

deriving instance DecidableEq for Except

/-- Bounded existential quantification over `Int` is decidable. -/
instance decidableExistsIntRange (P : Int → Prop) [DecidablePred P] (m n : Int) :
    Decidable (∃ r, m ≤ r ∧ r < n ∧ P r) :=
  decidable_of_iff (¬ ∀ r, m ≤ r → r < n → ¬ P r) (by
    constructor
    · intro h
      by_contra hne
      exact h (fun r h1 h2 hp => hne ⟨r, h1, h2, hp⟩)
    · rintro ⟨r, h1, h2, hp⟩ h
      exact h r h1 h2 hp)

/-- The value `Bitmap.At` reports for a position (`false` when it panics). -/
def Bitmap.bit (b : Bitmap) (x y : Int) : Bool :=
  match b.At x y with
  | .ok v => v
  | .error _ => false

/-- Storage invariant of an `n` by `n` bitmap: the dimensions are `n`, the words cover all
`n * n` bits, and every word is a `uint64`. -/
def Bitmap.WF (n : Int) (b : Bitmap) : Prop :=
  b.width = n ∧ b.height = n ∧ n * n ≤ 64 * (b.data.length : Int) ∧ ∀ w ∈ b.data, w < 2 ^ 64

instance (n : Int) (b : Bitmap) : Decidable (b.WF n) := by
  unfold Bitmap.WF; infer_instance

/-- Board dimension `N = size * size`. -/
def Sudoku.dim (s : Sudoku) : Int := s.size * s.size

/-- The value `Sudoku.At` reports for a cell (`0` when it panics). -/
def Sudoku.cell (s : Sudoku) (r c : Int) : Int :=
  match s.At r c with
  | .ok v => v
  | .error _ => 0

/-- The lock flag `Sudoku.IsLocked` reports for a cell (`false` when it panics). -/
def Sudoku.lockedAt (s : Sudoku) (r c : Int) : Bool :=
  match s.IsLocked r c with
  | .ok v => v
  | .error _ => false

/-- The region `Sudoku.Region` reports for a cell (`0` when it panics). -/
def Sudoku.regionOf (s : Sudoku) (r c : Int) : Int :=
  match s.Region r c with
  | .ok g => g
  | .error _ => 0

/-- Storage invariant of a board of region size `size ≥ 1`, as allocated by `NewSudoku`:
`N * N` cells and lock flags, and three `N` by `N` bitmaps. -/
def Sudoku.WF (s : Sudoku) : Prop :=
  0 < s.size ∧ (s.data.length : Int) = s.dim * s.dim ∧
  (s.locked.length : Int) = s.dim * s.dim ∧
  s.rows.WF s.dim ∧ s.cols.WF s.dim ∧ s.regions.WF s.dim

instance (s : Sudoku) : Decidable s.WF := by
  unfold Sudoku.WF; infer_instance

/-- Every cell value lies in `0..N`. -/
def Sudoku.ValuesInRange (s : Sudoku) : Prop :=
  ∀ r : Int, 0 ≤ r → r < s.dim → ∀ c : Int, 0 ≤ c → c < s.dim →
    0 ≤ s.cell r c ∧ s.cell r c ≤ s.dim

/-- The matrix `rows` reports `v` for row `r` exactly when some cell of the row holds `v`. -/
def Sudoku.RowsAgree (s : Sudoku) : Prop :=
  ∀ r : Int, 0 ≤ r → r < s.dim → ∀ v : Int, 1 ≤ v → v < s.dim + 1 →
    (s.rows.bit r (v - 1) = true ↔ ∃ c : Int, 0 ≤ c ∧ c < s.dim ∧ s.cell r c = v)

/-- The matrix `cols` reports `v` for column `c` exactly when some cell of it holds `v`. -/
def Sudoku.ColsAgree (s : Sudoku) : Prop :=
  ∀ c : Int, 0 ≤ c → c < s.dim → ∀ v : Int, 1 ≤ v → v < s.dim + 1 →
    (s.cols.bit c (v - 1) = true ↔ ∃ r : Int, 0 ≤ r ∧ r < s.dim ∧ s.cell r c = v)

/-- The matrix `regions` reports `v` for region `g` exactly when some cell of it holds `v`. -/
def Sudoku.RegionsAgree (s : Sudoku) : Prop :=
  ∀ g : Int, 0 ≤ g → g < s.dim → ∀ v : Int, 1 ≤ v → v < s.dim + 1 →
    (s.regions.bit g (v - 1) = true ↔
      ∃ r : Int, 0 ≤ r ∧ r < s.dim ∧ ∃ c : Int, 0 ≤ c ∧ c < s.dim ∧
        (s.regionOf r c = g ∧ s.cell r c = v))

/-- No two distinct cells of one row hold the same nonzero value. -/
def Sudoku.RowsDistinct (s : Sudoku) : Prop :=
  ∀ r : Int, 0 ≤ r → r < s.dim → ∀ c : Int, 0 ≤ c → c < s.dim →
    ∀ c' : Int, 0 ≤ c' → c' < s.dim →
      s.cell r c ≠ 0 → s.cell r c = s.cell r c' → c = c'

/-- No two distinct cells of one column hold the same nonzero value. -/
def Sudoku.ColsDistinct (s : Sudoku) : Prop :=
  ∀ c : Int, 0 ≤ c → c < s.dim → ∀ r : Int, 0 ≤ r → r < s.dim →
    ∀ r' : Int, 0 ≤ r' → r' < s.dim →
      s.cell r c ≠ 0 → s.cell r c = s.cell r' c → r = r'

/-- No two distinct cells of one region hold the same nonzero value. -/
def Sudoku.RegionsDistinct (s : Sudoku) : Prop :=
  ∀ r : Int, 0 ≤ r → r < s.dim → ∀ c : Int, 0 ≤ c → c < s.dim →
    ∀ r' : Int, 0 ≤ r' → r' < s.dim → ∀ c' : Int, 0 ≤ c' → c' < s.dim →
      s.cell r c ≠ 0 → s.regionOf r c = s.regionOf r' c' → s.cell r c = s.cell r' c' →
      r = r' ∧ c = c'

/-- Board consistency: the cell values are in `0..N`, the three matrices agree with the
cells, and no row, column or region holds a nonzero value twice. -/
def Sudoku.Consistent (s : Sudoku) : Prop :=
  s.ValuesInRange ∧ s.RowsAgree ∧ s.ColsAgree ∧ s.RegionsAgree ∧
  s.RowsDistinct ∧ s.ColsDistinct ∧ s.RegionsDistinct

instance (s : Sudoku) : Decidable s.Consistent := by
  unfold Sudoku.Consistent Sudoku.ValuesInRange Sudoku.RowsAgree Sudoku.ColsAgree
    Sudoku.RegionsAgree Sudoku.RowsDistinct Sudoku.ColsDistinct Sudoku.RegionsDistinct
  infer_instance

/-- Every cell of the board is nonzero. -/
def Sudoku.Full (s : Sudoku) : Prop :=
  ∀ r : Int, 0 ≤ r → r < s.dim → ∀ c : Int, 0 ≤ c → c < s.dim → s.cell r c ≠ 0

instance (s : Sudoku) : Decidable s.Full := by
  unfold Sudoku.Full; infer_instance

/-- Every nonzero cell of `s` holds the same value in `t`. -/
def Sudoku.KeptBy (s t : Sudoku) : Prop :=
  ∀ r : Int, 0 ≤ r → r < s.dim → ∀ c : Int, 0 ≤ c → c < s.dim →
    s.cell r c ≠ 0 → t.cell r c = s.cell r c

instance (s t : Sudoku) : Decidable (s.KeptBy t) := by
  unfold Sudoku.KeptBy; infer_instance

/-- The region index of a cell on a board of region size `k`. -/
def regionIndex (k r c : Int) : Int := Int.tdiv r k * k + Int.tdiv c k

/-- A full valid grid for region size `k`: every cell in `1..N`, and no value twice in a
row, a column or a region. -/
def ValidGrid (k : Int) (G : Int → Int → Int) : Prop :=
  (∀ r : Int, 0 ≤ r → r < k * k → ∀ c : Int, 0 ≤ c → c < k * k →
    1 ≤ G r c ∧ G r c ≤ k * k) ∧
  (∀ r : Int, 0 ≤ r → r < k * k → ∀ c : Int, 0 ≤ c → c < k * k →
    ∀ c' : Int, 0 ≤ c' → c' < k * k → G r c = G r c' → c = c') ∧
  (∀ c : Int, 0 ≤ c → c < k * k → ∀ r : Int, 0 ≤ r → r < k * k →
    ∀ r' : Int, 0 ≤ r' → r' < k * k → G r c = G r' c → r = r') ∧
  (∀ r : Int, 0 ≤ r → r < k * k → ∀ c : Int, 0 ≤ c → c < k * k →
    ∀ r' : Int, 0 ≤ r' → r' < k * k → ∀ c' : Int, 0 ≤ c' → c' < k * k →
      regionIndex k r c = regionIndex k r' c' → G r c = G r' c' → r = r' ∧ c = c')

/-- The grid `G` agrees with the board on all its nonzero cells. -/
def Sudoku.ExtendedBy (s : Sudoku) (G : Int → Int → Int) : Prop :=
  ∀ r : Int, 0 ≤ r → r < s.dim → ∀ c : Int, 0 ≤ c → c < s.dim →
    s.cell r c ≠ 0 → G r c = s.cell r c

/-- Number of empty cells. -/
def Sudoku.emptyCount (s : Sudoku) : Nat := s.data.count 0

/-- Everything of the board but the random source is the same in `s` and `t`. -/
def Sudoku.SameBoard (s t : Sudoku) : Prop :=
  s.size = t.size ∧ s.data = t.data ∧ s.locked = t.locked ∧ s.rows = t.rows ∧
  s.cols = t.cols ∧ s.regions = t.regions ∧ s.generating = t.generating

instance (s t : Sudoku) : Decidable (s.SameBoard t) := by
  unfold Sudoku.SameBoard; infer_instance

/-- Some cell of row `r` other than `(r, c)` holds `v`. -/
def Sudoku.RowHasOther (s : Sudoku) (r c v : Int) : Prop :=
  ∃ c' : Int, 0 ≤ c' ∧ c' < s.dim ∧ (c' ≠ c ∧ s.cell r c' = v)

/-- Some cell of column `c` other than `(r, c)` holds `v`. -/
def Sudoku.ColHasOther (s : Sudoku) (r c v : Int) : Prop :=
  ∃ r' : Int, 0 ≤ r' ∧ r' < s.dim ∧ (r' ≠ r ∧ s.cell r' c = v)

/-- Some cell of the region of `(r, c)` other than `(r, c)` holds `v`. -/
def Sudoku.RegionHasOther (s : Sudoku) (r c v : Int) : Prop :=
  ∃ r' : Int, 0 ≤ r' ∧ r' < s.dim ∧ ∃ c' : Int, 0 ≤ c' ∧ c' < s.dim ∧
    ((r' ≠ r ∨ c' ≠ c) ∧ s.regionOf r' c' = s.regionOf r c ∧ s.cell r' c' = v)

/-- Some cell other than `(r, c)` in its row, its column or its region holds `v`. -/
def Sudoku.HeldElsewhere (s : Sudoku) (r c v : Int) : Prop :=
  s.RowHasOther r c v ∨ s.ColHasOther r c v ∨ s.RegionHasOther r c v

instance (s : Sudoku) (r c v : Int) : Decidable (s.HeldElsewhere r c v) := by
  unfold Sudoku.HeldElsewhere Sudoku.RowHasOther Sudoku.ColHasOther Sudoku.RegionHasOther
  infer_instance

/-- Whether a run produced the result `false`. -/
def returnsFalse (r : Exec (Bool × Sudoku)) : Bool :=
  match r with
  | .ok (false, _) => true
  | _ => false

/-- Whether a run ended in a panic or out of fuel. -/
def faulted {α : Type} (r : Exec α) : Bool :=
  match r with
  | .ok _ => false
  | .error _ => true

/-- The board a run without a boolean result ended with. -/
def boardOf (s : Sudoku) (r : Exec Sudoku) : Sudoku :=
  match r with
  | .ok t => t
  | .error _ => s

/-- A sequence of raw draws used in the worked examples. -/
def exampleRand : Rand := ⟨fun i => (i + 3) * (i + 3) * 2654435761 / 4096, 0⟩

/-- The empty 4 by 4 board (`k = 2`). -/
def emptyBoard2 : Sudoku :=
  ⟨2, List.replicate 16 0, List.replicate 16 false, ⟨4, 4, [0]⟩, ⟨4, 4, [0]⟩, ⟨4, 4, [0]⟩,
    exampleRand, false⟩

/-- The 4 by 4 board whose only nonempty cell is `(0, 0)`, holding `1`. -/
def oneCellBoard2 : Sudoku :=
  ⟨2, 1 :: List.replicate 15 0, List.replicate 16 false, ⟨4, 4, [1]⟩, ⟨4, 4, [1]⟩,
    ⟨4, 4, [1]⟩, exampleRand, false⟩

/-- A consistent 4 by 4 board without completion: row 0 holds `1 2 _ _` and column 2 holds
`3` and `4` further down, so no symbol fits cell `(0, 2)`. -/
def stuckBoard2 : Sudoku :=
  ⟨2, [1, 2, 0, 0, 0, 0, 0, 0, 0, 0, 3, 0, 0, 0, 4, 0], List.replicate 16 false,
    ⟨4, 4, [33809]⟩, ⟨4, 4, [17441]⟩, ⟨4, 4, [34833]⟩, exampleRand, false⟩

/-- A valid 4 by 4 grid. -/
def exampleGrid2 (r c : Int) : Int :=
  ([1, 2, 3, 4, 3, 4, 1, 2, 2, 1, 4, 3, 4, 3, 2, 1] : List Int).getD (r * 4 + c).toNat 0

/-- Number of nonempty cells. -/
def Sudoku.filledCount (s : Sudoku) : Nat := s.data.countP (fun v => v != 0)

/-- The seed phase of `Generate` run up to its `Set` call for cell `(row, col)` of the loop
over diagonal region `region`: the draws `start` and `val` of that region, the counter `i`
and the board at that call. -/
def seedPrefix (s : Sudoku) (region row col : Nat) : Exec (Int × Int × Int × Sudoku) := do
  let s := { s with generating := true }
  let s ← s.Clear
  let s ← forLoop seedRegion region 0 s
  let (n, rand) ← s.rand.Intn 1000
  let s := { s with rand := rand }
  let start := n + 1
  let (n, rand) ← s.rand.Intn 1000
  let s := { s with rand := rand }
  let val := n + 1
  let st ← forLoop
    (fun row st => forLoop (seedCell (region : Int) start val row) s.size.toNat 0 st)
    row 0 ((0 : Int), s)
  let st ← forLoop (seedCell (region : Int) start val (row : Int)) col 0 st
  pure (start, val, st.1, st.2)

/-- The seed phase of `Generate` resumed after its `Set` call for cell `(row, col)` of the
loop over diagonal region `region` of a board of region size `k`: the rest of the loop over
the columns, then the rest of the loop over the rows, then the remaining regions. -/
def seedSuffix (k : Int) (region row col : Nat) (start val : Int) (st : Int × Sudoku) :
    Exec Sudoku := do
  let st ← forLoop (seedCell (region : Int) start val (row : Int)) (k.toNat - col - 1)
    ((col : Int) + 1) st
  let (_, s) ← forLoop
    (fun row st => forLoop (seedCell (region : Int) start val row) k.toNat 0 st)
    (k.toNat - row - 1) ((row : Int) + 1) st
  forLoop seedRegion (k.toNat - region - 1) ((region : Int) + 1) s

/-- A 10 by 7 bitmap on two words. -/
def exampleBitmap : Bitmap := ⟨10, 7, [5, 9]⟩

/-- The empty 9 by 9 board (`k = 3`). -/
def emptyBoard3 : Sudoku :=
  ⟨3, List.replicate 81 0, List.replicate 81 false, ⟨9, 9, [0, 0]⟩, ⟨9, 9, [0, 0]⟩,
    ⟨9, 9, [0, 0]⟩, exampleRand, false⟩

/-- The 9 by 9 board whose only nonempty cell is `(1, 0)`, holding `7`. -/
def sevenBoard3 : Sudoku :=
  ⟨3, (List.replicate 81 0).set 9 7, List.replicate 81 false, ⟨9, 9, [2 ^ 55, 0]⟩,
    ⟨9, 9, [2 ^ 54, 0]⟩, ⟨9, 9, [2 ^ 54, 0]⟩, exampleRand, false⟩

/-- The 4 by 4 board whose only nonempty cell is `(0, 0)`, holding `1`, with every lock flag
set. -/
def lockedBoard2 : Sudoku :=
  ⟨2, 1 :: List.replicate 15 0, List.replicate 16 true, ⟨4, 4, [1]⟩, ⟨4, 4, [1]⟩,
    ⟨4, 4, [1]⟩, exampleRand, false⟩

/-- The board `sevenBoard3` after `Remove(0, 5)`, a call on an empty cell. -/
def removedBoard3 : Sudoku := boardOf sevenBoard3 (sevenBoard3.Remove 0 5)

/-- The `float64` nearest to `11.11111111111111`. -/
def exampleFloat : Difficulty := mkRat 3127499741229511 281474976710656

/-- Whether a run produced the result `true`. -/
def returnsTrue (r : Exec (Bool × Sudoku)) : Bool :=
  match r with
  | .ok (true, _) => true
  | _ => false

/-- The board a run ended with (the given board when the run produced none). -/
def finalBoard (s : Sudoku) (r : Exec (Bool × Sudoku)) : Sudoku :=
  match r with
  | .ok (_, t) => t
  | .error _ => s

/-- Every nonzero cell of `t` holds the value it holds in `s`. -/
def Sudoku.CarvedFrom (s t : Sudoku) : Prop :=
  ∀ r : Int, 0 ≤ r → r < s.dim → ∀ c : Int, 0 ≤ c → c < s.dim →
    t.cell r c ≠ 0 → t.cell r c = s.cell r c

/-- The draw `start` of the seed loop for diagonal region `region`, when the seed phase
begins with the random source `rand`. -/
def seedStart (rand : Rand) (region : Int) : Int :=
  ((rand.draws (rand.pos + 2 * region.toNat) : Nat) : Int) % 1000 + 1

/-- The draw `val` of the seed loop for diagonal region `region`. -/
def seedVal (rand : Rand) (region : Int) : Int :=
  ((rand.draws (rand.pos + 2 * region.toNat + 1) : Nat) : Int) % 1000 + 1

/-- The cells written by the first `n` `Set` calls of the seed phase, when the draw `start`
of diagonal region `g` is `start g`: call number `g * (k * k) + row * k + col` writes the cell
at offsets `(row + start g) % k` and `(col + start g) % k` of region `g`. -/
def SeedVisited (k : Int) (start : Int → Int) (n r c : Int) : Prop :=
  ∃ g row col : Int, 0 ≤ g ∧ g < k ∧ 0 ≤ row ∧ row < k ∧ 0 ≤ col ∧ col < k ∧
    g * (k * k) + row * k + col < n ∧
    r = g * k + (row + start g) % k ∧ c = g * k + (col + start g) % k

/-- A grid built from one offset `a g` and one shift `s g` per band `g`: in the block of
row band `i` and column band `j`, the row at offset `p` holds the `k` consecutive symbols
from `a i + k * ((p - s i + j - i) mod k)` on, and the column at offset `q` holds the
symbols congruent to `a j + (q - s j) + (i - j)` modulo `k`. -/
def seedGrid (k : Int) (a s : Int → Int) (r c : Int) : Int :=
  (a (r / k) + k * ((r % k - s (r / k) + c / k - r / k) % k) +
    (a (c / k) - a (r / k) + c % k - s (c / k) + r / k - c / k) % k) % (k * k) + 1

/-- Total form of `Bitmap.Set`, for in-range positions. -/
def Bitmap.put (b : Bitmap) (x y : Int) (value : Bool) : Bitmap :=
  let index := y * b.width + x
  let w := b.data.getD (index / 64).toNat 0
  let bit := 2 ^ (index % 64).toNat
  let w := if value then w ||| bit else w &&& (bit ^^^ maxUint64)
  { b with data := b.data.set (index / 64).toNat w }

/-- The state after a successful `Set` on an empty cell. -/
def Sudoku.place (s : Sudoku) (r c v : Int) : Sudoku :=
  { s with
    data := s.data.set (r * s.dim + c).toNat v
    rows := s.rows.put r (v - 1) true
    cols := s.cols.put c (v - 1) true
    regions := s.regions.put (regionIndex s.size r c) (v - 1) true }

/-- The state after `Remove` on a cell holding `v`. -/
def Sudoku.erase (s : Sudoku) (r c : Int) : Sudoku :=
  { s with
    data := s.data.set (r * s.dim + c).toNat 0
    rows := s.rows.put r (s.cell r c - 1) false
    cols := s.cols.put c (s.cell r c - 1) false
    regions := s.regions.put (regionIndex s.size r c) (s.cell r c - 1) false }

/-- Whether `Set` finds `v` in the row, column or region of the cell. -/
def Sudoku.blocked (s : Sudoku) (r c v : Int) : Bool :=
  s.rows.bit r (v - 1) || s.cols.bit c (v - 1) ||
    s.regions.bit (regionIndex s.size r c) (v - 1)

/-! ## Predicates used in the proofs -/

/-- How a single-cell edit shows in the four views: cell `(r, c)` now holds `w`, and the
bit of value `u` of its row, column and region now is `β`. -/
structure Sudoku.EditView (s t : Sudoku) (r c w u : Int) (β : Bool) : Prop where
  dim_eq : t.dim = s.dim
  size_eq : t.size = s.size
  cell_eq : ∀ r' : Int, 0 ≤ r' → r' < s.dim → ∀ c' : Int, 0 ≤ c' → c' < s.dim →
    t.cell r' c' = if r' = r ∧ c' = c then w else s.cell r' c'
  rows_eq : ∀ x : Int, 0 ≤ x → x < s.dim → ∀ y : Int, 1 ≤ y → y < s.dim + 1 →
    t.rows.bit x (y - 1) = if x = r ∧ y = u then β else s.rows.bit x (y - 1)
  cols_eq : ∀ x : Int, 0 ≤ x → x < s.dim → ∀ y : Int, 1 ≤ y → y < s.dim + 1 →
    t.cols.bit x (y - 1) = if x = c ∧ y = u then β else s.cols.bit x (y - 1)
  regions_eq : ∀ x : Int, 0 ≤ x → x < s.dim → ∀ y : Int, 1 ≤ y → y < s.dim + 1 →
    t.regions.bit x (y - 1) =
      if x = regionIndex s.size r c ∧ y = u then β else s.regions.bit x (y - 1)

/-- What a finished run of `Solve` guarantees, for either result. -/
structure SolvePost (s : Sudoku) (b : Bool) (t : Sudoku) : Prop where
  wf : t.WF
  size_eq : t.size = s.size
  locked_eq : t.locked = s.locked
  generating_eq : t.generating = s.generating
  draws_eq : t.rand.draws = s.rand.draws
  pos_le : s.rand.pos ≤ t.rand.pos
  restored : b = false → t.data = s.data ∧ t.rows = s.rows ∧ t.cols = s.cols ∧
    t.regions = s.regions
  full : b = true → t.Full
  kept : b = true → s.KeptBy t
  consistent : b = true → s.Consistent → t.Consistent

/-- What holds of the board throughout the seed phase. -/
structure SeedInv (k : Int) (rand : Rand) (locked : List Bool) (gen : Bool)
    (G : Int → Int → Int) (s : Sudoku) : Prop where
  wf : s.WF
  consistent : s.Consistent
  size_eq : s.size = k
  rand_eq : s.rand = rand
  locked_eq : s.locked = locked
  generating_eq : s.generating = gen
  ext : s.ExtendedBy G

/-- What holds of the board after the first `n` `Set` calls of the seed phase: the seed
invariant, and the nonempty cells are the cells written so far. -/
structure SeedInv2 (k : Int) (rand : Rand) (locked : List Bool) (gen : Bool)
    (G : Int → Int → Int) (start : Int → Int) (n : Int) (s : Sudoku) : Prop where
  base : SeedInv k rand locked gen G s
  filled : ∀ r : Int, 0 ≤ r → r < k * k → ∀ c : Int, 0 ≤ c → c < k * k →
    (s.cell r c ≠ 0 ↔ SeedVisited k start n r c)

/-- The grid `G` holds, at the cell the seed loop writes at position `(row, col)` of region
`g`, the value the loop writes there with the draws `start g` and `val g`. -/
structure SeedDraws (k : Int) (G : Int → Int → Int) (start val : Int → Int) : Prop where
  pos : 0 < k
  valid : ValidGrid k G
  start_nonneg : ∀ g, 0 ≤ start g
  val_nonneg : ∀ g, 0 ≤ val g
  diag : ∀ g row col : Int, 0 ≤ row → row < k → 0 ≤ col → col < k →
    G (g * k + (row + start g) % k) (g * k + (col + start g) % k) =
      (val g + start g + (row * k + col)) % (k * k) + 1

/-! # Theorems -/

/-! ## Index arithmetic -/

theorem index_bounds {n x y : Int} (hx0 : 0 ≤ x) (hx : x < n) (hy0 : 0 ≤ y) (hy : y < n) :
    0 ≤ y * n + x ∧ y * n + x < n * n := by
  constructor
  · have : 0 ≤ y * n := Int.mul_nonneg hy0 (by omega)
    omega
  · have h1 : y * n ≤ (n - 1) * n := Int.mul_le_mul_of_nonneg_right (by omega) (by omega)
    have h2 : (n - 1) * n = n * n - n := by ring
    omega

theorem index_inj {n x y x' y' : Int} (hx0 : 0 ≤ x) (hx : x < n) (hx0' : 0 ≤ x') (hx' : x' < n)
    (h : y * n + x = y' * n + x') : x = x' ∧ y = y' := by
  have hn : 0 < n := by omega
  have e1 : (y * n + x) % n = x := by
    rw [Int.add_comm, Int.add_mul_emod_self]; exact Int.emod_eq_of_lt hx0 hx
  have e2 : (y' * n + x') % n = x' := by
    rw [Int.add_comm, Int.add_mul_emod_self]; exact Int.emod_eq_of_lt hx0' hx'
  have hxx : x = x' := by rw [← e1, ← e2, h]
  subst hxx
  have : y * n = y' * n := by omega
  exact ⟨rfl, Int.eq_of_mul_eq_mul_right (by omega) this⟩

/-! ## Slices -/

theorem sliceGet_eq {α : Type} (xs : List α) (i : Int) (d : α) (h0 : 0 ≤ i)
    (h : i < (xs.length : Int)) : sliceGet xs i = .ok (xs.getD i.toNat d) := by
  have hlt : i.toNat < xs.length := by omega
  unfold sliceGet
  rw [if_neg (by omega)]
  rw [List.getD_eq_getElem?_getD, List.getElem?_eq_getElem hlt]
  rfl

theorem sliceSet_eq {α : Type} (xs : List α) (i : Int) (x : α) (h0 : 0 ≤ i)
    (h : i < (xs.length : Int)) : sliceSet xs i x = .ok (xs.set i.toNat x) := by
  have hlt : i.toNat < xs.length := by omega
  unfold sliceSet
  rw [if_neg (by omega), if_pos hlt]

theorem sliceGet_ok_iff {α : Type} (xs : List α) (i : Int) (x : α) :
    sliceGet xs i = .ok x ↔ 0 ≤ i ∧ xs[i.toNat]? = some x := by
  unfold sliceGet
  by_cases h : i < 0
  · simp [h]
  · simp only [h, if_false]
    cases hx : xs[i.toNat]? with
    | none => simp
    | some y => simp; intro _; omega

theorem sliceSet_ok_iff {α : Type} (xs ys : List α) (i : Int) (x : α) :
    sliceSet xs i x = .ok ys ↔ 0 ≤ i ∧ i.toNat < xs.length ∧ ys = xs.set i.toNat x := by
  unfold sliceSet
  by_cases h : i < 0
  · simp [h]
  · by_cases h2 : i.toNat < xs.length
    · simp [h, h2]; constructor
      · intro e; exact ⟨by omega, e.symm⟩
      · intro e; exact e.2.symm
    · simp [h, h2]

theorem getD_set_self {α : Type} (l : List α) (i : Nat) (a d : α) (h : i < l.length) :
    (l.set i a).getD i d = a := by
  rw [List.getD_eq_getElem?_getD, List.getElem?_set_self h]; rfl

theorem getD_set_ne {α : Type} (l : List α) {i j : Nat} (a d : α) (h : i ≠ j) :
    (l.set i a).getD j d = l.getD j d := by
  rw [List.getD_eq_getElem?_getD, List.getElem?_set_ne h, ← List.getD_eq_getElem?_getD]

theorem set_getD_self {α : Type} (l : List α) (i : Nat) (d : α) (h : i < l.length) :
    l.set i (l.getD i d) = l := by
  apply List.ext_getElem?
  intro j
  by_cases hij : i = j
  · subst hij
    rw [List.getElem?_set_self h, List.getD_eq_getElem _ _ h, List.getElem?_eq_getElem h]
  · rw [List.getElem?_set_ne hij]

theorem getD_lt_of_forall (l : List Nat) (i B : Nat) (hB : 0 < B) (h : ∀ w ∈ l, w < B) :
    l.getD i 0 < B := by
  rw [List.getD_eq_getElem?_getD]
  cases hg : l[i]? with
  | none => simpa using hB
  | some u => simpa using h u (List.getElem?_mem hg)

/-! ## Words -/

theorem and_shift_ne_zero (w k : Nat) : ((w &&& (1 <<< k)) != 0) = w.testBit k := by
  rw [Nat.one_shiftLeft, Nat.and_two_pow]
  cases h : w.testBit k <;> simp

theorem testBit_setBit (w k j : Nat) :
    (w ||| 2 ^ k).testBit j = (w.testBit j || decide (k = j)) := by
  rw [Nat.testBit_or, Nat.testBit_two_pow]

theorem testBit_clearBit (w k j : Nat) (hk : k < 64) :
    (w &&& (2 ^ k ^^^ maxUint64)).testBit j = (w.testBit j && decide (j < 64) && !decide (k = j)) := by
  unfold maxUint64
  rw [Nat.testBit_and, Nat.testBit_xor, Nat.testBit_two_pow, Nat.testBit_two_pow_sub_one]
  by_cases h1 : k = j <;> by_cases h2 : j < 64 <;> simp [h1, h2]
  omega

theorem setBit_lt (w k : Nat) (hw : w < 2 ^ 64) (hk : k < 64) : w ||| 2 ^ k < 2 ^ 64 :=
  Nat.or_lt_two_pow hw (Nat.pow_lt_pow_right (by decide) hk)

theorem clearBit_lt (w m : Nat) (hw : w < 2 ^ 64) : w &&& m < 2 ^ 64 :=
  Nat.lt_of_le_of_lt Nat.and_le_left hw

theorem clear_set_bit (w k : Nat) (hw : w < 2 ^ 64) (hk : k < 64) (hb : w.testBit k = false) :
    (w ||| 2 ^ k) &&& (2 ^ k ^^^ maxUint64) = w := by
  apply Nat.eq_of_testBit_eq
  intro j
  rw [testBit_clearBit _ _ _ hk, testBit_setBit]
  by_cases h1 : k = j
  · subst h1; simp [hb]
  · by_cases h2 : j < 64
    · simp [h1, h2]
    · have : w.testBit j = false :=
        Nat.testBit_lt_two_pow (Nat.lt_of_lt_of_le hw (Nat.pow_le_pow_right (by decide) (by omega)))
      simp [h1, h2, this]

/-! ## Bitmap -/

theorem Bitmap.word_index {n : Int} {b : Bitmap} (hb : b.WF n) {x y : Int}
    (hx0 : 0 ≤ x) (hx : x < n) (hy0 : 0 ≤ y) (hy : y < n) :
    0 ≤ y * b.width + x ∧ (y * b.width + x) / 64 < (b.data.length : Int) ∧
    Int.tdiv (y * b.width + x) 64 = (y * b.width + x) / 64 := by
  obtain ⟨hw, _, hlen, _⟩ := hb
  rw [hw]
  have hi := index_bounds hx0 hx hy0 hy
  refine ⟨hi.1, by omega, Int.tdiv_eq_ediv hi.1 (by decide)⟩

theorem Bitmap.At_word {n : Int} {b : Bitmap} (hb : b.WF n) {x y : Int}
    (hx0 : 0 ≤ x) (hx : x < n) (hy0 : 0 ≤ y) (hy : y < n) :
    b.At x y = .ok ((b.data.getD ((y * b.width + x) / 64).toNat 0).testBit
      ((y * b.width + x) % 64).toNat) := by
  obtain ⟨h0, hlt, htd⟩ := Bitmap.word_index hb hx0 hx hy0 hy
  unfold Bitmap.At
  simp only [htd]
  rw [sliceGet_eq _ _ 0 (by omega) hlt]
  simp only [bind, Except.bind, pure, Except.pure]
  rw [and_shift_ne_zero]

theorem Bitmap.bit_eq {n : Int} {b : Bitmap} (hb : b.WF n) {x y : Int}
    (hx0 : 0 ≤ x) (hx : x < n) (hy0 : 0 ≤ y) (hy : y < n) :
    b.bit x y = (b.data.getD ((y * b.width + x) / 64).toNat 0).testBit
      ((y * b.width + x) % 64).toNat := by
  unfold Bitmap.bit
  rw [Bitmap.At_word hb hx0 hx hy0 hy]

theorem Bitmap.At_bit {n : Int} {b : Bitmap} (hb : b.WF n) {x y : Int}
    (hx0 : 0 ≤ x) (hx : x < n) (hy0 : 0 ≤ y) (hy : y < n) :
    b.At x y = .ok (b.bit x y) := by
  rw [Bitmap.bit_eq hb hx0 hx hy0 hy, Bitmap.At_word hb hx0 hx hy0 hy]

theorem Bitmap.Set_put {n : Int} {b : Bitmap} (hb : b.WF n) {x y : Int}
    (hx0 : 0 ≤ x) (hx : x < n) (hy0 : 0 ≤ y) (hy : y < n) (v : Bool) :
    b.Set x y v = .ok (b.put x y v) := by
  obtain ⟨h0, hlt, htd⟩ := Bitmap.word_index hb hx0 hx hy0 hy
  unfold Bitmap.Set Bitmap.put
  simp only [htd]
  rw [sliceGet_eq _ _ 0 (by omega) hlt]
  simp only [bind, Except.bind, pure, Except.pure]
  rw [sliceSet_eq _ _ _ (by omega) hlt, Nat.one_shiftLeft]

theorem Bitmap.put_width (b : Bitmap) (x y : Int) (v : Bool) : (b.put x y v).width = b.width := rfl

theorem Bitmap.put_WF {n : Int} {b : Bitmap} (hb : b.WF n) (x y : Int) (v : Bool) :
    (b.put x y v).WF n := by
  obtain ⟨hw, hh, hlen, hwords⟩ := hb
  refine ⟨hw, hh, ?_, ?_⟩
  · simp only [Bitmap.put, List.length_set]; exact hlen
  · intro w hmem
    simp only [Bitmap.put] at hmem
    rcases List.mem_or_eq_of_mem_set hmem with h | h
    · exact hwords w h
    · have hk : ((y * b.width + x) % 64).toNat < 64 := by omega
      have hold : b.data.getD ((y * b.width + x) / 64).toNat 0 < 2 ^ 64 :=
        getD_lt_of_forall _ _ _ (by decide) hwords
      rw [h]
      split
      · exact setBit_lt _ _ hold hk
      · exact clearBit_lt _ _ hold

theorem Bitmap.bit_put {n : Int} {b : Bitmap} (hb : b.WF n) {x y x' y' : Int}
    (hx0 : 0 ≤ x) (hx : x < n) (hy0 : 0 ≤ y) (hy : y < n)
    (hx0' : 0 ≤ x') (hx' : x' < n) (hy0' : 0 ≤ y') (hy' : y' < n) (v : Bool) :
    (b.put x y v).bit x' y' = if x' = x ∧ y' = y then v else b.bit x' y' := by
  rw [Bitmap.bit_eq (Bitmap.put_WF hb x y v) hx0' hx' hy0' hy', Bitmap.bit_eq hb hx0' hx' hy0' hy']
  obtain ⟨h0, hlt, _⟩ := Bitmap.word_index hb hx0 hx hy0 hy
  obtain ⟨h0', hlt', _⟩ := Bitmap.word_index hb hx0' hx' hy0' hy'
  have hw := hb.1
  have hwords := hb.2.2.2
  rw [Bitmap.put_width]
  simp only [Bitmap.put]
  have hk : ((y * b.width + x) % 64).toNat < 64 := by omega
  have hk' : ((y' * b.width + x') % 64).toNat < 64 := by omega
  have hltn : ((y * b.width + x) / 64).toNat < b.data.length := by omega
  by_cases hsame : x' = x ∧ y' = y
  · obtain ⟨e1, e2⟩ := hsame
    subst e1 e2
    rw [if_pos (And.intro rfl rfl), getD_set_self _ _ _ _ hltn]
    cases v
    · simp only [Bool.false_eq_true, if_false]
      rw [testBit_clearBit _ _ _ hk]; simp
    · simp only [if_true]
      rw [testBit_setBit]; simp
  · rw [if_neg hsame]
    have hne : y * b.width + x ≠ y' * b.width + x' := by
      intro he
      rw [hw] at he
      obtain ⟨e1, e2⟩ := index_inj hx0 hx hx0' hx' he
      exact hsame ⟨e1.symm, e2.symm⟩
    by_cases hword : ((y * b.width + x) / 64).toNat = ((y' * b.width + x') / 64).toNat
    · have hbit : ((y * b.width + x) % 64).toNat ≠ ((y' * b.width + x') % 64).toNat := by omega
      rw [← hword, getD_set_self _ _ _ _ hltn]
      cases v
      · simp only [Bool.false_eq_true, if_false]
        rw [testBit_clearBit _ _ _ hk]
        simp [hbit, hk']
      · simp only [if_true]
        rw [testBit_setBit]; simp [hbit]
    · rw [getD_set_ne _ _ _ hword]

theorem Bitmap.put_put_cancel {n : Int} {b : Bitmap} (hb : b.WF n) {x y : Int}
    (hx0 : 0 ≤ x) (hx : x < n) (hy0 : 0 ≤ y) (hy : y < n) (hclear : b.bit x y = false) :
    (b.put x y true).put x y false = b := by
  rw [Bitmap.bit_eq hb hx0 hx hy0 hy] at hclear
  obtain ⟨h0, hlt, _⟩ := Bitmap.word_index hb hx0 hx hy0 hy
  have hwords := hb.2.2.2
  have hk : ((y * b.width + x) % 64).toNat < 64 := by omega
  have hlt' : ((y * b.width + x) / 64).toNat < b.data.length := by omega
  have hold : b.data.getD ((y * b.width + x) / 64).toNat 0 < 2 ^ 64 :=
    getD_lt_of_forall _ _ _ (by decide) hwords
  cases b with
  | mk width height data =>
    simp only [Bitmap.put] at *
    congr 1
    simp only [if_true, Bool.false_eq_true, if_false]
    rw [getD_set_self _ _ _ _ hlt', List.set_set, clear_set_bit _ _ hold hk hclear]
    exact set_getD_self _ _ _ hlt'

/-! ## Board accessors -/

theorem Sudoku.WF.dim_pos {s : Sudoku} (h : s.WF) : 0 < s.dim :=
  Int.mul_pos h.1 h.1

theorem Sudoku.cell_index {s : Sudoku} (h : s.WF) {r c : Int}
    (hr0 : 0 ≤ r) (hr : r < s.dim) (hc0 : 0 ≤ c) (hc : c < s.dim) :
    0 ≤ r * s.dim + c ∧ r * s.dim + c < (s.data.length : Int) ∧
      r * s.dim + c < (s.locked.length : Int) := by
  have hi := index_bounds hc0 hc hr0 hr
  rw [h.2.1, h.2.2.1]
  exact ⟨hi.1, hi.2, hi.2⟩

theorem Sudoku.At_eq {s : Sudoku} (h : s.WF) {r c : Int}
    (hr0 : 0 ≤ r) (hr : r < s.dim) (hc0 : 0 ≤ c) (hc : c < s.dim) :
    s.At r c = .ok (s.data.getD (r * s.dim + c).toNat 0) := by
  obtain ⟨h0, hlt, _⟩ := Sudoku.cell_index h hr0 hr hc0 hc
  unfold Sudoku.At
  exact sliceGet_eq _ _ 0 h0 hlt

theorem Sudoku.cell_eq {s : Sudoku} (h : s.WF) {r c : Int}
    (hr0 : 0 ≤ r) (hr : r < s.dim) (hc0 : 0 ≤ c) (hc : c < s.dim) :
    s.cell r c = s.data.getD (r * s.dim + c).toNat 0 := by
  unfold Sudoku.cell
  rw [Sudoku.At_eq h hr0 hr hc0 hc]

theorem Sudoku.At_ok {s : Sudoku} (h : s.WF) {r c : Int}
    (hr0 : 0 ≤ r) (hr : r < s.dim) (hc0 : 0 ≤ c) (hc : c < s.dim) :
    s.At r c = .ok (s.cell r c) := by
  rw [Sudoku.cell_eq h hr0 hr hc0 hc, Sudoku.At_eq h hr0 hr hc0 hc]

theorem Sudoku.Has_ok {s : Sudoku} (h : s.WF) {r c : Int}
    (hr0 : 0 ≤ r) (hr : r < s.dim) (hc0 : 0 ≤ c) (hc : c < s.dim) :
    s.Has r c = .ok (s.cell r c != 0) := by
  unfold Sudoku.Has
  rw [Sudoku.At_ok h hr0 hr hc0 hc]
  rfl

theorem Sudoku.Region_ok {s : Sudoku} (h : s.WF) (r c : Int) :
    s.Region r c = .ok (regionIndex s.size r c) := by
  have := h.1
  unfold Sudoku.Region regionIndex
  rw [if_neg (by omega)]

theorem Sudoku.regionOf_eq {s : Sudoku} (h : s.WF) (r c : Int) :
    s.regionOf r c = regionIndex s.size r c := by
  unfold Sudoku.regionOf
  rw [Sudoku.Region_ok h]

theorem div_bounds {k r : Int} (hk : 0 < k) (hr0 : 0 ≤ r) (hr : r < k * k) :
    0 ≤ r / k ∧ r / k < k := by
  constructor
  · exact Int.ediv_nonneg hr0 (by omega)
  · exact Int.ediv_lt_of_lt_mul hk hr

theorem regionIndex_eq {k r c : Int} (hr0 : 0 ≤ r) (hc0 : 0 ≤ c) (hk : 0 < k) :
    regionIndex k r c = r / k * k + c / k := by
  unfold regionIndex
  rw [Int.tdiv_eq_ediv hr0 (by omega), Int.tdiv_eq_ediv hc0 (by omega)]

theorem regionIndex_bounds {k r c : Int} (hk : 0 < k) (hr0 : 0 ≤ r) (hr : r < k * k)
    (hc0 : 0 ≤ c) (hc : c < k * k) :
    0 ≤ regionIndex k r c ∧ regionIndex k r c < k * k := by
  rw [regionIndex_eq hr0 hc0 hk]
  obtain ⟨a0, a1⟩ := div_bounds hk hr0 hr
  obtain ⟨b0, b1⟩ := div_bounds hk hc0 hc
  exact index_bounds b0 b1 a0 a1

theorem regionIndex_eq_iff {k r c r' c' : Int} (hk : 0 < k) (hr0 : 0 ≤ r) (hr : r < k * k)
    (hc0 : 0 ≤ c) (hc : c < k * k) (hr0' : 0 ≤ r') (hr' : r' < k * k)
    (hc0' : 0 ≤ c') (hc' : c' < k * k) :
    regionIndex k r c = regionIndex k r' c' ↔ r / k = r' / k ∧ c / k = c' / k := by
  rw [regionIndex_eq hr0 hc0 hk, regionIndex_eq hr0' hc0' hk]
  obtain ⟨_, _⟩ := div_bounds hk hr0 hr
  obtain ⟨b0, b1⟩ := div_bounds hk hc0 hc
  obtain ⟨_, _⟩ := div_bounds hk hr0' hr'
  obtain ⟨b0', b1'⟩ := div_bounds hk hc0' hc'
  constructor
  · intro h
    obtain ⟨e1, e2⟩ := index_inj b0 b1 b0' b1' h
    exact ⟨e2, e1⟩
  · rintro ⟨e1, e2⟩
    rw [e1, e2]

theorem Sudoku.region_bounds {s : Sudoku} (h : s.WF) {r c : Int}
    (hr0 : 0 ≤ r) (hr : r < s.dim) (hc0 : 0 ≤ c) (hc : c < s.dim) :
    0 ≤ regionIndex s.size r c ∧ regionIndex s.size r c < s.dim :=
  regionIndex_bounds h.1 hr0 hr hc0 hc

/-! ## Set and Remove as total functions -/

theorem Sudoku.Set_eq {s : Sudoku} (h : s.WF) {r c v : Int}
    (hr0 : 0 ≤ r) (hr : r < s.dim) (hc0 : 0 ≤ c) (hc : c < s.dim)
    (hv1 : 1 ≤ v) (hv : v ≤ s.dim) (hcell0 : 0 ≤ s.cell r c) (hcell : s.cell r c ≤ s.dim) :
    s.Set r c v = .ok (if s.blocked r c v then (false, s)
      else (true, (if s.cell r c = 0 then s else s.erase r c).place r c v)) := by
  obtain ⟨g0, g1⟩ := Sudoku.region_bounds h hr0 hr hc0 hc
  obtain ⟨hsz, hdata, hlocked, hrows, hcols, hregs⟩ := h
  have h : s.WF := ⟨hsz, hdata, hlocked, hrows, hcols, hregs⟩
  obtain ⟨i0, i1, _⟩ := Sudoku.cell_index h hr0 hr hc0 hc
  have eR := Bitmap.At_bit hrows hr0 hr (show 0 ≤ v - 1 by omega) (show v - 1 < s.dim by omega)
  have eC := Bitmap.At_bit hcols hc0 hc (show 0 ≤ v - 1 by omega) (show v - 1 < s.dim by omega)
  have eG := Bitmap.At_bit hregs g0 g1 (show 0 ≤ v - 1 by omega) (show v - 1 < s.dim by omega)
  have sR := Bitmap.Set_put hrows hr0 hr (show 0 ≤ v - 1 by omega) (show v - 1 < s.dim by omega) true
  have sC := Bitmap.Set_put hcols hc0 hc (show 0 ≤ v - 1 by omega) (show v - 1 < s.dim by omega) true
  have sG := Bitmap.Set_put hregs g0 g1 (show 0 ≤ v - 1 by omega) (show v - 1 < s.dim by omega) true
  have eD := sliceSet_eq s.data _ v i0 i1
  unfold Sudoku.dim at eD
  unfold Sudoku.Set Sudoku.blocked
  rw [Sudoku.Region_ok h, Sudoku.Has_ok h hr0 hr hc0 hc, Sudoku.At_ok h hr0 hr hc0 hc]
  simp only [bind, Except.bind, pure, Except.pure, eR, eC, eG]
  cases hb1 : s.rows.bit r (v - 1)
  · cases hb2 : s.cols.bit c (v - 1)
    · cases hb3 : s.regions.bit (regionIndex s.size r c) (v - 1)
      · simp only [Bool.false_eq_true, if_false, Bool.or_self]
        by_cases hz : s.cell r c = 0
        · simp only [hz, bne_self_eq_false, Bool.false_eq_true, if_false, if_true, eD, sR, sC, sG]
          rfl
        · have hne : (s.cell r c != 0) = true := by simpa using hz
          have tR := Bitmap.Set_put hrows hr0 hr (show 0 ≤ s.cell r c - 1 by omega)
            (show s.cell r c - 1 < s.dim by omega) false
          have tC := Bitmap.Set_put hcols hc0 hc (show 0 ≤ s.cell r c - 1 by omega)
            (show s.cell r c - 1 < s.dim by omega) false
          have tG := Bitmap.Set_put hregs g0 g1 (show 0 ≤ s.cell r c - 1 by omega)
            (show s.cell r c - 1 < s.dim by omega) false
          have uR := Bitmap.Set_put (Bitmap.put_WF hrows r (s.cell r c - 1) false) hr0 hr
            (show 0 ≤ v - 1 by omega) (show v - 1 < s.dim by omega) true
          have uC := Bitmap.Set_put (Bitmap.put_WF hcols c (s.cell r c - 1) false) hc0 hc
            (show 0 ≤ v - 1 by omega) (show v - 1 < s.dim by omega) true
          have uG := Bitmap.Set_put (Bitmap.put_WF hregs (regionIndex s.size r c) (s.cell r c - 1) false)
            g0 g1 (show 0 ≤ v - 1 by omega) (show v - 1 < s.dim by omega) true
          simp only [hne, if_true, hz, if_false, tR, tC, tG, eD, uR, uC, uG]
          simp only [Sudoku.place, Sudoku.erase, Sudoku.dim, List.set_set]
      · simp
    · simp
  · simp

theorem Sudoku.Remove_eq {s : Sudoku} (h : s.WF) {r c : Int}
    (hr0 : 0 ≤ r) (hr : r < s.dim) (hc0 : 0 ≤ c) (hc : c < s.dim)
    (hcell1 : 1 ≤ s.cell r c) (hcell : s.cell r c ≤ s.dim) :
    s.Remove r c = .ok (s.erase r c) := by
  obtain ⟨g0, g1⟩ := Sudoku.region_bounds h hr0 hr hc0 hc
  obtain ⟨hsz, hdata, hlocked, hrows, hcols, hregs⟩ := h
  have h : s.WF := ⟨hsz, hdata, hlocked, hrows, hcols, hregs⟩
  obtain ⟨i0, i1, _⟩ := Sudoku.cell_index h hr0 hr hc0 hc
  have tR := Bitmap.Set_put hrows hr0 hr (show 0 ≤ s.cell r c - 1 by omega)
    (show s.cell r c - 1 < s.dim by omega) false
  have tC := Bitmap.Set_put hcols hc0 hc (show 0 ≤ s.cell r c - 1 by omega)
    (show s.cell r c - 1 < s.dim by omega) false
  have tG := Bitmap.Set_put hregs g0 g1 (show 0 ≤ s.cell r c - 1 by omega)
    (show s.cell r c - 1 < s.dim by omega) false
  have eD := sliceSet_eq s.data _ 0 i0 i1
  have eA := Sudoku.At_ok h hr0 hr hc0 hc
  unfold Sudoku.At at eA
  unfold Sudoku.dim at eD
  unfold Sudoku.Remove
  rw [Sudoku.Region_ok h]
  simp only [bind, Except.bind, pure, Except.pure, eA, eD, tR, tC, tG]
  rfl

/-! ## Storage invariant -/

theorem Sudoku.place_WF {s : Sudoku} (h : s.WF) (r c v : Int) : (s.place r c v).WF := by
  obtain ⟨hsz, hdata, hlocked, hrows, hcols, hregs⟩ := h
  refine ⟨hsz, ?_, hlocked, Bitmap.put_WF hrows _ _ _, Bitmap.put_WF hcols _ _ _,
    Bitmap.put_WF hregs _ _ _⟩
  simp only [Sudoku.place, List.length_set]
  exact hdata

theorem Sudoku.erase_WF {s : Sudoku} (h : s.WF) (r c : Int) : (s.erase r c).WF := by
  obtain ⟨hsz, hdata, hlocked, hrows, hcols, hregs⟩ := h
  refine ⟨hsz, ?_, hlocked, Bitmap.put_WF hrows _ _ _, Bitmap.put_WF hcols _ _ _,
    Bitmap.put_WF hregs _ _ _⟩
  simp only [Sudoku.erase, List.length_set]
  exact hdata

theorem Sudoku.withRand_WF {s : Sudoku} (h : s.WF) (rand : Rand) :
    ({ s with rand := rand } : Sudoku).WF := h

/-! ## Views after an edit -/

theorem Sudoku.cell_place {s : Sudoku} (h : s.WF) {r c r' c' : Int} (v : Int)
    (hr0 : 0 ≤ r) (hr : r < s.dim) (hc0 : 0 ≤ c) (hc : c < s.dim)
    (hr0' : 0 ≤ r') (hr' : r' < s.dim) (hc0' : 0 ≤ c') (hc' : c' < s.dim) :
    (s.place r c v).cell r' c' = if r' = r ∧ c' = c then v else s.cell r' c' := by
  rw [Sudoku.cell_eq (Sudoku.place_WF h r c v) hr0' hr' hc0' hc', Sudoku.cell_eq h hr0' hr' hc0' hc']
  obtain ⟨i0, i1, _⟩ := Sudoku.cell_index h hr0 hr hc0 hc
  obtain ⟨j0, j1, _⟩ := Sudoku.cell_index h hr0' hr' hc0' hc'
  show (s.data.set (r * s.dim + c).toNat v).getD (r' * s.dim + c').toNat 0 = _
  by_cases hsame : r' = r ∧ c' = c
  · obtain ⟨e1, e2⟩ := hsame
    subst e1 e2
    rw [if_pos (And.intro rfl rfl), getD_set_self _ _ _ _ (by omega)]
  · rw [if_neg hsame]
    apply getD_set_ne
    intro he
    have he' : r * s.dim + c = r' * s.dim + c' := by omega
    obtain ⟨e1, e2⟩ := index_inj hc0 hc hc0' hc' he'
    exact hsame ⟨e2.symm, e1.symm⟩

theorem Sudoku.cell_erase {s : Sudoku} (h : s.WF) {r c r' c' : Int}
    (hr0 : 0 ≤ r) (hr : r < s.dim) (hc0 : 0 ≤ c) (hc : c < s.dim)
    (hr0' : 0 ≤ r') (hr' : r' < s.dim) (hc0' : 0 ≤ c') (hc' : c' < s.dim) :
    (s.erase r c).cell r' c' = if r' = r ∧ c' = c then 0 else s.cell r' c' := by
  rw [Sudoku.cell_eq (Sudoku.erase_WF h r c) hr0' hr' hc0' hc', Sudoku.cell_eq h hr0' hr' hc0' hc']
  obtain ⟨i0, i1, _⟩ := Sudoku.cell_index h hr0 hr hc0 hc
  obtain ⟨j0, j1, _⟩ := Sudoku.cell_index h hr0' hr' hc0' hc'
  show (s.data.set (r * s.dim + c).toNat 0).getD (r' * s.dim + c').toNat 0 = _
  by_cases hsame : r' = r ∧ c' = c
  · obtain ⟨e1, e2⟩ := hsame
    subst e1 e2
    rw [if_pos (And.intro rfl rfl), getD_set_self _ _ _ _ (by omega)]
  · rw [if_neg hsame]
    apply getD_set_ne
    intro he
    have he' : r * s.dim + c = r' * s.dim + c' := by omega
    obtain ⟨e1, e2⟩ := index_inj hc0 hc hc0' hc' he'
    exact hsame ⟨e2.symm, e1.symm⟩

theorem Sudoku.erase_place {s : Sudoku} (h : s.WF) {r c v : Int}
    (hr0 : 0 ≤ r) (hr : r < s.dim) (hc0 : 0 ≤ c) (hc : c < s.dim)
    (hv1 : 1 ≤ v) (hv : v ≤ s.dim) (hcell : s.cell r c = 0) (hfree : s.blocked r c v = false) :
    (s.place r c v).erase r c = s := by
  obtain ⟨g0, g1⟩ := Sudoku.region_bounds h hr0 hr hc0 hc
  have hcv : (s.place r c v).cell r c = v := by
    rw [Sudoku.cell_place h v hr0 hr hc0 hc hr0 hr hc0 hc, if_pos (And.intro rfl rfl)]
  obtain ⟨i0, i1, _⟩ := Sudoku.cell_index h hr0 hr hc0 hc
  have hd : s.data.getD (r * s.dim + c).toNat 0 = 0 := by
    rw [← Sudoku.cell_eq h hr0 hr hc0 hc]; exact hcell
  unfold Sudoku.blocked at hfree
  simp only [Bool.or_eq_false_iff] at hfree
  obtain ⟨⟨f1, f2⟩, f3⟩ := hfree
  obtain ⟨hsz, hdata, hlocked, hrows, hcols, hregs⟩ := h
  have e1 := Bitmap.put_put_cancel hrows hr0 hr (show 0 ≤ v - 1 by omega)
    (show v - 1 < s.dim by omega) f1
  have e2 := Bitmap.put_put_cancel hcols hc0 hc (show 0 ≤ v - 1 by omega)
    (show v - 1 < s.dim by omega) f2
  have e3 := Bitmap.put_put_cancel hregs g0 g1 (show 0 ≤ v - 1 by omega)
    (show v - 1 < s.dim by omega) f3
  unfold Sudoku.erase
  rw [hcv]
  cases s with
  | mk size data locked rows cols regions rand generating =>
    simp only [Sudoku.place, Sudoku.dim] at *
    rw [e1, e2, e3, List.set_set, ← hd, set_getD_self _ _ _ (by omega)]

theorem Sudoku.place_dim (s : Sudoku) (r c v : Int) : (s.place r c v).dim = s.dim := rfl
theorem Sudoku.erase_dim (s : Sudoku) (r c : Int) : (s.erase r c).dim = s.dim := rfl
theorem Sudoku.place_size (s : Sudoku) (r c v : Int) : (s.place r c v).size = s.size := rfl
theorem Sudoku.erase_size (s : Sudoku) (r c : Int) : (s.erase r c).size = s.size := rfl

theorem Sudoku.place_view {s : Sudoku} (h : s.WF) {r c v : Int}
    (hr0 : 0 ≤ r) (hr : r < s.dim) (hc0 : 0 ≤ c) (hc : c < s.dim)
    (hv1 : 1 ≤ v) (hv : v ≤ s.dim) : Sudoku.EditView s (s.place r c v) r c v v true := by
  obtain ⟨g0, g1⟩ := Sudoku.region_bounds h hr0 hr hc0 hc
  refine ⟨rfl, rfl, ?_, ?_, ?_, ?_⟩
  · intro r' a b c' a' b'
    exact Sudoku.cell_place h v hr0 hr hc0 hc a b a' b'
  · intro x a b y a' b'
    have := Bitmap.bit_put h.2.2.2.1 hr0 hr (show 0 ≤ v - 1 by omega)
      (show v - 1 < s.dim by omega) a b (show 0 ≤ y - 1 by omega) (show y - 1 < s.dim by omega) true
    rw [show (s.place r c v).rows = s.rows.put r (v - 1) true from rfl, this]
    congr 1
    apply propext
    constructor <;> rintro ⟨e1, e2⟩ <;> exact ⟨e1, by omega⟩
  · intro x a b y a' b'
    have := Bitmap.bit_put h.2.2.2.2.1 hc0 hc (show 0 ≤ v - 1 by omega)
      (show v - 1 < s.dim by omega) a b (show 0 ≤ y - 1 by omega) (show y - 1 < s.dim by omega) true
    rw [show (s.place r c v).cols = s.cols.put c (v - 1) true from rfl, this]
    congr 1
    apply propext
    constructor <;> rintro ⟨e1, e2⟩ <;> exact ⟨e1, by omega⟩
  · intro x a b y a' b'
    have := Bitmap.bit_put h.2.2.2.2.2 g0 g1 (show 0 ≤ v - 1 by omega)
      (show v - 1 < s.dim by omega) a b (show 0 ≤ y - 1 by omega) (show y - 1 < s.dim by omega) true
    rw [show (s.place r c v).regions = s.regions.put (regionIndex s.size r c) (v - 1) true from rfl,
      this]
    congr 1
    apply propext
    constructor <;> rintro ⟨e1, e2⟩ <;> exact ⟨e1, by omega⟩

theorem Sudoku.erase_view {s : Sudoku} (h : s.WF) {r c : Int}
    (hr0 : 0 ≤ r) (hr : r < s.dim) (hc0 : 0 ≤ c) (hc : c < s.dim)
    (hv1 : 1 ≤ s.cell r c) (hv : s.cell r c ≤ s.dim) :
    Sudoku.EditView s (s.erase r c) r c 0 (s.cell r c) false := by
  obtain ⟨g0, g1⟩ := Sudoku.region_bounds h hr0 hr hc0 hc
  refine ⟨rfl, rfl, ?_, ?_, ?_, ?_⟩
  · intro r' a b c' a' b'
    exact Sudoku.cell_erase h hr0 hr hc0 hc a b a' b'
  · intro x a b y a' b'
    have := Bitmap.bit_put h.2.2.2.1 hr0 hr (show 0 ≤ s.cell r c - 1 by omega)
      (show s.cell r c - 1 < s.dim by omega) a b (show 0 ≤ y - 1 by omega)
      (show y - 1 < s.dim by omega) false
    rw [show (s.erase r c).rows = s.rows.put r (s.cell r c - 1) false from rfl, this]
    congr 1
    apply propext
    constructor <;> rintro ⟨e1, e2⟩ <;> exact ⟨e1, by omega⟩
  · intro x a b y a' b'
    have := Bitmap.bit_put h.2.2.2.2.1 hc0 hc (show 0 ≤ s.cell r c - 1 by omega)
      (show s.cell r c - 1 < s.dim by omega) a b (show 0 ≤ y - 1 by omega)
      (show y - 1 < s.dim by omega) false
    rw [show (s.erase r c).cols = s.cols.put c (s.cell r c - 1) false from rfl, this]
    congr 1
    apply propext
    constructor <;> rintro ⟨e1, e2⟩ <;> exact ⟨e1, by omega⟩
  · intro x a b y a' b'
    have := Bitmap.bit_put h.2.2.2.2.2 g0 g1 (show 0 ≤ s.cell r c - 1 by omega)
      (show s.cell r c - 1 < s.dim by omega) a b (show 0 ≤ y - 1 by omega)
      (show y - 1 < s.dim by omega) false
    rw [show (s.erase r c).regions = s.regions.put (regionIndex s.size r c) (s.cell r c - 1) false
      from rfl, this]
    congr 1
    apply propext
    constructor <;> rintro ⟨e1, e2⟩ <;> exact ⟨e1, by omega⟩

theorem Sudoku.Consistent.of_place {s t : Sudoku} (hs : s.WF) (ht : t.WF) (hcons : s.Consistent)
    {r c v : Int} (hr0 : 0 ≤ r) (hr : r < s.dim) (hc0 : 0 ≤ c) (hc : c < s.dim)
    (hv1 : 1 ≤ v) (hv : v ≤ s.dim) (hE : Sudoku.EditView s t r c v v true)
    (hcell : s.cell r c = 0) (hfree : s.blocked r c v = false) : t.Consistent := by
  obtain ⟨hVal, hRA, hCA, hGA, hRD, hCD, hGD⟩ := hcons
  obtain ⟨hdim, hsize, hcellE, hrowsE, hcolsE, hregsE⟩ := hE
  have hregT : ∀ a b, t.regionOf a b = regionIndex s.size a b := by
    intro a b; rw [Sudoku.regionOf_eq ht, hsize]
  have hregS : ∀ a b, s.regionOf a b = regionIndex s.size a b := Sudoku.regionOf_eq hs
  obtain ⟨g0, g1⟩ := Sudoku.region_bounds hs hr0 hr hc0 hc
  unfold Sudoku.blocked at hfree
  simp only [Bool.or_eq_false_iff] at hfree
  obtain ⟨⟨f1, f2⟩, f3⟩ := hfree
  have nr : ∀ c1 : Int, 0 ≤ c1 → c1 < s.dim → s.cell r c1 ≠ v := by
    intro c1 a b e
    have := (hRA r hr0 hr v hv1 (by omega)).2 ⟨c1, a, b, e⟩
    rw [f1] at this; exact absurd this (by simp)
  have nc : ∀ r1 : Int, 0 ≤ r1 → r1 < s.dim → s.cell r1 c ≠ v := by
    intro r1 a b e
    have := (hCA c hc0 hc v hv1 (by omega)).2 ⟨r1, a, b, e⟩
    rw [f2] at this; exact absurd this (by simp)
  have ng : ∀ r1 : Int, 0 ≤ r1 → r1 < s.dim → ∀ c1 : Int, 0 ≤ c1 → c1 < s.dim →
      regionIndex s.size r1 c1 = regionIndex s.size r c → s.cell r1 c1 ≠ v := by
    intro r1 a b c1 a' b' hg e
    have := (hGA _ g0 g1 v hv1 (by omega)).2 ⟨r1, a, b, c1, a', b', by rw [hregS]; exact hg, e⟩
    rw [f3] at this; exact absurd this (by simp)
  refine ⟨?_, ?_, ?_, ?_, ?_, ?_, ?_⟩
  · intro r1 a b c1 a' b'
    rw [hdim] at b b' ⊢
    rw [hcellE r1 a b c1 a' b']
    split
    · omega
    · exact hVal r1 a b c1 a' b'
  · intro r1 a b v1 a' b'
    rw [hdim] at b b' ⊢
    rw [hrowsE r1 a b v1 a' b']
    by_cases hx : r1 = r ∧ v1 = v
    · obtain ⟨e1, e2⟩ := hx
      subst e1 e2
      simp only [and_self, if_true, true_iff]
      exact ⟨c, hc0, hc, by rw [hcellE r1 a b c hc0 hc, if_pos (And.intro rfl rfl)]⟩
    · rw [if_neg hx, hRA r1 a b v1 a' b']
      constructor
      · rintro ⟨c1, p, q, e⟩
        refine ⟨c1, p, q, ?_⟩
        rw [hcellE r1 a b c1 p q, if_neg]
        · exact e
        · rintro ⟨e1, e2⟩
          subst e1 e2
          omega
      · rintro ⟨c1, p, q, e⟩
        rw [hcellE r1 a b c1 p q] at e
        split at e
        · rename_i hh
          exact absurd ⟨hh.1, e.symm⟩ hx
        · exact ⟨c1, p, q, e⟩
  · intro c1 a b v1 a' b'
    rw [hdim] at b b' ⊢
    rw [hcolsE c1 a b v1 a' b']
    by_cases hx : c1 = c ∧ v1 = v
    · obtain ⟨e1, e2⟩ := hx
      subst e1 e2
      simp only [and_self, if_true, true_iff]
      exact ⟨r, hr0, hr, by rw [hcellE r hr0 hr c1 a b, if_pos (And.intro rfl rfl)]⟩
    · rw [if_neg hx, hCA c1 a b v1 a' b']
      constructor
      · rintro ⟨r1, p, q, e⟩
        refine ⟨r1, p, q, ?_⟩
        rw [hcellE r1 p q c1 a b, if_neg]
        · exact e
        · rintro ⟨e1, e2⟩
          subst e1 e2
          omega
      · rintro ⟨r1, p, q, e⟩
        rw [hcellE r1 p q c1 a b] at e
        split at e
        · rename_i hh
          exact absurd ⟨hh.2, e.symm⟩ hx
        · exact ⟨r1, p, q, e⟩
  · intro g a b v1 a' b'
    rw [hdim] at b b' ⊢
    rw [hregsE g a b v1 a' b']
    by_cases hx : g = regionIndex s.size r c ∧ v1 = v
    · obtain ⟨e1, e2⟩ := hx
      subst e1 e2
      simp only [and_self, if_true, true_iff]
      exact ⟨r, hr0, hr, c, hc0, hc, hregT r c,
        by rw [hcellE r hr0 hr c hc0 hc, if_pos (And.intro rfl rfl)]⟩
    · rw [if_neg hx, hGA g a b v1 a' b']
      constructor
      · rintro ⟨r1, p, q, c1, p', q', eg, e⟩
        refine ⟨r1, p, q, c1, p', q', by rw [hregT, ← hregS]; exact eg, ?_⟩
        rw [hcellE r1 p q c1 p' q', if_neg]
        · exact e
        · rintro ⟨e1, e2⟩
          subst e1 e2
          omega
      · rintro ⟨r1, p, q, c1, p', q', eg, e⟩
        rw [hcellE r1 p q c1 p' q'] at e
        split at e
        · rename_i hh
          obtain ⟨e1, e2⟩ := hh
          subst e1 e2
          exact absurd ⟨by rw [← eg, hregT], e.symm⟩ hx
        · exact ⟨r1, p, q, c1, p', q', by rw [hregS, ← hregT]; exact eg, e⟩
  · intro r1 a b c1 a' b' c2 a'' b'' hne heq
    rw [hdim] at b b' b''
    rw [hcellE r1 a b c1 a' b'] at hne heq
    rw [hcellE r1 a b c2 a'' b''] at heq
    by_cases h1 : r1 = r ∧ c1 = c
    · by_cases h2 : r1 = r ∧ c2 = c
      · rw [h1.2, h2.2]
      · rw [if_pos h1, if_neg h2] at heq
        rw [h1.1] at heq
        exact absurd heq.symm (nr c2 a'' b'')
    · by_cases h2 : r1 = r ∧ c2 = c
      · rw [if_neg h1, if_pos h2] at heq
        rw [h2.1] at heq
        exact absurd heq (nr c1 a' b')
      · rw [if_neg h1] at hne
        rw [if_neg h1, if_neg h2] at heq
        exact hRD r1 a b c1 a' b' c2 a'' b'' hne heq
  · intro c1 a b r1 a' b' r2 a'' b'' hne heq
    rw [hdim] at b b' b''
    rw [hcellE r1 a' b' c1 a b] at hne heq
    rw [hcellE r2 a'' b'' c1 a b] at heq
    by_cases h1 : r1 = r ∧ c1 = c
    · by_cases h2 : r2 = r ∧ c1 = c
      · rw [h1.1, h2.1]
      · rw [if_pos h1, if_neg h2] at heq
        rw [h1.2] at heq
        exact absurd heq.symm (nc r2 a'' b'')
    · by_cases h2 : r2 = r ∧ c1 = c
      · rw [if_neg h1, if_pos h2] at heq
        rw [h2.2] at heq
        exact absurd heq (nc r1 a' b')
      · rw [if_neg h1] at hne
        rw [if_neg h1, if_neg h2] at heq
        exact hCD c1 a b r1 a' b' r2 a'' b'' hne heq
  · intro r1 a b c1 a' b' r2 a'' b'' c2 a3 b3 hne hg heq
    rw [hdim] at b b' b'' b3
    rw [hcellE r1 a b c1 a' b'] at hne heq
    rw [hcellE r2 a'' b'' c2 a3 b3] at heq
    rw [hregT, hregT] at hg
    by_cases h1 : r1 = r ∧ c1 = c
    · by_cases h2 : r2 = r ∧ c2 = c
      · exact ⟨by rw [h1.1, h2.1], by rw [h1.2, h2.2]⟩
      · rw [if_pos h1, if_neg h2] at heq
        rw [h1.1, h1.2] at hg
        exact absurd heq.symm (ng r2 a'' b'' c2 a3 b3 hg.symm)
    · by_cases h2 : r2 = r ∧ c2 = c
      · rw [if_neg h1, if_pos h2] at heq
        rw [h2.1, h2.2] at hg
        exact absurd heq (ng r1 a b c1 a' b' hg)
      · rw [if_neg h1] at hne
        rw [if_neg h1, if_neg h2] at heq
        exact hGD r1 a b c1 a' b' r2 a'' b'' c2 a3 b3 hne (by rw [hregS, hregS]; exact hg) heq

theorem Sudoku.Consistent.of_erase {s t : Sudoku} (hs : s.WF) (ht : t.WF) (hcons : s.Consistent)
    {r c : Int} (hr0 : 0 ≤ r) (hr : r < s.dim) (hc0 : 0 ≤ c) (hc : c < s.dim)
    (hu1 : 1 ≤ s.cell r c) (hE : Sudoku.EditView s t r c 0 (s.cell r c) false) :
    t.Consistent := by
  obtain ⟨hVal, hRA, hCA, hGA, hRD, hCD, hGD⟩ := hcons
  obtain ⟨hdim, hsize, hcellE, hrowsE, hcolsE, hregsE⟩ := hE
  have hregT : ∀ a b, t.regionOf a b = regionIndex s.size a b := by
    intro a b; rw [Sudoku.regionOf_eq ht, hsize]
  have hregS : ∀ a b, s.regionOf a b = regionIndex s.size a b := Sudoku.regionOf_eq hs
  have hune : s.cell r c ≠ 0 := by omega
  refine ⟨?_, ?_, ?_, ?_, ?_, ?_, ?_⟩
  · intro r1 a b c1 a' b'
    rw [hdim] at b b' ⊢
    rw [hcellE r1 a b c1 a' b']
    split
    · omega
    · exact hVal r1 a b c1 a' b'
  · intro r1 a b v1 a' b'
    rw [hdim] at b b' ⊢
    rw [hrowsE r1 a b v1 a' b']
    by_cases hx : r1 = r ∧ v1 = s.cell r c
    · obtain ⟨e1, e2⟩ := hx
      subst e1
      rw [if_pos ⟨rfl, e2⟩]
      simp only [Bool.false_eq_true, false_iff]
      rintro ⟨c1, p, q, e⟩
      rw [hcellE r1 a b c1 p q] at e
      split at e
      · omega
      · rename_i hh
        have := hRD r1 a b c hc0 hc c1 p q hune (by rw [e, e2])
        exact hh ⟨rfl, this.symm⟩
    · rw [if_neg hx, hRA r1 a b v1 a' b']
      constructor
      · rintro ⟨c1, p, q, e⟩
        refine ⟨c1, p, q, ?_⟩
        rw [hcellE r1 a b c1 p q, if_neg]
        · exact e
        · rintro ⟨e1, e2⟩
          subst e1 e2
          exact hx ⟨rfl, e.symm⟩
      · rintro ⟨c1, p, q, e⟩
        rw [hcellE r1 a b c1 p q] at e
        split at e
        · omega
        · exact ⟨c1, p, q, e⟩
  · intro c1 a b v1 a' b'
    rw [hdim] at b b' ⊢
    rw [hcolsE c1 a b v1 a' b']
    by_cases hx : c1 = c ∧ v1 = s.cell r c
    · obtain ⟨e1, e2⟩ := hx
      subst e1
      rw [if_pos ⟨rfl, e2⟩]
      simp only [Bool.false_eq_true, false_iff]
      rintro ⟨r1, p, q, e⟩
      rw [hcellE r1 p q c1 a b] at e
      split at e
      · omega
      · rename_i hh
        have := hCD c1 a b r hr0 hr r1 p q hune (by rw [e, e2])
        exact hh ⟨this.symm, rfl⟩
    · rw [if_neg hx, hCA c1 a b v1 a' b']
      constructor
      · rintro ⟨r1, p, q, e⟩
        refine ⟨r1, p, q, ?_⟩
        rw [hcellE r1 p q c1 a b, if_neg]
        · exact e
        · rintro ⟨e1, e2⟩
          subst e1 e2
          exact hx ⟨rfl, e.symm⟩
      · rintro ⟨r1, p, q, e⟩
        rw [hcellE r1 p q c1 a b] at e
        split at e
        · omega
        · exact ⟨r1, p, q, e⟩
  · intro g a b v1 a' b'
    rw [hdim] at b b' ⊢
    rw [hregsE g a b v1 a' b']
    by_cases hx : g = regionIndex s.size r c ∧ v1 = s.cell r c
    · obtain ⟨e1, e2⟩ := hx
      subst e1
      rw [if_pos ⟨rfl, e2⟩]
      simp only [Bool.false_eq_true, false_iff]
      rintro ⟨r1, p, q, c1, p', q', eg, e⟩
      rw [hcellE r1 p q c1 p' q'] at e
      split at e
      · omega
      · rename_i hh
        have := hGD r hr0 hr c hc0 hc r1 p q c1 p' q' hune
          (by rw [hregS, hregS]; rw [hregT] at eg; exact eg.symm) (by rw [e, e2])
        exact hh ⟨this.1.symm, this.2.symm⟩
    · rw [if_neg hx, hGA g a b v1 a' b']
      constructor
      · rintro ⟨r1, p, q, c1, p', q', eg, e⟩
        refine ⟨r1, p, q, c1, p', q', by rw [hregT, ← hregS]; exact eg, ?_⟩
        rw [hcellE r1 p q c1 p' q', if_neg]
        · exact e
        · rintro ⟨e1, e2⟩
          subst e1 e2
          exact hx ⟨by rw [← eg, hregS], e.symm⟩
      · rintro ⟨r1, p, q, c1, p', q', eg, e⟩
        rw [hcellE r1 p q c1 p' q'] at e
        split at e
        · omega
        · exact ⟨r1, p, q, c1, p', q', by rw [hregS, ← hregT]; exact eg, e⟩
  · intro r1 a b c1 a' b' c2 a'' b'' hne heq
    rw [hdim] at b b' b''
    rw [hcellE r1 a b c1 a' b'] at hne heq
    rw [hcellE r1 a b c2 a'' b''] at heq
    by_cases h1 : r1 = r ∧ c1 = c
    · rw [if_pos h1] at hne; exact absurd rfl hne
    · rw [if_neg h1] at hne heq
      by_cases h2 : r1 = r ∧ c2 = c
      · rw [if_pos h2] at heq; exact absurd heq hne
      · rw [if_neg h2] at heq
        exact hRD r1 a b c1 a' b' c2 a'' b'' hne heq
  · intro c1 a b r1 a' b' r2 a'' b'' hne heq
    rw [hdim] at b b' b''
    rw [hcellE r1 a' b' c1 a b] at hne heq
    rw [hcellE r2 a'' b'' c1 a b] at heq
    by_cases h1 : r1 = r ∧ c1 = c
    · rw [if_pos h1] at hne; exact absurd rfl hne
    · rw [if_neg h1] at hne heq
      by_cases h2 : r2 = r ∧ c1 = c
      · rw [if_pos h2] at heq; exact absurd heq hne
      · rw [if_neg h2] at heq
        exact hCD c1 a b r1 a' b' r2 a'' b'' hne heq
  · intro r1 a b c1 a' b' r2 a'' b'' c2 a3 b3 hne hg heq
    rw [hdim] at b b' b'' b3
    rw [hcellE r1 a b c1 a' b'] at hne heq
    rw [hcellE r2 a'' b'' c2 a3 b3] at heq
    rw [hregT, hregT] at hg
    by_cases h1 : r1 = r ∧ c1 = c
    · rw [if_pos h1] at hne; exact absurd rfl hne
    · rw [if_neg h1] at hne heq
      by_cases h2 : r2 = r ∧ c2 = c
      · rw [if_pos h2] at heq; exact absurd heq hne
      · rw [if_neg h2] at heq
        exact hGD r1 a b c1 a' b' r2 a'' b'' c2 a3 b3 hne (by rw [hregS, hregS]; exact hg) heq

theorem Sudoku.place_consistent {s : Sudoku} (h : s.WF) (hcons : s.Consistent) {r c v : Int}
    (hr0 : 0 ≤ r) (hr : r < s.dim) (hc0 : 0 ≤ c) (hc : c < s.dim)
    (hv1 : 1 ≤ v) (hv : v ≤ s.dim) (hcell : s.cell r c = 0) (hfree : s.blocked r c v = false) :
    (s.place r c v).Consistent :=
  Sudoku.Consistent.of_place h (Sudoku.place_WF h r c v) hcons hr0 hr hc0 hc hv1 hv
    (Sudoku.place_view h hr0 hr hc0 hc hv1 hv) hcell hfree

theorem Sudoku.erase_consistent {s : Sudoku} (h : s.WF) (hcons : s.Consistent) {r c : Int}
    (hr0 : 0 ≤ r) (hr : r < s.dim) (hc0 : 0 ≤ c) (hc : c < s.dim) (hcell : s.cell r c ≠ 0) :
    (s.erase r c).Consistent := by
  have hv := hcons.1 r hr0 hr c hc0 hc
  exact Sudoku.Consistent.of_erase h (Sudoku.erase_WF h r c) hcons hr0 hr hc0 hc (by omega)
    (Sudoku.erase_view h hr0 hr hc0 hc (by omega) hv.2)

theorem Sudoku.erase_blocked {s : Sudoku} (h : s.WF) {r c v : Int}
    (hr0 : 0 ≤ r) (hr : r < s.dim) (hc0 : 0 ≤ c) (hc : c < s.dim)
    (hu1 : 1 ≤ s.cell r c) (hu : s.cell r c ≤ s.dim) (hv1 : 1 ≤ v) (hv : v ≤ s.dim)
    (hfree : s.blocked r c v = false) : (s.erase r c).blocked r c v = false := by
  obtain ⟨g0, g1⟩ := Sudoku.region_bounds h hr0 hr hc0 hc
  have hE := Sudoku.erase_view h hr0 hr hc0 hc hu1 hu
  unfold Sudoku.blocked at hfree ⊢
  simp only [Bool.or_eq_false_iff] at hfree ⊢
  obtain ⟨⟨f1, f2⟩, f3⟩ := hfree
  rw [hE.rows_eq r hr0 hr v hv1 (by omega), hE.cols_eq c hc0 hc v hv1 (by omega),
    Sudoku.erase_size, hE.regions_eq _ g0 g1 v hv1 (by omega), f1, f2, f3]
  simp

/-- With in-range arguments `Set` keeps a consistent board consistent. -/
theorem Sudoku.Set_consistent {s : Sudoku} (h : s.WF) (hcons : s.Consistent) {r c v : Int}
    (hr0 : 0 ≤ r) (hr : r < s.dim) (hc0 : 0 ≤ c) (hc : c < s.dim)
    (hv1 : 1 ≤ v) (hv : v ≤ s.dim) :
    ∃ b t, s.Set r c v = .ok (b, t) ∧ t.WF ∧ t.Consistent ∧ t.size = s.size ∧
      t.locked = s.locked ∧ t.rand = s.rand ∧ t.generating = s.generating ∧
      (b = false → t = s) := by
  have hval := hcons.1 r hr0 hr c hc0 hc
  rw [Sudoku.Set_eq h hr0 hr hc0 hc hv1 hv hval.1 hval.2]
  cases hb : s.blocked r c v
  · simp only [Bool.false_eq_true, if_false]
    refine ⟨true, _, rfl, ?_, ?_, ?_, ?_, ?_, ?_, by simp⟩
    · split
      · exact Sudoku.place_WF h _ _ _
      · exact Sudoku.place_WF (Sudoku.erase_WF h _ _) _ _ _
    · by_cases hz : s.cell r c = 0
      · rw [if_pos hz]
        exact Sudoku.place_consistent h hcons hr0 hr hc0 hc hv1 hv hz hb
      · rw [if_neg hz]
        have hz' : (s.erase r c).cell r c = 0 := by
          rw [Sudoku.cell_erase h hr0 hr hc0 hc hr0 hr hc0 hc, if_pos (And.intro rfl rfl)]
        exact Sudoku.place_consistent (Sudoku.erase_WF h r c)
          (Sudoku.erase_consistent h hcons hr0 hr hc0 hc hz) hr0 hr hc0 hc hv1 hv hz'
          (Sudoku.erase_blocked h hr0 hr hc0 hc (by omega) hval.2 hv1 hv hb)
    · split <;> rfl
    · split <;> rfl
    · split <;> rfl
    · split <;> rfl
  · simp only [if_true]
    exact ⟨false, s, rfl, h, hcons, rfl, rfl, rfl, rfl, fun _ => rfl⟩

/-! ## Empty cells -/

theorem count_set_zero (l : List Int) (i : Nat) (v : Int) (hi : i < l.length)
    (hz : l.getD i 0 = 0) (hv : v ≠ 0) : (l.set i v).count 0 + 1 = l.count 0 := by
  rw [List.count_set _ _ _ _ hi]
  rw [List.getD_eq_getElem _ _ hi] at hz
  have hpos : 0 < l.count 0 := by
    rw [List.count_pos_iff]
    rw [← hz]; exact List.getElem_mem hi
  simp [hz, hv]
  omega

theorem Sudoku.emptyCount_place {s : Sudoku} (h : s.WF) {r c v : Int}
    (hr0 : 0 ≤ r) (hr : r < s.dim) (hc0 : 0 ≤ c) (hc : c < s.dim)
    (hv : v ≠ 0) (hcell : s.cell r c = 0) :
    (s.place r c v).emptyCount + 1 = s.emptyCount := by
  obtain ⟨i0, i1, _⟩ := Sudoku.cell_index h hr0 hr hc0 hc
  rw [Sudoku.cell_eq h hr0 hr hc0 hc] at hcell
  exact count_set_zero _ _ _ (by omega) hcell hv

theorem findEmptyInCol_spec {s : Sudoku} (h : s.WF) {col : Int} (hc0 : 0 ≤ col)
    (hc : col < s.dim) (n : Nat) (row : Int) (hrow : 0 ≤ row) (hn : row + n = s.dim) :
    (findEmptyInCol s col n row = .ok none ∧
      ∀ r : Int, row ≤ r → r < s.dim → s.cell r col ≠ 0) ∨
    (∃ r : Int, findEmptyInCol s col n row = .ok (some (r, col)) ∧ 0 ≤ r ∧ r < s.dim ∧
      s.cell r col = 0) := by
  induction n generalizing row with
  | zero =>
    left
    refine ⟨rfl, ?_⟩
    intro r h1 h2
    simp at hn; omega
  | succ n ih =>
    have hr : row < s.dim := by push_cast at hn; omega
    unfold findEmptyInCol
    rw [Sudoku.At_ok h hrow hr hc0 hc]
    simp only [bind, Except.bind, pure, Except.pure]
    by_cases hz : s.cell row col = 0
    · right
      exact ⟨row, by rw [if_pos hz], hrow, hr, hz⟩
    · rw [if_neg hz]
      rcases ih (row + 1) (by omega) (by push_cast at hn; omega) with ⟨e, hall⟩ | ⟨r, e, hh⟩
      · left
        refine ⟨e, ?_⟩
        intro r h1 h2
        by_cases hrr : r = row
        · subst hrr; exact hz
        · exact hall r (by omega) h2
      · right
        exact ⟨r, e, hh⟩

theorem findEmptyFromCol_spec {s : Sudoku} (h : s.WF) (n : Nat) (col : Int) (hcol : 0 ≤ col)
    (hn : col + n = s.dim) :
    (findEmptyFromCol s s.dim n col = .ok none ∧
      ∀ c : Int, col ≤ c → c < s.dim → ∀ r : Int, 0 ≤ r → r < s.dim → s.cell r c ≠ 0) ∨
    (∃ r c : Int, findEmptyFromCol s s.dim n col = .ok (some (r, c)) ∧ 0 ≤ r ∧ r < s.dim ∧
      0 ≤ c ∧ c < s.dim ∧ s.cell r c = 0) := by
  induction n generalizing col with
  | zero =>
    left
    refine ⟨rfl, ?_⟩
    intro c h1 h2
    simp at hn; omega
  | succ n ih =>
    have hc : col < s.dim := by push_cast at hn; omega
    have hd := Sudoku.WF.dim_pos h
    unfold findEmptyFromCol
    rcases findEmptyInCol_spec h hcol hc s.dim.toNat 0 (le_refl 0) (by omega) with
      ⟨e, hall⟩ | ⟨r, e, hh⟩
    · rw [e]
      simp only [bind, Except.bind, pure, Except.pure]
      rcases ih (col + 1) (by omega) (by push_cast at hn; omega) with ⟨e', hall'⟩ | ⟨r, c, e', hh⟩
      · left
        refine ⟨e', ?_⟩
        intro c h1 h2 r h3 h4
        by_cases hcc : c = col
        · subst hcc; exact hall r h3 h4
        · exact hall' c (by omega) h2 r h3 h4
      · right
        exact ⟨r, c, e', hh⟩
    · right
      rw [e]
      exact ⟨r, col, rfl, hh.1, hh.2.1, hcol, hc, hh.2.2⟩

theorem Sudoku.FindNextEmpty_spec {s : Sudoku} (h : s.WF) :
    (s.FindNextEmpty = .ok none ∧ s.Full) ∨
    (∃ r c : Int, s.FindNextEmpty = .ok (some (r, c)) ∧ 0 ≤ r ∧ r < s.dim ∧
      0 ≤ c ∧ c < s.dim ∧ s.cell r c = 0) := by
  have hd := Sudoku.WF.dim_pos h
  unfold Sudoku.FindNextEmpty
  rcases findEmptyFromCol_spec h s.dim.toNat 0 (le_refl 0) (by omega) with ⟨e, hall⟩ | hh
  · left
    refine ⟨e, ?_⟩
    intro r h1 h2 c h3 h4
    exact hall c h3 h4 r h1 h2
  · right
    exact hh

/-! ## Solve -/

theorem candidate_bounds {n i : Int} (hn : 0 < n) (hi : 0 ≤ i) :
    Int.tmod i n + 1 = i % n + 1 ∧ 1 ≤ i % n + 1 ∧ i % n + 1 ≤ n := by
  refine ⟨by rw [Int.tmod_eq_emod hi (by omega)], ?_, ?_⟩
  · have := Int.emod_nonneg i (show n ≠ 0 by omega); omega
  · have := Int.emod_lt_of_pos i hn; omega

theorem solveLoop_step {s : Sudoku} (h : s.WF) {row col : Int}
    (hr0 : 0 ≤ row) (hr : row < s.dim) (hc0 : 0 ≤ col) (hc : col < s.dim)
    (hcell : s.cell row col = 0) (solve : Sudoku → Exec (Bool × Sudoku)) (n : Nat) (i : Int)
    (hi : 0 ≤ i) :
    solveLoop solve row col (n + 1) i s =
      if s.blocked row col (i % s.dim + 1) then solveLoop solve row col n (i + 1) s
      else
        match solve (s.place row col (i % s.dim + 1)) with
        | .error e => .error e
        | .ok (true, t) => .ok (true, t)
        | .ok (false, t) =>
          match t.Remove row col with
          | .error e => .error e
          | .ok u => solveLoop solve row col n (i + 1) u := by
  obtain ⟨e1, v1, v2⟩ := candidate_bounds (Sudoku.WF.dim_pos h) hi
  rw [solveLoop]
  unfold Sudoku.dim at e1
  rw [e1]
  have := Sudoku.Set_eq h hr0 hr hc0 hc v1 v2 (by omega) (by rw [hcell]; exact le_of_lt (Sudoku.WF.dim_pos h))
  unfold Sudoku.dim at this
  rw [this]
  simp only [bind, Except.bind, pure, Except.pure, hcell, if_true]
  unfold Sudoku.dim
  cases hb : s.blocked row col (i % (s.size * s.size) + 1)
  · simp only [Bool.false_eq_true, if_false]
    cases hsol : solve (s.place row col (i % (s.size * s.size) + 1)) with
    | error e => rfl
    | ok p =>
      obtain ⟨b, t⟩ := p
      cases b
      · simp only [Bool.false_eq_true, if_false]
        cases hrem : t.Remove row col with
        | error e => rfl
        | ok u => rfl
      · rfl
  · simp only [Bool.false_eq_true, if_false, if_true]

theorem Sudoku.eq_withRand {s t : Sudoku} (h1 : t.size = s.size) (h2 : t.data = s.data)
    (h3 : t.locked = s.locked) (h4 : t.rows = s.rows) (h5 : t.cols = s.cols)
    (h6 : t.regions = s.regions) (h7 : t.generating = s.generating) :
    t = { s with rand := t.rand } := by
  cases s; cases t
  simp only at h1 h2 h3 h4 h5 h6 h7
  subst h1 h2 h3 h4 h5 h6 h7
  rfl

theorem SolvePost.of_withRand (s : Sudoku) (rand : Rand) {b : Bool} {t : Sudoku}
    (hd : rand.draws = s.rand.draws) (hp : s.rand.pos ≤ rand.pos)
    (h : SolvePost { s with rand := rand } b t) : SolvePost s b t :=
  { wf := h.wf, size_eq := h.size_eq, locked_eq := h.locked_eq,
    generating_eq := h.generating_eq, draws_eq := h.draws_eq.trans hd,
    pos_le := le_trans hp h.pos_le, restored := h.restored, full := h.full,
    kept := h.kept, consistent := h.consistent }

theorem solveLoop_post (solve : Sudoku → Exec (Bool × Sudoku))
    (hsolve : ∀ u b t, u.WF → solve u = .ok (b, t) → SolvePost u b t)
    {row col : Int} (n : Nat) :
    ∀ (i : Int) (s : Sudoku) (b : Bool) (t : Sudoku), 0 ≤ i → s.WF →
      0 ≤ row → row < s.dim → 0 ≤ col → col < s.dim → s.cell row col = 0 →
      solveLoop solve row col n i s = .ok (b, t) → SolvePost s b t := by
  induction n with
  | zero =>
    intro i s b t _ h _ _ _ _ _ hrun
    simp only [solveLoop, Except.ok.injEq, Prod.mk.injEq] at hrun
    obtain ⟨e1, e2⟩ := hrun
    subst e1 e2
    exact { wf := h, size_eq := rfl, locked_eq := rfl, generating_eq := rfl, draws_eq := rfl,
            pos_le := le_refl _, restored := fun _ => ⟨rfl, rfl, rfl, rfl⟩,
            full := fun hb => by simp at hb, kept := fun hb => by simp at hb,
            consistent := fun hb => by simp at hb }
  | succ n ih =>
    intro i s b t hi h hr0 hr hc0 hc hcell hrun
    obtain ⟨_, v1, v2⟩ := candidate_bounds (Sudoku.WF.dim_pos h) hi
    rw [solveLoop_step h hr0 hr hc0 hc hcell solve n i hi] at hrun
    cases hb : s.blocked row col (i % s.dim + 1)
    · rw [hb] at hrun
      simp only [Bool.false_eq_true, if_false] at hrun
      have hu := Sudoku.place_WF h row col (i % s.dim + 1)
      cases hsol : solve (s.place row col (i % s.dim + 1)) with
      | error e => rw [hsol] at hrun; simp at hrun
      | ok p =>
        obtain ⟨b1, t1⟩ := p
        have hp := hsolve _ _ _ hu hsol
        rw [hsol] at hrun
        cases b1
        · -- the recursive call failed: the placement is undone
          simp only at hrun
          obtain ⟨d1, d2, d3, d4⟩ := hp.restored rfl
          have ht1 : t1 = ({ s with rand := t1.rand } : Sudoku).place row col (i % s.dim + 1) :=
            Sudoku.eq_withRand hp.size_eq d1 hp.locked_eq d2 d3 d4 hp.generating_eq
          have hs' : ({ s with rand := t1.rand } : Sudoku).WF := h
          have herase : t1.erase row col = { s with rand := t1.rand } := by
            rw [ht1]
            exact Sudoku.erase_place hs' hr0 hr hc0 hc v1 v2 hcell hb
          have hcell1 : t1.cell row col = i % s.dim + 1 := by
            rw [ht1]
            rw [Sudoku.cell_place hs' _ hr0 hr hc0 hc hr0 hr hc0 hc, if_pos (And.intro rfl rfl)]
          have hdim1 : t1.dim = s.dim := by unfold Sudoku.dim; rw [hp.size_eq]; rfl
          have hrem : t1.Remove row col = .ok (t1.erase row col) :=
            Sudoku.Remove_eq hp.wf hr0 (by rw [hdim1]; exact hr) hc0 (by rw [hdim1]; exact hc)
              (by rw [hcell1]; exact v1) (by rw [hcell1, hdim1]; exact v2)
          rw [hrem, herase] at hrun
          simp only at hrun
          have := ih (i + 1) _ b t (by omega) hs' hr0 hr hc0 hc hcell hrun
          exact SolvePost.of_withRand s t1.rand hp.draws_eq hp.pos_le this
        · -- the recursive call succeeded
          simp only [Except.ok.injEq, Prod.mk.injEq] at hrun
          obtain ⟨e1, e2⟩ := hrun
          subst e1 e2
          have hkept : s.KeptBy t1 := by
            intro r a b' c a' b'' hne
            have := hp.kept rfl r a b' c a' b''
            rw [Sudoku.cell_place h _ hr0 hr hc0 hc a b' a' b''] at this
            have hns : ¬ (r = row ∧ c = col) := by
              rintro ⟨e1, e2⟩; subst e1 e2; exact hne hcell
            rw [if_neg hns] at this
            exact this hne
          exact { wf := hp.wf, size_eq := hp.size_eq, locked_eq := hp.locked_eq,
                  generating_eq := hp.generating_eq, draws_eq := hp.draws_eq,
                  pos_le := hp.pos_le, restored := fun hb => by simp at hb,
                  full := hp.full, kept := fun _ => hkept,
                  consistent := fun _ hcs => hp.consistent rfl
                    (Sudoku.place_consistent h hcs hr0 hr hc0 hc v1 v2 hcell hb) }
    · rw [hb] at hrun
      simp only [if_true] at hrun
      exact ih (i + 1) s b t (by omega) h hr0 hr hc0 hc hcell hrun

theorem Rand.Intn_eq (r : Rand) {n : Int} (hn : 0 < n) :
    r.Intn n = .ok (((r.draws r.pos : Nat) : Int) % n, { r with pos := r.pos + 1 }) := by
  unfold Rand.Intn
  rw [if_neg (by omega)]

theorem Sudoku.Solve_post (fuel : Nat) :
    ∀ (s : Sudoku) (b : Bool) (t : Sudoku), s.WF → s.Solve fuel = .ok (b, t) →
      SolvePost s b t := by
  induction fuel with
  | zero =>
    intro s b t _ hrun
    simp [Sudoku.Solve] at hrun
  | succ fuel ih =>
    intro s b t h hrun
    rw [Sudoku.Solve] at hrun
    rcases Sudoku.FindNextEmpty_spec h with ⟨e, hfull⟩ | ⟨row, col, e, hr0, hr, hc0, hc, hcell⟩
    · rw [e] at hrun
      simp only [bind, Except.bind, pure, Except.pure, Except.ok.injEq, Prod.mk.injEq] at hrun
      obtain ⟨e1, e2⟩ := hrun
      subst e1 e2
      exact { wf := h, size_eq := rfl, locked_eq := rfl, generating_eq := rfl, draws_eq := rfl,
              pos_le := le_refl _, restored := fun hb => by simp at hb,
              full := fun _ => hfull, kept := fun _ => fun _ _ _ _ _ _ _ => rfl,
              consistent := fun _ hc => hc }
    · rw [e, Rand.Intn_eq _ (by decide)] at hrun
      simp only [bind, Except.bind] at hrun
      have hpos : (0 : Int) ≤ ((s.rand.draws s.rand.pos : Nat) : Int) % 1000 + 1 := by omega
      have := solveLoop_post (Sudoku.Solve fuel) ih _ _ _ b t hpos
        (Sudoku.withRand_WF h { s.rand with pos := s.rand.pos + 1 }) hr0 hr hc0 hc hcell hrun
      exact SolvePost.of_withRand s { s.rand with pos := s.rand.pos + 1 }
        rfl (Nat.le_succ _) this

/-! ## Solve returns -/

theorem solveLoop_total (solve : Sudoku → Exec (Bool × Sudoku)) (m : Nat)
    (hpost : ∀ u b t, u.WF → solve u = .ok (b, t) → SolvePost u b t)
    (htotal : ∀ u : Sudoku, u.WF → u.emptyCount < m → ∃ b t, solve u = .ok (b, t))
    {row col : Int} (n : Nat) :
    ∀ (i : Int) (s : Sudoku), 0 ≤ i → s.WF → s.emptyCount < m + 1 →
      0 ≤ row → row < s.dim → 0 ≤ col → col < s.dim → s.cell row col = 0 →
      ∃ b t, solveLoop solve row col n i s = .ok (b, t) := by
  induction n with
  | zero =>
    intro i s _ _ _ _ _ _ _ _
    exact ⟨false, s, rfl⟩
  | succ n ih =>
    intro i s hi h hcount hr0 hr hc0 hc hcell
    obtain ⟨_, v1, v2⟩ := candidate_bounds (Sudoku.WF.dim_pos h) hi
    rw [solveLoop_step h hr0 hr hc0 hc hcell solve n i hi]
    cases hb : s.blocked row col (i % s.dim + 1)
    · simp only [Bool.false_eq_true, if_false]
      have hu := Sudoku.place_WF h row col (i % s.dim + 1)
      have hcnt := Sudoku.emptyCount_place h hr0 hr hc0 hc (show i % s.dim + 1 ≠ 0 by omega) hcell
      obtain ⟨b1, t1, hsol⟩ := htotal _ hu (by omega)
      have hp := hpost _ _ _ hu hsol
      rw [hsol]
      cases b1
      · simp only
        obtain ⟨d1, d2, d3, d4⟩ := hp.restored rfl
        have ht1 : t1 = ({ s with rand := t1.rand } : Sudoku).place row col (i % s.dim + 1) :=
          Sudoku.eq_withRand hp.size_eq d1 hp.locked_eq d2 d3 d4 hp.generating_eq
        have hs' : ({ s with rand := t1.rand } : Sudoku).WF := h
        have herase : t1.erase row col = { s with rand := t1.rand } := by
          rw [ht1]
          exact Sudoku.erase_place hs' hr0 hr hc0 hc v1 v2 hcell hb
        have hcell1 : t1.cell row col = i % s.dim + 1 := by
          rw [ht1]
          rw [Sudoku.cell_place hs' _ hr0 hr hc0 hc hr0 hr hc0 hc, if_pos (And.intro rfl rfl)]
        have hdim1 : t1.dim = s.dim := by unfold Sudoku.dim; rw [hp.size_eq]; rfl
        have hrem : t1.Remove row col = .ok (t1.erase row col) :=
          Sudoku.Remove_eq hp.wf hr0 (by rw [hdim1]; exact hr) hc0 (by rw [hdim1]; exact hc)
            (by rw [hcell1]; exact v1) (by rw [hcell1, hdim1]; exact v2)
        rw [hrem, herase]
        exact ih (i + 1) _ (by omega) hs' hcount hr0 hr hc0 hc hcell
      · exact ⟨true, t1, rfl⟩
    · simp only [if_true]
      exact ih (i + 1) s (by omega) h hcount hr0 hr hc0 hc hcell

theorem Sudoku.Solve_total (fuel : Nat) :
    ∀ s : Sudoku, s.WF → s.emptyCount < fuel → ∃ b t, s.Solve fuel = .ok (b, t) := by
  induction fuel with
  | zero => intro s _ h; omega
  | succ fuel ih =>
    intro s h hcount
    rw [Sudoku.Solve]
    rcases Sudoku.FindNextEmpty_spec h with ⟨e, _⟩ | ⟨row, col, e, hr0, hr, hc0, hc, hcell⟩
    · rw [e]
      exact ⟨true, s, rfl⟩
    · rw [e, Rand.Intn_eq _ (by decide)]
      simp only [bind, Except.bind]
      have hpos : (0 : Int) ≤ ((s.rand.draws s.rand.pos : Nat) : Int) % 1000 + 1 := by omega
      exact solveLoop_total (Sudoku.Solve fuel) fuel (Sudoku.Solve_post fuel) ih _ _ _ hpos
        (Sudoku.withRand_WF h { s.rand with pos := s.rand.pos + 1 }) hcount hr0 hr hc0 hc hcell

/-! ## Solve finds a completion whenever there is one -/

theorem Sudoku.not_blocked_of_grid {s : Sudoku} (h : s.WF) (hcons : s.Consistent)
    {G : Int → Int → Int} (hG : ValidGrid s.size G) (hext : s.ExtendedBy G) {r c : Int}
    (hr0 : 0 ≤ r) (hr : r < s.dim) (hc0 : 0 ≤ c) (hc : c < s.dim) (hcell : s.cell r c = 0) :
    s.blocked r c (G r c) = false := by
  obtain ⟨hVal, hRA, hCA, hGA, _, _, _⟩ := hcons
  obtain ⟨gRange, gRow, gCol, gReg⟩ := hG
  obtain ⟨g0, g1⟩ := Sudoku.region_bounds h hr0 hr hc0 hc
  have hv := gRange r hr0 hr c hc0 hc
  change 1 ≤ G r c ∧ G r c ≤ s.dim at hv
  unfold Sudoku.blocked
  simp only [Bool.or_eq_false_iff]
  refine ⟨⟨?_, ?_⟩, ?_⟩
  · by_contra hne
    have hb : s.rows.bit r (G r c - 1) = true := by simpa using hne
    obtain ⟨c1, a, b, e⟩ := (hRA r hr0 hr (G r c) hv.1 (by omega)).1 hb
    have e' := hext r hr0 hr c1 a b (by omega)
    have := gRow r hr0 hr c1 a b c hc0 hc (by rw [e', e])
    subst this
    omega
  · by_contra hne
    have hb : s.cols.bit c (G r c - 1) = true := by simpa using hne
    obtain ⟨r1, a, b, e⟩ := (hCA c hc0 hc (G r c) hv.1 (by omega)).1 hb
    have e' := hext r1 a b c hc0 hc (by omega)
    have := gCol c hc0 hc r1 a b r hr0 hr (by rw [e', e])
    subst this
    omega
  · by_contra hne
    have hb : s.regions.bit (regionIndex s.size r c) (G r c - 1) = true := by simpa using hne
    obtain ⟨r1, a, b, c1, a', b', eg, e⟩ := (hGA _ g0 g1 (G r c) hv.1 (by omega)).1 hb
    have e' := hext r1 a b c1 a' b' (by omega)
    rw [Sudoku.regionOf_eq h] at eg
    have := gReg r1 a b c1 a' b' r hr0 hr c hc0 hc eg (by rw [e', e])
    obtain ⟨e1, e2⟩ := this
    subst e1 e2
    omega

theorem Sudoku.place_extendedBy {s : Sudoku} (h : s.WF) {G : Int → Int → Int}
    (hext : s.ExtendedBy G) {r c : Int}
    (hr0 : 0 ≤ r) (hr : r < s.dim) (hc0 : 0 ≤ c) (hc : c < s.dim) :
    (s.place r c (G r c)).ExtendedBy G := by
  intro r1 a b c1 a' b' hne
  rw [Sudoku.cell_place h _ hr0 hr hc0 hc a b a' b'] at hne ⊢
  split
  · rename_i hh; rw [hh.1, hh.2]
  · rename_i hh; rw [if_neg hh] at hne; exact hext r1 a b c1 a' b' hne

theorem candidate_covers {d i v : Int} (hd : 0 < d) (h1 : 1 ≤ v) (h2 : v ≤ d) :
    ∃ j : Nat, j < d.toNat ∧ (i + j) % d + 1 = v := by
  refine ⟨((v - 1 - i) % d).toNat, ?_, ?_⟩
  · have := Int.emod_lt_of_pos (v - 1 - i) hd
    have := Int.emod_nonneg (v - 1 - i) (show d ≠ 0 by omega)
    omega
  · have h0 := Int.emod_nonneg (v - 1 - i) (show d ≠ 0 by omega)
    rw [Int.toNat_of_nonneg h0, Int.add_emod_emod]
    have : i + (v - 1 - i) = v - 1 := by ring
    rw [this, Int.emod_eq_of_lt (by omega) (by omega)]
    omega

theorem solveLoop_complete (solve : Sudoku → Exec (Bool × Sudoku)) (m : Nat)
    (G : Int → Int → Int)
    (hpost : ∀ u b t, u.WF → solve u = .ok (b, t) → SolvePost u b t)
    (htotal : ∀ u : Sudoku, u.WF → u.emptyCount < m → ∃ b t, solve u = .ok (b, t))
    (hcomplete : ∀ u : Sudoku, u.WF → u.Consistent → ValidGrid u.size G → u.ExtendedBy G →
      u.emptyCount < m → ∃ t, solve u = .ok (true, t))
    {row col : Int} (n : Nat) :
    ∀ (i : Int) (s : Sudoku), 0 ≤ i → s.WF → s.Consistent → ValidGrid s.size G →
      s.ExtendedBy G → s.emptyCount < m + 1 →
      0 ≤ row → row < s.dim → 0 ≤ col → col < s.dim → s.cell row col = 0 →
      (∃ j : Nat, j < n ∧ (i + j) % s.dim + 1 = G row col) →
      ∃ t, solveLoop solve row col n i s = .ok (true, t) := by
  induction n with
  | zero =>
    intro i s _ _ _ _ _ _ _ _ _ _ _ hj
    obtain ⟨j, hj, _⟩ := hj
    omega
  | succ n ih =>
    intro i s hi h hcons hG hext hcount hr0 hr hc0 hc hcell hj
    obtain ⟨_, v1, v2⟩ := candidate_bounds (Sudoku.WF.dim_pos h) hi
    rw [solveLoop_step h hr0 hr hc0 hc hcell solve n i hi]
    have hfreeG := Sudoku.not_blocked_of_grid h hcons hG hext hr0 hr hc0 hc hcell
    -- the remaining candidates still cover the value of the grid unless this one is it
    have hnext : i % s.dim + 1 ≠ G row col →
        ∃ j : Nat, j < n ∧ (i + 1 + j) % s.dim + 1 = G row col := by
      intro hne
      obtain ⟨j, hjn, hjv⟩ := hj
      cases j with
      | zero => simp at hjv; exact absurd hjv hne
      | succ j =>
        refine ⟨j, by omega, ?_⟩
        rw [← hjv]; push_cast; ring_nf
    cases hb : s.blocked row col (i % s.dim + 1)
    · simp only [Bool.false_eq_true, if_false]
      have hu := Sudoku.place_WF h row col (i % s.dim + 1)
      have hcnt := Sudoku.emptyCount_place h hr0 hr hc0 hc (show i % s.dim + 1 ≠ 0 by omega) hcell
      obtain ⟨b1, t1, hsol⟩ := htotal _ hu (by omega)
      have hp := hpost _ _ _ hu hsol
      rw [hsol]
      cases b1
      · simp only
        have hne : i % s.dim + 1 ≠ G row col := by
          intro he
          have hext' := Sudoku.place_extendedBy h hext hr0 hr hc0 hc
          rw [← he] at hext'
          obtain ⟨t2, hsol2⟩ := hcomplete _ hu
            (Sudoku.place_consistent h hcons hr0 hr hc0 hc v1 v2 hcell hb) hG hext' (by omega)
          rw [hsol] at hsol2
          simp at hsol2
        obtain ⟨d1, d2, d3, d4⟩ := hp.restored rfl
        have ht1 : t1 = ({ s with rand := t1.rand } : Sudoku).place row col (i % s.dim + 1) :=
          Sudoku.eq_withRand hp.size_eq d1 hp.locked_eq d2 d3 d4 hp.generating_eq
        have hs' : ({ s with rand := t1.rand } : Sudoku).WF := h
        have herase : t1.erase row col = { s with rand := t1.rand } := by
          rw [ht1]
          exact Sudoku.erase_place hs' hr0 hr hc0 hc v1 v2 hcell hb
        have hcell1 : t1.cell row col = i % s.dim + 1 := by
          rw [ht1]
          rw [Sudoku.cell_place hs' _ hr0 hr hc0 hc hr0 hr hc0 hc, if_pos (And.intro rfl rfl)]
        have hdim1 : t1.dim = s.dim := by unfold Sudoku.dim; rw [hp.size_eq]; rfl
        have hrem : t1.Remove row col = .ok (t1.erase row col) :=
          Sudoku.Remove_eq hp.wf hr0 (by rw [hdim1]; exact hr) hc0 (by rw [hdim1]; exact hc)
            (by rw [hcell1]; exact v1) (by rw [hcell1, hdim1]; exact v2)
        rw [hrem, herase]
        exact ih (i + 1) _ (by omega) hs' hcons hG hext hcount hr0 hr hc0 hc hcell (hnext hne)
      · exact ⟨t1, rfl⟩
    · simp only [if_true]
      have hne : i % s.dim + 1 ≠ G row col := by
        intro he
        rw [he, hfreeG] at hb
        exact absurd hb (by simp)
      exact ih (i + 1) s (by omega) h hcons hG hext hcount hr0 hr hc0 hc hcell (hnext hne)

theorem Sudoku.Solve_complete (G : Int → Int → Int) (fuel : Nat) :
    ∀ s : Sudoku, s.WF → s.Consistent → ValidGrid s.size G → s.ExtendedBy G →
      s.emptyCount < fuel → ∃ t, s.Solve fuel = .ok (true, t) := by
  induction fuel with
  | zero => intro s _ _ _ _ h; omega
  | succ fuel ih =>
    intro s h hcons hG hext hcount
    rw [Sudoku.Solve]
    rcases Sudoku.FindNextEmpty_spec h with ⟨e, _⟩ | ⟨row, col, e, hr0, hr, hc0, hc, hcell⟩
    · rw [e]
      exact ⟨s, rfl⟩
    · rw [e, Rand.Intn_eq _ (by decide)]
      simp only [bind, Except.bind]
      have hpos : (0 : Int) ≤ ((s.rand.draws s.rand.pos : Nat) : Int) % 1000 + 1 := by omega
      have hv := hG.1 row hr0 hr col hc0 hc
      exact solveLoop_complete (Sudoku.Solve fuel) fuel G (Sudoku.Solve_post fuel)
        (Sudoku.Solve_total fuel) ih _ _ _ hpos
        (Sudoku.withRand_WF h { s.rand with pos := s.rand.pos + 1 }) hcons hG hext hcount
        hr0 hr hc0 hc hcell (candidate_covers (Sudoku.WF.dim_pos h) hv.1 hv.2)

/-! ## Counted loops -/

theorem forLoop_inv {σ : Type} (body : Int → σ → Exec σ) (P : Int → σ → Prop) (n : Nat) :
    ∀ (lo : Int) (st : σ),
      (∀ i st, lo ≤ i → i < lo + n → P i st → ∃ st', body i st = .ok st' ∧ P (i + 1) st') →
      P lo st → ∃ st', forLoop body n lo st = .ok st' ∧ P (lo + n) st' := by
  induction n with
  | zero =>
    intro lo st _ h
    exact ⟨st, rfl, by simpa using h⟩
  | succ n ih =>
    intro lo st hbody h
    obtain ⟨st1, e1, h1⟩ := hbody lo st (le_refl _) (by push_cast; omega) h
    obtain ⟨st2, e2, h2⟩ := ih (lo + 1) st1
      (fun i st hi1 hi2 hp => hbody i st (by omega) (by push_cast; omega) hp) h1
    refine ⟨st2, ?_, ?_⟩
    · rw [forLoop, e1]; exact e2
    · have : lo + ((n + 1 : Nat) : Int) = lo + 1 + (n : Int) := by push_cast; ring
      rw [this]; exact h2

/-! ## All-zero storage -/

theorem Bitmap.Clear_WF {n : Int} {b : Bitmap} (hb : b.WF n) : b.Clear.WF n := by
  obtain ⟨hw, hh, hlen, _⟩ := hb
  refine ⟨hw, hh, ?_, ?_⟩
  · simp only [Bitmap.Clear, List.length_map]; exact hlen
  · intro w hw
    simp only [Bitmap.Clear, List.mem_map] at hw
    obtain ⟨_, _, e⟩ := hw
    rw [← e]; decide

theorem Bitmap.bit_of_zero {n : Int} {b : Bitmap} (hb : b.WF n) (hz : ∀ w ∈ b.data, w = 0)
    {x y : Int} (hx0 : 0 ≤ x) (hx : x < n) (hy0 : 0 ≤ y) (hy : y < n) : b.bit x y = false := by
  rw [Bitmap.bit_eq hb hx0 hx hy0 hy]
  have : b.data.getD ((y * b.width + x) / 64).toNat 0 = 0 := by
    rw [List.getD_eq_getElem?_getD]
    cases hg : b.data[((y * b.width + x) / 64).toNat]? with
    | none => rfl
    | some u => simpa using hz u (List.getElem?_mem hg)
  rw [this]
  exact Nat.zero_testBit _

theorem Bitmap.Clear_zero (b : Bitmap) : ∀ w ∈ b.Clear.data, w = 0 := by
  intro w hw
  simp only [Bitmap.Clear, List.mem_map] at hw
  obtain ⟨_, _, e⟩ := hw
  exact e.symm

/-- A well-formed board whose cells are all zero and whose matrices are all zero. -/
theorem Sudoku.consistent_of_zero {s : Sudoku} (h : s.WF) (hd : ∀ v ∈ s.data, v = 0)
    (hr : ∀ w ∈ s.rows.data, w = 0) (hc : ∀ w ∈ s.cols.data, w = 0)
    (hg : ∀ w ∈ s.regions.data, w = 0) : s.Consistent ∧ ∀ G, s.ExtendedBy G := by
  have hcell : ∀ r : Int, 0 ≤ r → r < s.dim → ∀ c : Int, 0 ≤ c → c < s.dim → s.cell r c = 0 := by
    intro r a b c a' b'
    rw [Sudoku.cell_eq h a b a' b', List.getD_eq_getElem?_getD]
    cases hg : s.data[(r * s.dim + c).toNat]? with
    | none => rfl
    | some u => simpa using hd u (List.getElem?_mem hg)
  have hdim := Sudoku.WF.dim_pos h
  refine ⟨⟨?_, ?_, ?_, ?_, ?_, ?_, ?_⟩, ?_⟩
  · intro r a b c a' b'
    rw [hcell r a b c a' b']; omega
  · intro r a b v a' b'
    rw [Bitmap.bit_of_zero h.2.2.2.1 hr a b (by omega) (by omega)]
    simp only [Bool.false_eq_true, false_iff]
    rintro ⟨c, p, q, e⟩
    rw [hcell r a b c p q] at e; omega
  · intro c a b v a' b'
    rw [Bitmap.bit_of_zero h.2.2.2.2.1 hc a b (by omega) (by omega)]
    simp only [Bool.false_eq_true, false_iff]
    rintro ⟨r, p, q, e⟩
    rw [hcell r p q c a b] at e; omega
  · intro g a b v a' b'
    rw [Bitmap.bit_of_zero h.2.2.2.2.2 hg a b (by omega) (by omega)]
    simp only [Bool.false_eq_true, false_iff]
    rintro ⟨r, p, q, c, p', q', _, e⟩
    rw [hcell r p q c p' q'] at e; omega
  · intro r a b c a' b' c' _ _ hne _
    exact absurd (hcell r a b c a' b') hne
  · intro c a b r a' b' r' _ _ hne _
    exact absurd (hcell r a' b' c a b) hne
  · intro r a b c a' b' r' _ _ c' _ _ hne _ _
    exact absurd (hcell r a b c a' b') hne
  · intro G r a b c a' b' hne
    exact absurd (hcell r a b c a' b') hne

/-! ## NewSudoku and Clear -/

theorem NewBitmap_eq {n : Int} (hn : 0 ≤ n) :
    ∃ b, NewBitmap n n = .ok b ∧ b.WF n ∧ ∀ w ∈ b.data, w = 0 := by
  have hnn : 0 ≤ n * n := Int.mul_nonneg hn hn
  have e1 := Int.tdiv_eq_ediv hnn (show (0 : Int) ≤ 64 by decide)
  have e2 := Int.tmod_eq_emod hnn (show (0 : Int) ≤ 64 by decide)
  unfold NewBitmap
  simp only [e1, e2]
  by_cases hm : n * n % 64 ≠ 0
  · rw [if_pos hm, if_neg (by omega)]
    refine ⟨_, rfl, ⟨rfl, rfl, ?_, ?_⟩, ?_⟩
    · simp only [List.length_replicate]; omega
    · intro w hw; rw [List.eq_of_mem_replicate hw]; decide
    · intro w hw; exact List.eq_of_mem_replicate hw
  · rw [if_neg hm, if_neg (by omega)]
    refine ⟨_, rfl, ⟨rfl, rfl, ?_, ?_⟩, ?_⟩
    · simp only [List.length_replicate]; omega
    · intro w hw; rw [List.eq_of_mem_replicate hw]; decide
    · intro w hw; exact List.eq_of_mem_replicate hw

theorem NewSudoku_spec (k : Int) (rand : Rand) (hk : 0 < k) :
    ∃ s, NewSudoku k rand = .ok s ∧ s.WF ∧ s.Consistent ∧ s.size = k ∧ s.rand = rand ∧
      s.emptyCount = (k * k * (k * k)).toNat ∧ s.generating = false ∧
      s.locked = List.replicate (k * k * (k * k)).toNat false := by
  have hsq : 0 ≤ k * k := Int.mul_nonneg (by omega) (by omega)
  have hsq2 : 0 ≤ k * k * (k * k) := Int.mul_nonneg hsq hsq
  obtain ⟨b, eb, hb, hz⟩ := NewBitmap_eq hsq
  have hwf : Sudoku.WF ⟨k, List.replicate (k * k * (k * k)).toNat 0,
      List.replicate (k * k * (k * k)).toNat false, b, b, b, rand, false⟩ := by
    refine ⟨hk, ?_, ?_, hb, hb, hb⟩
    · simp only [List.length_replicate, Sudoku.dim]; omega
    · simp only [List.length_replicate, Sudoku.dim]; omega
  unfold NewSudoku
  simp only [eb, bind, Except.bind, pure, Except.pure]
  rw [if_neg (by omega)]
  refine ⟨_, rfl, hwf, (Sudoku.consistent_of_zero hwf ?_ hz hz hz).1, rfl, rfl, ?_, rfl, rfl⟩
  · intro v hv; exact List.eq_of_mem_replicate hv
  · simp [Sudoku.emptyCount]

theorem take_set_succ {α : Type} (l : List α) (i : Nat) (a : α) (h : i < l.length) :
    (l.set i a).take (i + 1) = l.take i ++ [a] := by
  induction l generalizing i with
  | nil => simp at h
  | cons x xs ih =>
    cases i with
    | zero => simp
    | succ i =>
      simp only [List.set_cons_succ, List.take_succ_cons, List.cons_append, List.cons.injEq,
        true_and]
      exact ih i (by simpa using h)

theorem clearLoop_eq (n : Nat) :
    ∀ (i : Nat) (data : List Int) (locked : List Bool), data.length = i + n →
      locked.length = i + n →
      forLoop (fun i (st : List Int × List Bool) => do
          let data ← sliceSet st.1 i 0
          let locked ← sliceSet st.2 i false
          pure (data, locked)) n (i : Int) (data, locked) =
        .ok (data.take i ++ List.replicate n 0, locked.take i ++ List.replicate n false) := by
  induction n with
  | zero =>
    intro i data locked h1 h2
    simp only [forLoop, List.replicate_zero, List.append_nil]
    rw [List.take_of_length_le (by omega), List.take_of_length_le (by omega)]
  | succ n ih =>
    intro i data locked h1 h2
    have e1 := sliceSet_eq data (i : Int) 0 (by omega) (by omega)
    have e2 := sliceSet_eq locked (i : Int) false (by omega) (by omega)
    have := ih (i + 1) (data.set i 0) (locked.set i false) (by simp; omega) (by simp; omega)
    rw [forLoop]
    simp only [e1, e2, bind, Except.bind, pure, Except.pure, Int.toNat_ofNat]
    simp only [bind, Except.bind, pure, Except.pure] at this
    push_cast at this
    rw [this, take_set_succ _ _ _ (by omega), take_set_succ _ _ _ (by omega)]
    simp [List.replicate_succ]

theorem Sudoku.Clear_spec {s : Sudoku} (h : s.WF) :
    ∃ t, s.Clear = .ok t ∧ t.WF ∧ t.Consistent ∧ (∀ G, t.ExtendedBy G) ∧ t.size = s.size ∧
      t.rand = s.rand ∧ t.generating = s.generating ∧
      t.data = List.replicate s.data.length 0 ∧
      t.locked = List.replicate s.locked.length false ∧
      t.rows = s.rows.Clear ∧ t.cols = s.cols.Clear ∧ t.regions = s.regions.Clear := by
  obtain ⟨hsz, hdata, hlocked, hrows, hcols, hregs⟩ := h
  have hlen : s.locked.length = s.data.length := by omega
  have := clearLoop_eq s.data.length 0 s.data s.locked (by omega) (by omega)
  unfold Sudoku.Clear
  simp only [Nat.cast_zero, bind, Except.bind, pure, Except.pure, List.take_zero,
    List.nil_append] at this
  simp only [bind, Except.bind, pure, Except.pure]
  rw [this]
  have hwf : Sudoku.WF ⟨s.size, List.replicate s.data.length 0,
      List.replicate s.data.length false, s.rows.Clear, s.cols.Clear, s.regions.Clear,
      s.rand, s.generating⟩ := by
    refine ⟨hsz, ?_, ?_, Bitmap.Clear_WF hrows, Bitmap.Clear_WF hcols, Bitmap.Clear_WF hregs⟩
    · simp only [List.length_replicate]; exact hdata
    · simp only [List.length_replicate]; exact hdata
  have hc := Sudoku.consistent_of_zero hwf (fun v hv => List.eq_of_mem_replicate hv)
    (Bitmap.Clear_zero _) (Bitmap.Clear_zero _) (Bitmap.Clear_zero _)
  exact ⟨_, rfl, hwf, hc.1, hc.2, rfl, rfl, rfl, rfl, by rw [hlen], rfl, rfl, rfl⟩

/-! ## The grid that extends the seed -/

theorem emod_add_inj {k c j j' : Int} (hj0 : 0 ≤ j) (hj : j < k) (hj0' : 0 ≤ j')
    (hj' : j' < k) (h : (c + j) % k = (c + j') % k) : j = j' := by
  have h1 := (Int.emod_emod_of_dvd (c + j - (c + j')) (dvd_refl k)).symm
  have h2 : (c + j - (c + j')) % k = 0 := by
    rw [Int.sub_emod, h, Int.sub_self, Int.zero_emod]
  have h3 : c + j - (c + j') = j - j' := by ring
  rw [h3] at h2
  obtain ⟨q, hq⟩ := Int.dvd_of_emod_eq_zero h2
  have hq1 : -1 < q := by
    by_contra hc
    have : q ≤ -1 := by omega
    have : k * q ≤ k * (-1) := Int.mul_le_mul_of_nonneg_left this (by omega)
    omega
  have hq2 : q < 1 := by
    by_contra hc
    have : 1 ≤ q := by omega
    have : k * 1 ≤ k * q := Int.mul_le_mul_of_nonneg_left this (by omega)
    omega
  have : q = 0 := by omega
  rw [this] at hq
  omega

theorem block_value_inj {k a u w u' w' : Int} (_hk : 0 < k)
    (hu0 : 0 ≤ u) (hu : u < k) (hw0 : 0 ≤ w) (hw : w < k)
    (hu0' : 0 ≤ u') (hu' : u' < k) (hw0' : 0 ≤ w') (hw' : w' < k)
    (h : (a + k * u + w) % (k * k) = (a + k * u' + w') % (k * k)) : u = u' ∧ w = w' := by
  have b1 := index_bounds hw0 hw hu0 hu
  have b2 := index_bounds hw0' hw' hu0' hu'
  have e : u * k + w = u' * k + w' := by
    apply emod_add_inj (k := k * k) (c := a) b1.1 b1.2 b2.1 b2.2
    have r1 : a + (u * k + w) = a + k * u + w := by ring
    have r2 : a + (u' * k + w') = a + k * u' + w' := by ring
    rw [r1, r2]; exact h
  obtain ⟨e1, e2⟩ := index_inj hw0 hw hw0' hw' e
  exact ⟨e2, e1⟩

theorem split_index {k r : Int} (hk : 0 < k) (hr0 : 0 ≤ r) (hr : r < k * k) :
    0 ≤ r / k ∧ r / k < k ∧ 0 ≤ r % k ∧ r % k < k ∧ r = k * (r / k) + r % k :=
  ⟨(div_bounds hk hr0 hr).1, (div_bounds hk hr0 hr).2, Int.emod_nonneg r (by omega),
    Int.emod_lt_of_pos r hk, (Int.ediv_add_emod r k).symm⟩

theorem seedGrid_valid (k : Int) (a s : Int → Int) (hk : 0 < k) : ValidGrid k (seedGrid k a s) := by
  have hN : 0 < k * k := Int.mul_pos hk hk
  have hmod : ∀ x : Int, 0 ≤ x % k ∧ x % k < k := fun x =>
    ⟨Int.emod_nonneg x (by omega), Int.emod_lt_of_pos x hk⟩
  refine ⟨?_, ?_, ?_, ?_⟩
  · intro r _ _ c _ _
    unfold seedGrid
    have h1 := Int.emod_nonneg (a (r / k) + k * ((r % k - s (r / k) + c / k - r / k) % k) +
      (a (c / k) - a (r / k) + c % k - s (c / k) + r / k - c / k) % k) (show k * k ≠ 0 by omega)
    have h2 := Int.emod_lt_of_pos (a (r / k) + k * ((r % k - s (r / k) + c / k - r / k) % k) +
      (a (c / k) - a (r / k) + c % k - s (c / k) + r / k - c / k) % k) hN
    omega
  · -- rows
    intro r hr0 hr c hc0 hc c' hc0' hc' h
    unfold seedGrid at h
    obtain ⟨j0, j1, q0, q1, ec⟩ := split_index hk hc0 hc
    obtain ⟨j0', j1', q0', q1', ec'⟩ := split_index hk hc0' hc'
    have h' := block_value_inj hk (hmod _).1 (hmod _).2 (hmod _).1 (hmod _).2
      (hmod _).1 (hmod _).2 (hmod _).1 (hmod _).2 (add_right_cancel h)
    obtain ⟨eu, ew⟩ := h'
    have ej : c / k = c' / k := by
      apply emod_add_inj (c := r % k - s (r / k) - r / k) j0 j1 j0' j1'
      have r1 : r % k - s (r / k) - r / k + c / k = r % k - s (r / k) + c / k - r / k := by ring
      have r2 : r % k - s (r / k) - r / k + c' / k = r % k - s (r / k) + c' / k - r / k := by ring
      rw [r1, r2]; exact eu
    rw [← ej] at ew
    have eq : c % k = c' % k := by
      apply emod_add_inj (c := a (c / k) - a (r / k) - s (c / k) + r / k - c / k) q0 q1 q0' q1'
      have r1 : a (c / k) - a (r / k) - s (c / k) + r / k - c / k + c % k =
          a (c / k) - a (r / k) + c % k - s (c / k) + r / k - c / k := by ring
      have r2 : a (c / k) - a (r / k) - s (c / k) + r / k - c / k + c' % k =
          a (c / k) - a (r / k) + c' % k - s (c / k) + r / k - c / k := by ring
      rw [r1, r2]; exact ew
    rw [ec, ec', ej, eq]
  · -- columns
    intro c hc0 hc r hr0 hr r' hr0' hr' h
    unfold seedGrid at h
    obtain ⟨i0, i1, p0, p1, er⟩ := split_index hk hr0 hr
    obtain ⟨i0', i1', p0', p1', er'⟩ := split_index hk hr0' hr'
    have hx : ∀ (A U W : Int), (A + k * U + W % k) % (k * k) % k = (A + W) % k := by
      intro A U W
      rw [Int.emod_emod_of_dvd _ (Dvd.intro k rfl)]
      have : A + k * U + W % k = A + W % k + k * U := by ring
      rw [this, Int.add_mul_emod_self_left, Int.add_emod_emod]
    have hk' : (a (r / k) + (a (c / k) - a (r / k) + c % k - s (c / k) + r / k - c / k)) % k =
        (a (r' / k) + (a (c / k) - a (r' / k) + c % k - s (c / k) + r' / k - c / k)) % k := by
      rw [← hx _ ((r % k - s (r / k) + c / k - r / k) % k),
        ← hx _ ((r' % k - s (r' / k) + c / k - r' / k) % k)]
      congr 1
      omega
    have ei : r / k = r' / k := by
      apply emod_add_inj (c := a (c / k) + c % k - s (c / k) - c / k) i0 i1 i0' i1'
      have r1 : a (c / k) + c % k - s (c / k) - c / k + r / k =
          a (r / k) + (a (c / k) - a (r / k) + c % k - s (c / k) + r / k - c / k) := by ring
      have r2 : a (c / k) + c % k - s (c / k) - c / k + r' / k =
          a (r' / k) + (a (c / k) - a (r' / k) + c % k - s (c / k) + r' / k - c / k) := by ring
      rw [r1, r2]; exact hk'
    rw [← ei] at h
    have h' := block_value_inj hk (hmod _).1 (hmod _).2 (hmod _).1 (hmod _).2
      (hmod _).1 (hmod _).2 (hmod _).1 (hmod _).2 (add_right_cancel h)
    obtain ⟨eu, _⟩ := h'
    have ep : r % k = r' % k := by
      apply emod_add_inj (c := - s (r / k) + c / k - r / k) p0 p1 p0' p1'
      have r1 : - s (r / k) + c / k - r / k + r % k = r % k - s (r / k) + c / k - r / k := by ring
      have r2 : - s (r / k) + c / k - r / k + r' % k = r' % k - s (r / k) + c / k - r / k := by
        ring
      rw [r1, r2]; exact eu
    rw [er, er', ei, ep]
  · -- regions
    intro r hr0 hr c hc0 hc r' hr0' hr' c' hc0' hc' hg h
    rw [regionIndex_eq_iff hk hr0 hr hc0 hc hr0' hr' hc0' hc'] at hg
    obtain ⟨ei, ej⟩ := hg
    unfold seedGrid at h
    obtain ⟨i0, i1, p0, p1, er⟩ := split_index hk hr0 hr
    obtain ⟨i0', i1', p0', p1', er'⟩ := split_index hk hr0' hr'
    obtain ⟨j0, j1, q0, q1, ec⟩ := split_index hk hc0 hc
    obtain ⟨j0', j1', q0', q1', ec'⟩ := split_index hk hc0' hc'
    rw [← ei, ← ej] at h
    have h' := block_value_inj hk (hmod _).1 (hmod _).2 (hmod _).1 (hmod _).2
      (hmod _).1 (hmod _).2 (hmod _).1 (hmod _).2 (add_right_cancel h)
    obtain ⟨eu, ew⟩ := h'
    have ep : r % k = r' % k := by
      apply emod_add_inj (c := - s (r / k) + c / k - r / k) p0 p1 p0' p1'
      have r1 : - s (r / k) + c / k - r / k + r % k = r % k - s (r / k) + c / k - r / k := by ring
      have r2 : - s (r / k) + c / k - r / k + r' % k = r' % k - s (r / k) + c / k - r / k := by
        ring
      rw [r1, r2]; exact eu
    have eq : c % k = c' % k := by
      apply emod_add_inj (c := a (c / k) - a (r / k) - s (c / k) + r / k - c / k) q0 q1 q0' q1'
      have r1 : a (c / k) - a (r / k) - s (c / k) + r / k - c / k + c % k =
          a (c / k) - a (r / k) + c % k - s (c / k) + r / k - c / k := by ring
      have r2 : a (c / k) - a (r / k) - s (c / k) + r / k - c / k + c' % k =
          a (c / k) - a (r / k) + c' % k - s (c / k) + r / k - c / k := by ring
      rw [r1, r2]; exact ew
    exact ⟨by rw [er, er', ei, ep], by rw [ec, ec', ej, eq]⟩

theorem Sudoku.Set_cells {s : Sudoku} (h : s.WF) (hcons : s.Consistent) {r c v : Int}
    (hr0 : 0 ≤ r) (hr : r < s.dim) (hc0 : 0 ≤ c) (hc : c < s.dim)
    (hv1 : 1 ≤ v) (hv : v ≤ s.dim) {b : Bool} {t : Sudoku} (hset : s.Set r c v = .ok (b, t)) :
    ∀ r' : Int, 0 ≤ r' → r' < s.dim → ∀ c' : Int, 0 ≤ c' → c' < s.dim →
      t.cell r' c' = if b = true ∧ r' = r ∧ c' = c then v else s.cell r' c' := by
  have hval := hcons.1 r hr0 hr c hc0 hc
  rw [Sudoku.Set_eq h hr0 hr hc0 hc hv1 hv hval.1 hval.2] at hset
  intro r' a a' c' d d'
  cases hb : s.blocked r c v
  · rw [hb] at hset
    simp only [Bool.false_eq_true, if_false, Except.ok.injEq, Prod.mk.injEq] at hset
    obtain ⟨e1, e2⟩ := hset
    subst e1 e2
    by_cases hz : s.cell r c = 0
    · rw [if_pos hz, Sudoku.cell_place h _ hr0 hr hc0 hc a a' d d']
      simp
    · rw [if_neg hz, Sudoku.cell_place (Sudoku.erase_WF h r c) _ hr0 hr hc0 hc a a' d d',
        Sudoku.cell_erase h hr0 hr hc0 hc a a' d d']
      by_cases hsame : r' = r ∧ c' = c
      · simp [hsame]
      · simp [hsame]
  · rw [hb] at hset
    simp only [if_true, Except.ok.injEq, Prod.mk.injEq] at hset
    obtain ⟨e1, e2⟩ := hset
    subst e1 e2
    simp

/-! ## The seed phase of Generate -/

theorem SeedInv.dim_eq {k : Int} {rand : Rand} {locked : List Bool} {gen : Bool}
    {G : Int → Int → Int} {s : Sudoku} (h : SeedInv k rand locked gen G s) : s.dim = k * k := by
  unfold Sudoku.dim; rw [h.size_eq]

theorem seedCell_spec {k : Int} {rand : Rand} {locked : List Bool} {gen : Bool}
    {G : Int → Int → Int} {s : Sudoku} (hinv : SeedInv k rand locked gen G s)
    {region start val row col i : Int} (hg0 : 0 ≤ region) (hg : region < k)
    (hrow : 0 ≤ row) (hcol : 0 ≤ col) (hstart : 0 ≤ start) (hval : 0 ≤ val) (hi : 0 ≤ i)
    (hG : G (region * k + (row + start) % k) (region * k + (col + start) % k) =
      (val + start + i) % (k * k) + 1) :
    ∃ t, seedCell region start val row col (i, s) = .ok (i + 1, t) ∧
      SeedInv k rand locked gen G t := by
  have hk : 0 < k := by omega
  have hdim := hinv.dim_eq
  have hsz := hinv.size_eq
  have e1 : Int.tmod (row + start) k = (row + start) % k :=
    Int.tmod_eq_emod (by omega) (by omega)
  have e2 : Int.tmod (col + start) k = (col + start) % k :=
    Int.tmod_eq_emod (by omega) (by omega)
  obtain ⟨e3, v1, v2⟩ := candidate_bounds (Int.mul_pos hk hk) (show 0 ≤ val + start + i by omega)
  have p0 := Int.emod_nonneg (row + start) (show k ≠ 0 by omega)
  have p1 := Int.emod_lt_of_pos (row + start) hk
  have q0 := Int.emod_nonneg (col + start) (show k ≠ 0 by omega)
  have q1 := Int.emod_lt_of_pos (col + start) hk
  have hR := index_bounds p0 p1 hg0 hg
  have hC := index_bounds q0 q1 hg0 hg
  have v2' : (val + start + i) % (k * k) + 1 ≤ s.dim := by rw [hdim]; exact v2
  rw [← hdim] at hR hC
  obtain ⟨b, t, hset, twf, tcons, tsize, tlocked, trand, tgen, _⟩ :=
    Sudoku.Set_consistent hinv.wf hinv.consistent hR.1 hR.2 hC.1 hC.2 v1 v2'
  have hcells := Sudoku.Set_cells hinv.wf hinv.consistent hR.1 hR.2 hC.1 hC.2 v1 v2' hset
  refine ⟨t, ?_, ?_⟩
  · unfold seedCell
    simp only [hsz, e1, e2, e3, hset, bind, Except.bind, pure, Except.pure]
  · refine ⟨twf, tcons, tsize.trans hsz, trand.trans hinv.rand_eq,
      tlocked.trans hinv.locked_eq, tgen.trans hinv.generating_eq, ?_⟩
    have tdim : t.dim = s.dim := by unfold Sudoku.dim; rw [tsize]
    intro r' a a' c' d d' hne
    rw [tdim] at a' d'
    rw [hcells r' a a' c' d d'] at hne ⊢
    split
    · rename_i hh
      rw [hh.2.1, hh.2.2]; exact hG
    · rename_i hh
      rw [if_neg hh] at hne
      exact hinv.ext r' a a' c' d d' hne

theorem seedGrid_diag {k : Int} (hk : 0 < k) (a s : Int → Int) (region row col : Int)
    (hrow0 : 0 ≤ row) (hrow : row < k)
    (hcol0 : 0 ≤ col) (hcol : col < k) :
    seedGrid k a s (region * k + (row + s region) % k) (region * k + (col + s region) % k) =
      (a region + (row * k + col)) % (k * k) + 1 := by
  have hdiv : ∀ x : Int, (region * k + x % k) / k = region := by
    intro x
    rw [Int.add_comm, Int.add_mul_ediv_right _ _ (show k ≠ 0 by omega),
      Int.ediv_eq_zero_of_lt (Int.emod_nonneg x (by omega)) (Int.emod_lt_of_pos x hk)]
    omega
  have hmod : ∀ x : Int, (region * k + x % k) % k = x % k := by
    intro x
    rw [Int.add_comm, Int.add_mul_emod_self, Int.emod_emod]
  have hback : ∀ x : Int, 0 ≤ x → x < k → ((x + s region) % k - s region) % k = x := by
    intro x h0 h1
    rw [Int.sub_eq_add_neg, Int.emod_add_emod]
    have : x + s region + -s region = x := by ring
    rw [this]; exact Int.emod_eq_of_lt h0 h1
  unfold seedGrid
  simp only [hdiv, hmod]
  have u1 : (row + s region) % k - s region + region - region = (row + s region) % k - s region := by
    ring
  have w1 : a region - a region + (col + s region) % k - s region + region - region =
      (col + s region) % k - s region := by ring
  rw [u1, w1, hback row hrow0 hrow, hback col hcol0 hcol]
  congr 2
  ring

theorem SeedInv.withRand {k : Int} {rand : Rand} {locked : List Bool} {gen : Bool}
    {G : Int → Int → Int} {s : Sudoku} (h : SeedInv k rand locked gen G s) (rand' : Rand) :
    SeedInv k rand' locked gen G { s with rand := rand' } :=
  { wf := h.wf, consistent := h.consistent, size_eq := h.size_eq, rand_eq := rfl,
    locked_eq := h.locked_eq, generating_eq := h.generating_eq, ext := h.ext }

/-- The grid that extends the seed written from the random source `rand`. -/
theorem seedRegion_spec {k : Int} (rand0 : Rand) {locked : List Bool} {gen : Bool}
    {s : Sudoku} {region : Int} (hg0 : 0 ≤ region) (hg : region < k)
    (hinv : SeedInv k ⟨rand0.draws, rand0.pos + 2 * region.toNat⟩ locked gen
      (seedGrid k (fun g => seedVal rand0 g + seedStart rand0 g) (seedStart rand0)) s) :
    ∃ t, seedRegion region s = .ok t ∧
      SeedInv k ⟨rand0.draws, rand0.pos + 2 * (region + 1).toNat⟩ locked gen
        (seedGrid k (fun g => seedVal rand0 g + seedStart rand0 g) (seedStart rand0)) t := by
  have hk : 0 < k := by omega
  have hrand := hinv.rand_eq
  have hsz := hinv.size_eq
  have hpos : rand0.pos + 2 * (region + 1).toNat = rand0.pos + 2 * region.toNat + 1 + 1 := by
    omega
  have hstart : ((rand0.draws (rand0.pos + 2 * region.toNat) : Nat) : Int) % 1000 + 1 =
      seedStart rand0 region := rfl
  have hval : ((rand0.draws (rand0.pos + 2 * region.toNat + 1) : Nat) : Int) % 1000 + 1 =
      seedVal rand0 region := rfl
  have hs0 : 0 ≤ seedStart rand0 region := by unfold seedStart; omega
  have hv0 : 0 ≤ seedVal rand0 region := by unfold seedVal; omega
  have hinv2 := hinv.withRand ⟨rand0.draws, rand0.pos + 2 * (region + 1).toNat⟩
  -- the two nested loops over the cells of the region
  have hloops := forLoop_inv
    (fun row st => forLoop (seedCell region (seedStart rand0 region) (seedVal rand0 region) row)
      k.toNat 0 st)
    (fun row (st : Int × Sudoku) => st.1 = row * k ∧
      SeedInv k ⟨rand0.draws, rand0.pos + 2 * (region + 1).toNat⟩ locked gen
        (seedGrid k (fun g => seedVal rand0 g + seedStart rand0 g) (seedStart rand0)) st.2)
    k.toNat 0 ((0 : Int), { s with rand := ⟨rand0.draws, rand0.pos + 2 * (region + 1).toNat⟩ })
    (by
      intro row st hrow0 hrow hP
      have hinner := forLoop_inv
        (seedCell region (seedStart rand0 region) (seedVal rand0 region) row)
        (fun col (st : Int × Sudoku) => st.1 = row * k + col ∧
          SeedInv k ⟨rand0.draws, rand0.pos + 2 * (region + 1).toNat⟩ locked gen
            (seedGrid k (fun g => seedVal rand0 g + seedStart rand0 g) (seedStart rand0)) st.2)
        k.toNat 0 st
        (by
          intro col st' hcol0 hcol hP'
          obtain ⟨i, u⟩ := st'
          obtain ⟨hi, hu⟩ := hP'
          simp only at hi hu
          have hi0 : 0 ≤ i := by
            rw [hi]
            have := Int.mul_nonneg hrow0 (show 0 ≤ k by omega)
            omega
          have hGd := seedGrid_diag hk (fun g => seedVal rand0 g + seedStart rand0 g)
            (seedStart rand0) region row col hrow0 (show row < k by omega) hcol0
            (show col < k by omega)
          obtain ⟨t, e, ht⟩ := seedCell_spec hu hg0 hg hrow0 hcol0 hs0 hv0 hi0
            (by rw [hGd, hi])
          exact ⟨(i + 1, t), e, by simp only; omega, ht⟩)
        (by simpa using hP)
      obtain ⟨st', e, hi, hu⟩ := hinner
      refine ⟨st', e, ?_, hu⟩
      rw [hi]
      have : ((k.toNat : Nat) : Int) = k := Int.toNat_of_nonneg (by omega)
      rw [this]; ring)
    ⟨by simp, hinv2⟩
  obtain ⟨st, e, _, hst⟩ := hloops
  refine ⟨st.2, ?_, hst⟩
  unfold seedRegion
  rw [hrand, Rand.Intn_eq _ (by decide)]
  simp only [bind, Except.bind, pure, Except.pure]
  rw [Rand.Intn_eq _ (by decide)]
  simp only [hstart, hval]
  rw [show s.size.toNat = k.toNat from by rw [hsz], ← hpos, e]

theorem seedPhase_spec {s : Sudoku} (h : s.WF) :
    ∃ t, seedPhase s = .ok t ∧ t.WF ∧ t.Consistent ∧ t.size = s.size ∧
      t.ExtendedBy (seedGrid s.size (fun g => seedVal s.rand g + seedStart s.rand g)
        (seedStart s.rand)) ∧
      t.rand = ⟨s.rand.draws, s.rand.pos + 2 * s.size.toNat⟩ ∧ t.generating = true ∧
      t.locked = List.replicate s.locked.length false := by
  have hk := h.1
  obtain ⟨u, eu, uwf, ucons, uext, usize, urand, ugen, _, ulocked, _⟩ :=
    Sudoku.Clear_spec (s := { s with generating := true }) h
  have hloop := forLoop_inv seedRegion
    (fun region t => SeedInv s.size ⟨s.rand.draws, s.rand.pos + 2 * region.toNat⟩
      (List.replicate s.locked.length false) true
      (seedGrid s.size (fun g => seedVal s.rand g + seedStart s.rand g) (seedStart s.rand)) t)
    s.size.toNat 0 u
    (by
      intro region t hg0 hg hP
      exact seedRegion_spec s.rand hg0 (by omega) hP)
    { wf := uwf, consistent := ucons, size_eq := usize, rand_eq := urand, locked_eq := ulocked,
      generating_eq := ugen, ext := uext _ }
  obtain ⟨t, et, ht⟩ := hloop
  refine ⟨t, ?_, ht.wf, ht.consistent, ht.size_eq, ht.ext, ?_, ht.generating_eq, ht.locked_eq⟩
  · unfold seedPhase
    simp only [bind, Except.bind]
    rw [eu]
    simp only [usize]
    exact et
  · rw [ht.rand_eq]
    have : (0 + ((s.size.toNat : Nat) : Int)).toNat = s.size.toNat := by omega
    rw [this]

/-! ## More fuel never changes a result -/

theorem solveLoop_mono (solve solve' : Sudoku → Exec (Bool × Sudoku))
    (h : ∀ u r, solve u = .ok r → solve' u = .ok r) (row col : Int) (n : Nat) :
    ∀ (i : Int) (s : Sudoku) (r : Bool × Sudoku),
      solveLoop solve row col n i s = .ok r → solveLoop solve' row col n i s = .ok r := by
  induction n with
  | zero => intro i s r hr; exact hr
  | succ n ih =>
    intro i s r hr
    rw [solveLoop] at hr ⊢
    cases hset : s.Set row col (Int.tmod i (s.size * s.size) + 1) with
    | error e => rw [hset] at hr; simp [bind, Except.bind] at hr
    | ok p =>
      obtain ⟨placed, t⟩ := p
      rw [hset] at hr
      simp only [bind, Except.bind, pure, Except.pure] at hr ⊢
      cases placed
      · simp only [Bool.false_eq_true, if_false] at hr ⊢
        exact ih _ _ _ hr
      · simp only [if_true] at hr ⊢
        cases hsol : solve t with
        | error e => rw [hsol] at hr; simp at hr
        | ok q =>
          rw [hsol] at hr
          rw [h t q hsol]
          obtain ⟨solved, u⟩ := q
          simp only at hr ⊢
          cases solved
          · simp only [Bool.false_eq_true, if_false] at hr ⊢
            cases hrem : u.Remove row col with
            | error e => rw [hrem] at hr; simp at hr
            | ok w =>
              rw [hrem] at hr
              simp only at hr ⊢
              exact ih _ _ _ hr
          · simp only [if_true] at hr ⊢
            exact hr

theorem Sudoku.Solve_mono (fuel : Nat) :
    ∀ (s : Sudoku) (r : Bool × Sudoku), s.Solve fuel = .ok r → s.Solve (fuel + 1) = .ok r := by
  induction fuel with
  | zero => intro s r h; simp [Sudoku.Solve] at h
  | succ fuel ih =>
    intro s r h
    rw [Sudoku.Solve] at h ⊢
    cases hf : s.FindNextEmpty with
    | error e => rw [hf] at h; simp [bind, Except.bind] at h
    | ok o =>
      rw [hf] at h
      simp only [bind, Except.bind] at h ⊢
      cases o with
      | none => exact h
      | some p =>
        obtain ⟨row, col⟩ := p
        simp only at h ⊢
        cases hi : s.rand.Intn 1000 with
        | error e => rw [hi] at h; simp at h
        | ok q =>
          rw [hi] at h
          simp only at h ⊢
          exact solveLoop_mono _ _ ih _ _ _ _ _ _ h

theorem Sudoku.Solve_mono_le {fuel fuel' : Nat} (hle : fuel ≤ fuel') {s : Sudoku}
    {r : Bool × Sudoku} (h : s.Solve fuel = .ok r) : s.Solve fuel' = .ok r := by
  induction hle with
  | refl => exact h
  | step _ ih => exact Sudoku.Solve_mono _ _ _ ih

/-- On a consistent board that some valid grid extends, `Solve` never answers `false`. -/
theorem Sudoku.Solve_ne_false {s : Sudoku} (h : s.WF) (hcons : s.Consistent)
    {G : Int → Int → Int} (hG : ValidGrid s.size G) (hext : s.ExtendedBy G) (fuel : Nat)
    (t : Sudoku) : s.Solve fuel ≠ .ok (false, t) := by
  intro hrun
  obtain ⟨t', h'⟩ := Sudoku.Solve_complete G (max fuel (s.emptyCount + 1)) s h hcons hG hext
    (by omega)
  rw [Sudoku.Solve_mono_le (le_max_left _ _) hrun] at h'
  simp at h'

/-! ## The carve and lock phases of Generate -/

theorem Sudoku.CarvedFrom.refl (s : Sudoku) : s.CarvedFrom s := fun _ _ _ _ _ _ _ => rfl

theorem Sudoku.carvedFrom_erase {s u : Sudoku} (hu : u.WF) (hsize : u.size = s.size)
    (hc : s.CarvedFrom u) {r c : Int} (hr0 : 0 ≤ r) (hr : r < u.dim) (hc0 : 0 ≤ c)
    (hcd : c < u.dim) : s.CarvedFrom (u.erase r c) := by
  have hdim : u.dim = s.dim := by unfold Sudoku.dim; rw [hsize]
  intro r' a a' c' d d' hne
  rw [← hdim] at a' d'
  rw [Sudoku.cell_erase hu hr0 hr hc0 hcd a a' d d'] at hne ⊢
  split
  · rename_i hh; rw [if_pos hh] at hne; exact absurd rfl hne
  · rename_i hh
    rw [if_neg hh] at hne
    rw [hdim] at a' d'
    exact hc r' a a' c' d d' hne

theorem carve_spec (remove : Int) (s0 : Sudoku) (fuel : Nat) :
    ∀ (removed : Int) (s t : Sudoku), s.WF → s.Consistent → s.size = s0.size →
      s0.CarvedFrom s → carve s.dim remove fuel removed s = .ok t →
      t.WF ∧ t.Consistent ∧ t.size = s0.size ∧ s0.CarvedFrom t ∧ t.locked = s.locked ∧
        t.generating = s.generating := by
  induction fuel with
  | zero =>
    intro removed s t h hcons hsize hcarved hrun
    rw [carve] at hrun
    split at hrun
    · simp at hrun
    · simp only [Except.ok.injEq] at hrun
      subst hrun
      exact ⟨h, hcons, hsize, hcarved, rfl, rfl⟩
  | succ fuel ih =>
    intro removed s t h hcons hsize hcarved hrun
    rw [carve] at hrun
    split at hrun
    · have hd := Sudoku.WF.dim_pos h
      rw [Rand.Intn_eq _ hd] at hrun
      simp only [bind, Except.bind] at hrun
      rw [Rand.Intn_eq _ hd] at hrun
      simp only at hrun
      have r0 := Int.emod_nonneg ((s.rand.draws s.rand.pos : Nat) : Int) (show s.dim ≠ 0 by omega)
      have r1 := Int.emod_lt_of_pos ((s.rand.draws s.rand.pos : Nat) : Int) hd
      have c0 := Int.emod_nonneg ((s.rand.draws (s.rand.pos + 1) : Nat) : Int)
        (show s.dim ≠ 0 by omega)
      have c1 := Int.emod_lt_of_pos ((s.rand.draws (s.rand.pos + 1) : Nat) : Int) hd
      have hhas := Sudoku.Has_ok
        (Sudoku.withRand_WF h ⟨s.rand.draws, s.rand.pos + 1 + 1⟩) r0 r1 c0 c1
      rw [hhas] at hrun
      simp only at hrun
      split at hrun
      · rename_i hne
        have hne' : s.cell (((s.rand.draws s.rand.pos : Nat) : Int) % s.dim)
            (((s.rand.draws (s.rand.pos + 1) : Nat) : Int) % s.dim) ≠ 0 := by
          simpa using hne
        have hv := hcons.1 _ r0 r1 _ c0 c1
        have hrem := Sudoku.Remove_eq
          (Sudoku.withRand_WF h ⟨s.rand.draws, s.rand.pos + 1 + 1⟩) r0 r1 c0 c1
          (show 1 ≤ _ by
            have : ∀ x : Int, 0 ≤ x → x ≠ 0 → 1 ≤ x := fun x a b => by omega
            exact this _ hv.1 hne') hv.2
        rw [hrem] at hrun
        simp only at hrun
        have hw := Sudoku.withRand_WF h ⟨s.rand.draws, s.rand.pos + 1 + 1⟩
        have key := ih _ _ t (Sudoku.erase_WF hw _ _)
          (Sudoku.erase_consistent hw hcons r0 r1 c0 c1 hne') hsize
          (Sudoku.carvedFrom_erase hw hsize hcarved r0 r1 c0 c1) hrun
        exact key
      · have key := ih _ _ t (Sudoku.withRand_WF h ⟨s.rand.draws, s.rand.pos + 1 + 1⟩) hcons
          hsize hcarved hrun
        exact key
    · simp only [Except.ok.injEq] at hrun
      subst hrun
      exact ⟨h, hcons, hsize, hcarved, rfl, rfl⟩

theorem lockClues_spec {s : Sudoku} (h : s.WF) :
    ∃ l, lockClues s = .ok { s with locked := l } ∧ l.length = s.locked.length := by
  have hlen : (s.locked.length : Int) = s.data.length := by rw [h.2.1, h.2.2.1]
  have hloop := forLoop_inv
    (fun i (locked : List Bool) => do
      if (← sliceGet s.data i) ≠ 0 then sliceSet locked i true
      else pure locked)
    (fun _ (locked : List Bool) => locked.length = s.locked.length)
    s.data.length 0 s.locked
    (by
      intro i l hi0 hi hl
      simp only [bind, Except.bind, pure, Except.pure, sliceGet_eq s.data i 0 hi0 (by omega)]
      split
      · rw [sliceSet_eq _ _ _ hi0 (by omega)]
        exact ⟨_, rfl, by simp [hl]⟩
      · exact ⟨_, rfl, hl⟩)
    rfl
  obtain ⟨l, e, hl⟩ := hloop
  refine ⟨l, ?_, hl⟩
  unfold lockClues
  rw [e]
  rfl

/-! ## Generate -/

/-- The cells of a full consistent board form a valid grid. -/
theorem Sudoku.validGrid_of_full {u : Sudoku} (h : u.WF) (hcons : u.Consistent) (hfull : u.Full) :
    ValidGrid u.size u.cell := by
  obtain ⟨hVal, _, _, _, hRD, hCD, hGD⟩ := hcons
  refine ⟨?_, ?_, ?_, ?_⟩
  · intro r a a' c d d'
    have h1 := hVal r a a' c d d'
    have h2 := hfull r a a' c d d'
    change 1 ≤ u.cell r c ∧ u.cell r c ≤ u.dim
    omega
  · intro r a a' c d d' c' e e' heq
    exact hRD r a a' c d d' c' e e' (hfull r a a' c d d') heq
  · intro c d d' r a a' r' e e' heq
    exact hCD c d d' r a a' r' e e' (hfull r a a' c d d') heq
  · intro r a a' c d d' r' e e' c' f f' hg heq
    exact hGD r a a' c d d' r' e e' c' f f' (hfull r a a' c d d')
      (by rw [Sudoku.regionOf_eq h, Sudoku.regionOf_eq h]; exact hg) heq

theorem Sudoku.CarvedFrom.extendedBy {u t : Sudoku} (hsize : t.size = u.size)
    (hc : u.CarvedFrom t) : t.ExtendedBy u.cell := by
  have hdim : t.dim = u.dim := by unfold Sudoku.dim; rw [hsize]
  intro r a a' c d d' hne
  rw [hdim] at a' d'
  exact (hc r a a' c d d' hne).symm

theorem Sudoku.Generate_spec {s : Sudoku} (h : s.WF) {fuel : Nat} {d : Difficulty} {b : Bool}
    {t : Sudoku} (hrun : s.Generate fuel d = .ok (b, t)) :
    b = true ∧ t.WF ∧ t.Consistent ∧ t.size = s.size ∧
      ∃ u : Sudoku, u.WF ∧ u.Full ∧ u.Consistent ∧ u.size = s.size ∧ u.CarvedFrom t := by
  obtain ⟨s3, e3, wf3, cons3, size3, ext3, _, _, _⟩ := seedPhase_spec h
  have hG : ValidGrid s3.size (seedGrid s.size (fun g => seedVal s.rand g + seedStart s.rand g)
      (seedStart s.rand)) := by
    rw [size3]; exact seedGrid_valid _ _ _ h.1
  unfold Sudoku.Generate at hrun
  rw [e3] at hrun
  simp only [bind, Except.bind, pure, Except.pure] at hrun
  cases hsol : s3.Solve fuel with
  | error e => rw [hsol] at hrun; simp at hrun
  | ok p =>
    obtain ⟨b1, s4⟩ := p
    rw [hsol] at hrun
    simp only at hrun
    cases b1
    · exact absurd hsol (Sudoku.Solve_ne_false wf3 cons3 hG ext3 fuel s4)
    · have hp := Sudoku.Solve_post fuel s3 true s4 wf3 hsol
      simp only [Bool.not_true, Bool.false_eq_true, if_false] at hrun
      have hdim : s3.size * s3.size = s4.dim := by unfold Sudoku.dim; rw [hp.size_eq]
      rw [hdim] at hrun
      cases hcarve : carve s4.dim
          (s4.dim * s4.dim - keepCount (s4.dim * s4.dim) d) fuel 0 s4 with
      | error e => rw [hcarve] at hrun; simp at hrun
      | ok s5 =>
        rw [hcarve] at hrun
        simp only at hrun
        obtain ⟨wf5, cons5, size5, carved5, _, _⟩ :=
          carve_spec _ s4 fuel 0 s4 s5 hp.wf (hp.consistent rfl cons3) rfl
            (Sudoku.CarvedFrom.refl s4) hcarve
        obtain ⟨l, el, hl⟩ := lockClues_spec wf5
        rw [el] at hrun
        simp only [Except.ok.injEq, Prod.mk.injEq] at hrun
        obtain ⟨e1, e2⟩ := hrun
        subst e1 e2
        have hwf : Sudoku.WF ⟨s5.size, s5.data, l, s5.rows, s5.cols, s5.regions, s5.rand, false⟩ := by
          obtain ⟨a1, a2, a3, a4, a5, a6⟩ := wf5
          exact ⟨a1, a2, by rw [hl]; exact a3, a4, a5, a6⟩
        exact ⟨rfl, hwf, cons5, size5.trans (hp.size_eq.trans size3),
          s4, hp.wf, hp.full rfl, hp.consistent rfl cons3, hp.size_eq.trans size3, carved5⟩

/-! ## Reading off results -/

theorem eq_ok_true_of_returnsTrue (s : Sudoku) {r : Exec (Bool × Sudoku)}
    (h : returnsTrue r = true) : r = .ok (true, finalBoard s r) := by
  cases r with
  | error e => simp [returnsTrue] at h
  | ok p =>
    obtain ⟨b, t⟩ := p
    cases b
    · simp [returnsTrue] at h
    · rfl

theorem eq_ok_false_of_returnsFalse (s : Sudoku) {r : Exec (Bool × Sudoku)}
    (h : returnsFalse r = true) : r = .ok (false, finalBoard s r) := by
  cases r with
  | error e => simp [returnsFalse] at h
  | ok p =>
    obtain ⟨b, t⟩ := p
    cases b
    · rfl
    · simp [returnsFalse] at h

theorem eq_ok_of_not_faulted (s : Sudoku) {r : Exec Sudoku} (h : faulted r = false) :
    r = .ok (boardOf s r) := by
  cases r with
  | error e => simp [faulted] at h
  | ok p => rfl

theorem Sudoku.Set_true_inv {s t : Sudoku} {r c v : Int} (h : s.Set r c v = .ok (true, t)) :
    sliceSet s.data (r * (s.size * s.size) + c) v = .ok t.data ∧ t.size = s.size ∧
      t.locked = s.locked := by
  unfold Sudoku.Set at h
  simp only [bind, Except.bind, pure, Except.pure] at h
  cases h0 : s.Region r c with
  | error e => rw [h0] at h; simp at h
  | ok g =>
    rw [h0] at h; simp only at h
    cases h1 : s.rows.At r (v - 1) with
    | error e => rw [h1] at h; simp at h
    | ok b1 =>
      rw [h1] at h; simp only at h
      cases b1
      · simp only [Bool.false_eq_true, if_false] at h
        cases h2 : s.cols.At c (v - 1) with
        | error e => rw [h2] at h; simp at h
        | ok b2 =>
          rw [h2] at h; simp only at h
          cases b2
          · simp only [Bool.false_eq_true, if_false] at h
            cases h3 : s.regions.At g (v - 1) with
            | error e => rw [h3] at h; simp at h
            | ok b3 =>
              rw [h3] at h; simp only at h
              cases b3
              · simp only [Bool.false_eq_true, if_false] at h
                cases h4 : s.Has r c with
                | error e => rw [h4] at h; simp at h
                | ok b4 =>
                  rw [h4] at h; simp only at h
                  cases b4
                  · simp only [Bool.false_eq_true, if_false] at h
                    cases h5 : sliceSet s.data (r * (s.size * s.size) + c) v with
                    | error e => rw [h5] at h; simp at h
                    | ok d =>
                      rw [h5] at h; simp only at h
                      cases h6 : s.rows.Set r (v - 1) true with
                      | error e => rw [h6] at h; simp at h
                      | ok x6 =>
                        rw [h6] at h; simp only at h
                        cases h7 : s.cols.Set c (v - 1) true with
                        | error e => rw [h7] at h; simp at h
                        | ok x7 =>
                          rw [h7] at h; simp only at h
                          cases h8 : s.regions.Set g (v - 1) true with
                          | error e => rw [h8] at h; simp at h
                          | ok x8 =>
                            rw [h8] at h
                            simp only [Except.ok.injEq, Prod.mk.injEq, true_and] at h
                            subst h
                            exact ⟨rfl, rfl, rfl⟩
                  · simp only [if_true] at h
                    cases h4a : s.At r c with
                    | error e => rw [h4a] at h; simp at h
                    | ok old =>
                      rw [h4a] at h; simp only at h
                      cases h4b : s.rows.Set r (old - 1) false with
                      | error e => rw [h4b] at h; simp at h
                      | ok y1 =>
                        rw [h4b] at h; simp only at h
                        cases h4c : s.cols.Set c (old - 1) false with
                        | error e => rw [h4c] at h; simp at h
                        | ok y2 =>
                          rw [h4c] at h; simp only at h
                          cases h4d : s.regions.Set g (old - 1) false with
                          | error e => rw [h4d] at h; simp at h
                          | ok y3 =>
                            rw [h4d] at h; simp only at h
                            cases h5 : sliceSet s.data (r * (s.size * s.size) + c) v with
                            | error e => rw [h5] at h; simp at h
                            | ok d =>
                              rw [h5] at h; simp only at h
                              cases h6 : y1.Set r (v - 1) true with
                              | error e => rw [h6] at h; simp at h
                              | ok x6 =>
                                rw [h6] at h; simp only at h
                                cases h7 : y2.Set c (v - 1) true with
                                | error e => rw [h7] at h; simp at h
                                | ok x7 =>
                                  rw [h7] at h; simp only at h
                                  cases h8 : y3.Set g (v - 1) true with
                                  | error e => rw [h8] at h; simp at h
                                  | ok x8 =>
                                    rw [h8] at h
                                    simp only [Except.ok.injEq, Prod.mk.injEq, true_and] at h
                                    subst h
                                    exact ⟨rfl, rfl, rfl⟩
              · simp at h
          · simp at h
      · simp at h

theorem sliceGet_set_ne {α : Type} (xs : List α) (i j : Int) (x : α) (hi : 0 ≤ i)
    (hne : i ≠ j) : sliceGet (xs.set i.toNat x) j = sliceGet xs j := by
  unfold sliceGet
  by_cases hj : j < 0
  · rw [if_pos hj, if_pos hj]
  · rw [if_neg hj, if_neg hj, List.getElem?_set_ne (by omega)]

/-! ## The claims -/

/-- C1. Whenever `Generate` returns true on a board of any region size (`k ≥ 1`, so in
particular `k ≥ 2`), for any fill percentage and any random draws, the resulting board is
consistent: no row, column or region holds a nonzero symbol twice, and each of the matrices
`rows`, `cols`, `regions` reports a symbol exactly when some cell of that row, column or
region holds it. -/
theorem Generate_consistent (s : Sudoku) (fuel : Nat) (d : Difficulty) (t : Sudoku)
    (hs : s.WF) (h : s.Generate fuel d = .ok (true, t)) :
    t.WF ∧ t.size = s.size ∧ t.RowsDistinct ∧ t.ColsDistinct ∧ t.RegionsDistinct ∧
      t.RowsAgree ∧ t.ColsAgree ∧ t.RegionsAgree ∧ t.ValuesInRange := by
  obtain ⟨_, hwf, ⟨h1, h2, h3, h4, h5, h6, h7⟩, hsize, _⟩ := Sudoku.Generate_spec hs h
  exact ⟨hwf, hsize, h5, h6, h7, h2, h3, h4, h1⟩

theorem Generate_consistent_witness :
    emptyBoard2.WF ∧
      emptyBoard2.Generate 100 50 =
        .ok (true, finalBoard emptyBoard2 (emptyBoard2.Generate 100 50)) ∧
      (finalBoard emptyBoard2 (emptyBoard2.Generate 100 50)).RowsDistinct :=
  ⟨by decide!, eq_ok_true_of_returnsTrue emptyBoard2 (by decide!),
    (Generate_consistent emptyBoard2 100 50 _ (by decide!)
      (eq_ok_true_of_returnsTrue emptyBoard2 (by decide!))).2.2.1⟩

/-- C2. Soundness of `Solve`: on a consistent board, for any random draws, if `Solve`
returns true then afterwards every cell is nonzero, the board is still consistent, every
cell that was nonzero before holds the same value, and the lock flags are unchanged. -/
theorem Solve_sound (s : Sudoku) (fuel : Nat) (t : Sudoku) (hs : s.WF) (hc : s.Consistent)
    (h : s.Solve fuel = .ok (true, t)) :
    t.Full ∧ t.WF ∧ t.Consistent ∧ s.KeptBy t ∧ t.locked = s.locked ∧ t.size = s.size := by
  have hp := Sudoku.Solve_post fuel s true t hs h
  exact ⟨hp.full rfl, hp.wf, hp.consistent rfl hc, hp.kept rfl, hp.locked_eq, hp.size_eq⟩

theorem Solve_sound_witness :
    oneCellBoard2.WF ∧ oneCellBoard2.Consistent ∧
      oneCellBoard2.Solve 17 = .ok (true, finalBoard oneCellBoard2 (oneCellBoard2.Solve 17)) ∧
      (finalBoard oneCellBoard2 (oneCellBoard2.Solve 17)).Full ∧
      oneCellBoard2.KeptBy (finalBoard oneCellBoard2 (oneCellBoard2.Solve 17)) :=
  ⟨by decide!, by decide!, eq_ok_true_of_returnsTrue oneCellBoard2 (by decide!),
    (Solve_sound oneCellBoard2 17 _ (by decide!) (by decide!)
      (eq_ok_true_of_returnsTrue oneCellBoard2 (by decide!))).1,
    (Solve_sound oneCellBoard2 17 _ (by decide!) (by decide!)
      (eq_ok_true_of_returnsTrue oneCellBoard2 (by decide!))).2.2.2.1⟩

/-- C3. Completeness of `Solve`: on a consistent board, with fuel for every empty cell,
`Solve` returns, and it returns true exactly when some full valid grid agrees with the
board on its nonzero cells, so the boolean result is the same for every random source; and
on the empty board for `k = 2` it returns true with a full consistent grid. -/
theorem Solve_complete_iff :
    (∀ (s : Sudoku) (fuel : Nat) (rand' : Rand), s.WF → s.Consistent → s.emptyCount < fuel →
      ∃ (b : Bool) (t t' : Sudoku), s.Solve fuel = .ok (b, t) ∧
        ({ s with rand := rand' } : Sudoku).Solve fuel = .ok (b, t') ∧
        (b = true ↔ ∃ G : Int → Int → Int, ValidGrid s.size G ∧ s.ExtendedBy G)) ∧
    (∀ (rand : Rand) (fuel : Nat), 16 < fuel →
      ∃ s t : Sudoku, NewSudoku 2 rand = .ok s ∧ s.Solve fuel = .ok (true, t) ∧
        t.Full ∧ t.Consistent ∧ t.size = 2) := by
  constructor
  · intro s fuel rand' hs hc hfuel
    obtain ⟨b, t, hrun⟩ := Sudoku.Solve_total fuel s hs hfuel
    have hp := Sudoku.Solve_post fuel s b t hs hrun
    have hs' : ({ s with rand := rand' } : Sudoku).WF := hs
    obtain ⟨b', t', hrun'⟩ := Sudoku.Solve_total fuel { s with rand := rand' } hs' hfuel
    have hp' := Sudoku.Solve_post fuel _ b' t' hs' hrun'
    have key : ∀ (b : Bool) (u : Sudoku) (t : Sudoku), u.WF → u.Consistent →
        u.Solve fuel = .ok (b, t) → SolvePost u b t →
        (b = true ↔ ∃ G : Int → Int → Int, ValidGrid u.size G ∧ u.ExtendedBy G) := by
      intro b u t hu hcu hrun hp
      constructor
      · intro hb
        subst hb
        refine ⟨t.cell, ?_, ?_⟩
        · rw [← hp.size_eq]
          exact Sudoku.validGrid_of_full hp.wf (hp.consistent rfl hcu) (hp.full rfl)
        · intro r a a' c d d' hne
          exact hp.kept rfl r a a' c d d' hne
      · rintro ⟨G, hG, hext⟩
        cases b
        · exact absurd hrun (Sudoku.Solve_ne_false hu hcu hG hext fuel t)
        · rfl
    have k1 := key b s t hs hc hrun hp
    have k2 : (b' = true ↔ ∃ G : Int → Int → Int, ValidGrid s.size G ∧ s.ExtendedBy G) :=
      key b' { s with rand := rand' } t' hs' hc hrun' hp'
    have hbb : b' = b := Bool.eq_iff_iff.2 (k2.trans k1.symm)
    subst hbb
    exact ⟨b', t, t', hrun, hrun', k1⟩
  · intro rand fuel hfuel
    obtain ⟨s, hnew, hwf, hcons, hsize, _, hcount, _⟩ := NewSudoku_spec 2 rand (by decide)
    have hG : ValidGrid s.size exampleGrid2 := by
      rw [hsize]; unfold ValidGrid; decide!
    have hext : s.ExtendedBy exampleGrid2 := by
      intro r a a' c b b' hne
      have hcnt : s.data.count 0 = s.data.length := by
        have h1 : (s.data.length : Int) = 16 := by rw [hwf.2.1]; unfold Sudoku.dim; rw [hsize]; rfl
        have h2 : s.emptyCount = 16 := by rw [hcount]; rfl
        unfold Sudoku.emptyCount at h2
        omega
      have hall := List.count_eq_length.1 hcnt
      exfalso
      apply hne
      rw [Sudoku.cell_eq hwf a a' b b', List.getD_eq_getElem?_getD]
      cases hg : s.data[(r * s.dim + c).toNat]? with
      | none => rfl
      | some u => simpa using (hall u (List.getElem?_mem hg)).symm
    obtain ⟨t, hrun⟩ := Sudoku.Solve_complete exampleGrid2 fuel s hwf hcons hG hext
      (by rw [hcount]; exact hfuel)
    have hp := Sudoku.Solve_post fuel s true t hwf hrun
    exact ⟨s, t, hnew, hrun, hp.full rfl, hp.consistent rfl hcons, hp.size_eq.trans hsize⟩

theorem Solve_complete_iff_witness :
    ∃ (b : Bool) (t t' : Sudoku), stuckBoard2.Solve 17 = .ok (b, t) ∧
      ({ stuckBoard2 with rand := ⟨fun i => i, 0⟩ } : Sudoku).Solve 17 = .ok (b, t') ∧
      (b = true ↔ ∃ G : Int → Int → Int, ValidGrid stuckBoard2.size G ∧
        stuckBoard2.ExtendedBy G) :=
  Solve_complete_iff.1 stuckBoard2 17 ⟨fun i => i, 0⟩ (by decide!) (by decide!) (by decide!)

/-- C4. A failed `Solve` leaves the board exactly as found: if `Solve` returns false then
the cells, the lock flags and the contents of all three matrices are what they were before
the call; only the cursor of the random source has advanced. -/
theorem Solve_failure_restores (s : Sudoku) (fuel : Nat) (t : Sudoku) (hs : s.WF)
    (h : s.Solve fuel = .ok (false, t)) :
    t.data = s.data ∧ t.locked = s.locked ∧ t.rows = s.rows ∧ t.cols = s.cols ∧
      t.regions = s.regions ∧ t.size = s.size ∧ t.generating = s.generating ∧
      t.rand.draws = s.rand.draws ∧ s.rand.pos ≤ t.rand.pos := by
  have hp := Sudoku.Solve_post fuel s false t hs h
  obtain ⟨d1, d2, d3, d4⟩ := hp.restored rfl
  exact ⟨d1, hp.locked_eq, d2, d3, d4, hp.size_eq, hp.generating_eq, hp.draws_eq, hp.pos_le⟩

theorem Solve_failure_restores_witness :
    stuckBoard2.WF ∧
      stuckBoard2.Solve 17 = .ok (false, finalBoard stuckBoard2 (stuckBoard2.Solve 17)) ∧
      (finalBoard stuckBoard2 (stuckBoard2.Solve 17)).data = stuckBoard2.data ∧
      (finalBoard stuckBoard2 (stuckBoard2.Solve 17)).rows = stuckBoard2.rows :=
  ⟨by decide!, eq_ok_false_of_returnsFalse stuckBoard2 (by decide!),
    (Solve_failure_restores stuckBoard2 17 _ (by decide!)
      (eq_ok_false_of_returnsFalse stuckBoard2 (by decide!))).1,
    (Solve_failure_restores stuckBoard2 17 _ (by decide!)
      (eq_ok_false_of_returnsFalse stuckBoard2 (by decide!))).2.2.1⟩

/-- C5. `Generate` never fails in its complete phase: the board left by the seed phase is
consistent and some full valid grid extends it, so `Solve` on it returns true whenever it
has fuel for every empty cell, and `Generate` never returns false, for any fuel, any fill
percentage and any random draws. -/
theorem Generate_never_false (s : Sudoku) (hs : s.WF) :
    ∃ u : Sudoku, seedPhase s = .ok u ∧ u.WF ∧ u.Consistent ∧
      (∃ G : Int → Int → Int, ValidGrid u.size G ∧ u.ExtendedBy G) ∧
      (∀ fuel : Nat, u.emptyCount < fuel → ∃ t, u.Solve fuel = .ok (true, t)) ∧
      (∀ (fuel : Nat) (t : Sudoku), u.Solve fuel ≠ .ok (false, t)) ∧
      (∀ (fuel : Nat) (d : Difficulty) (t : Sudoku), s.Generate fuel d ≠ .ok (false, t)) := by
  obtain ⟨u, eu, uwf, ucons, usize, uext, _⟩ := seedPhase_spec hs
  have hG : ValidGrid u.size (seedGrid s.size (fun g => seedVal s.rand g + seedStart s.rand g)
      (seedStart s.rand)) := by
    rw [usize]; exact seedGrid_valid _ _ _ hs.1
  refine ⟨u, eu, uwf, ucons, ⟨_, hG, uext⟩, ?_, ?_, ?_⟩
  · intro fuel hfuel
    exact Sudoku.Solve_complete _ fuel u uwf ucons hG uext hfuel
  · intro fuel t
    exact Sudoku.Solve_ne_false uwf ucons hG uext fuel t
  · intro fuel d t hrun
    have := (Sudoku.Generate_spec hs hrun).1
    simp at this

theorem Generate_never_false_witness :
    emptyBoard2.WF ∧ ∃ u : Sudoku, seedPhase emptyBoard2 = .ok u ∧ u.WF ∧ u.Consistent ∧
      (∃ G : Int → Int → Int, ValidGrid u.size G ∧ u.ExtendedBy G) ∧
      (∀ fuel : Nat, u.emptyCount < fuel → ∃ t, u.Solve fuel = .ok (true, t)) ∧
      (∀ (fuel : Nat) (t : Sudoku), u.Solve fuel ≠ .ok (false, t)) ∧
      (∀ (fuel : Nat) (d : Difficulty) (t : Sudoku),
        emptyBoard2.Generate fuel d ≠ .ok (false, t)) :=
  ⟨by decide!, Generate_never_false emptyBoard2 (by decide!)⟩

/-- C6. A generated puzzle is always completable: if `Generate` returns true then a
following `Solve` on the same board, with fuel for every empty cell, returns true, and
every cell that was nonzero after `Generate` holds the same value after `Solve`. -/
theorem Generate_completable (s : Sudoku) (fuel : Nat) (d : Difficulty) (t : Sudoku)
    (hs : s.WF) (h : s.Generate fuel d = .ok (true, t)) (fuel' : Nat)
    (hfuel : t.emptyCount < fuel') :
    ∃ t' : Sudoku, t.Solve fuel' = .ok (true, t') ∧ t.KeptBy t' ∧ t'.Full := by
  obtain ⟨_, twf, tcons, tsize, u, uwf, ufull, ucons, usize, ucarved⟩ :=
    Sudoku.Generate_spec hs h
  have hG : ValidGrid t.size u.cell := by
    rw [tsize, ← usize]; exact Sudoku.validGrid_of_full uwf ucons ufull
  have hext : t.ExtendedBy u.cell := Sudoku.CarvedFrom.extendedBy (tsize.trans usize.symm) ucarved
  obtain ⟨t', hrun⟩ := Sudoku.Solve_complete u.cell fuel' t twf tcons hG hext hfuel
  have hp := Sudoku.Solve_post fuel' t true t' twf hrun
  exact ⟨t', hrun, hp.kept rfl, hp.full rfl⟩

theorem Generate_completable_witness :
    emptyBoard2.WF ∧
      emptyBoard2.Generate 100 50 =
        .ok (true, finalBoard emptyBoard2 (emptyBoard2.Generate 100 50)) ∧
      (finalBoard emptyBoard2 (emptyBoard2.Generate 100 50)).emptyCount < 17 ∧
      ∃ t' : Sudoku,
        (finalBoard emptyBoard2 (emptyBoard2.Generate 100 50)).Solve 17 = .ok (true, t') ∧
        (finalBoard emptyBoard2 (emptyBoard2.Generate 100 50)).KeptBy t' ∧ t'.Full :=
  ⟨by decide!, eq_ok_true_of_returnsTrue emptyBoard2 (by decide!), by decide!,
    Generate_completable emptyBoard2 100 50 _ (by decide!)
      (eq_ok_true_of_returnsTrue emptyBoard2 (by decide!)) 17 (by decide!)⟩

/-- The three bits `Set` and `Conflict` read, in terms of the cells of a consistent board. -/
theorem Sudoku.bits_iff {s : Sudoku} (hs : s.WF) (hc : s.Consistent) {r c v : Int}
    (hr0 : 0 ≤ r) (hr : r < s.dim) (hc0 : 0 ≤ c) (hcd : c < s.dim)
    (hv1 : 1 ≤ v) (hv : v ≤ s.dim) :
    (s.rows.bit r (v - 1) = true ↔ (s.cell r c = v ∨ s.RowHasOther r c v)) ∧
    (s.cols.bit c (v - 1) = true ↔ (s.cell r c = v ∨ s.ColHasOther r c v)) ∧
    (s.regions.bit (regionIndex s.size r c) (v - 1) = true ↔
      (s.cell r c = v ∨ s.RegionHasOther r c v)) := by
  obtain ⟨_, hRA, hCA, hGA, _, _, _⟩ := hc
  obtain ⟨g0, g1⟩ := Sudoku.region_bounds hs hr0 hr hc0 hcd
  refine ⟨?_, ?_, ?_⟩
  · rw [hRA r hr0 hr v hv1 (by omega)]
    constructor
    · rintro ⟨c', a, b, e⟩
      by_cases hcc : c' = c
      · left; rw [← hcc]; exact e
      · right; exact ⟨c', a, b, hcc, e⟩
    · rintro (e | ⟨c', a, b, _, e⟩)
      · exact ⟨c, hc0, hcd, e⟩
      · exact ⟨c', a, b, e⟩
  · rw [hCA c hc0 hcd v hv1 (by omega)]
    constructor
    · rintro ⟨r', a, b, e⟩
      by_cases hrr : r' = r
      · left; rw [← hrr]; exact e
      · right; exact ⟨r', a, b, hrr, e⟩
    · rintro (e | ⟨r', a, b, _, e⟩)
      · exact ⟨r, hr0, hr, e⟩
      · exact ⟨r', a, b, e⟩
  · rw [hGA _ g0 g1 v hv1 (by omega)]
    constructor
    · rintro ⟨r', a, b, c', a', b', eg, e⟩
      by_cases hsame : r' = r ∧ c' = c
      · left; rw [← hsame.1, ← hsame.2]; exact e
      · right
        refine ⟨r', a, b, c', a', b', by omega, ?_, e⟩
        rw [eg, Sudoku.regionOf_eq hs]
    · rintro (e | ⟨r', a, b, c', a', b', _, eg, e⟩)
      · exact ⟨r, hr0, hr, c, hc0, hcd, Sudoku.regionOf_eq hs r c, e⟩
      · exact ⟨r', a, b, c', a', b', by rw [eg, Sudoku.regionOf_eq hs], e⟩

theorem or_collect (A R C G : Prop) : ((A ∨ R) ∨ (A ∨ C)) ∨ (A ∨ G) ↔ A ∨ R ∨ C ∨ G := by
  tauto

/-- C7 as the code has it. On a consistent board, for an in-range cell and `val` in `1..N`,
`Set(row, col, val)` returns false, leaving the board as it is, if and only if `val` is held
by some cell of the same row, column or region, the cell `(row, col)` itself included: that
is, iff the cell already holds `val` or some other cell of its row, column or region does. -/
theorem Set_false_iff (s : Sudoku) (r c v : Int) (hs : s.WF) (hc : s.Consistent)
    (hr0 : 0 ≤ r) (hr : r < s.dim) (hc0 : 0 ≤ c) (hcd : c < s.dim)
    (hv1 : 1 ≤ v) (hv : v ≤ s.dim) :
    ∃ (b : Bool) (t : Sudoku), s.Set r c v = .ok (b, t) ∧
      (b = false ↔ (s.cell r c = v ∨ s.HeldElsewhere r c v)) ∧ (b = false → t = s) := by
  have hval := hc.1 r hr0 hr c hc0 hcd
  obtain ⟨b1, b2, b3⟩ := Sudoku.bits_iff hs hc hr0 hr hc0 hcd hv1 hv
  have hblocked : s.blocked r c v = true ↔ (s.cell r c = v ∨ s.HeldElsewhere r c v) := by
    unfold Sudoku.blocked Sudoku.HeldElsewhere
    simp only [Bool.or_eq_true, b1, b2, b3]
    exact or_collect _ _ _ _
  rw [Sudoku.Set_eq hs hr0 hr hc0 hcd hv1 hv hval.1 hval.2]
  cases hb : s.blocked r c v
  · simp only [Bool.false_eq_true, if_false]
    refine ⟨true, _, rfl, ?_, fun h => absurd h (by decide)⟩
    rw [← hblocked, hb]; decide
  · simp only [if_true]
    refine ⟨false, s, rfl, ?_, fun _ => rfl⟩
    rw [← hblocked, hb]; decide

theorem Set_false_iff_witness :
    oneCellBoard2.WF ∧ oneCellBoard2.Consistent ∧
      ∃ (b : Bool) (t : Sudoku), oneCellBoard2.Set 0 0 1 = .ok (b, t) ∧
        (b = false ↔ (oneCellBoard2.cell 0 0 = 1 ∨ oneCellBoard2.HeldElsewhere 0 0 1)) ∧
        (b = false → t = oneCellBoard2) :=
  ⟨by decide!, by decide!,
    Set_false_iff oneCellBoard2 0 0 1 (by decide!) (by decide!) (by decide!) (by decide!)
      (by decide!) (by decide!) (by decide!) (by decide!)⟩

/-- C7 as stated fails: on the consistent 4 by 4 board whose only nonempty cell `(0, 0)`
holds `1`, `Set(0, 0, 1)` returns false although no other cell of row 0, column 0 or
region 0 holds `1`. -/
theorem Set_own_value_counterexample :
    oneCellBoard2.WF ∧ oneCellBoard2.Consistent ∧
      ¬ ((∃ t, oneCellBoard2.Set 0 0 1 = .ok (false, t)) ↔
        oneCellBoard2.HeldElsewhere 0 0 1) := by
  refine ⟨by decide!, by decide!, ?_⟩
  intro h
  have h1 : ∃ t, oneCellBoard2.Set 0 0 1 = .ok (false, t) :=
    ⟨_, eq_ok_false_of_returnsFalse oneCellBoard2 (by decide!)⟩
  have h2 : ¬ oneCellBoard2.HeldElsewhere 0 0 1 := by decide!
  exact h2 (h.1 h1)

/-- C8. Board consistency (cell values in `0..N`, each matrix bit set exactly when some
cell of the row, column or region holds the symbol, no nonzero symbol twice in a row, column
or region) holds for `NewSudoku(k)`, holds after `Clear`, and is preserved by `Set` with
in-range arguments, whether it succeeds or fails and also when it overwrites a nonzero
cell, and by `Remove` on a nonempty cell. -/
theorem consistency_invariant :
    (∀ (k : Int) (rand : Rand), 0 < k →
      ∃ s : Sudoku, NewSudoku k rand = .ok s ∧ s.WF ∧ s.Consistent ∧ s.size = k) ∧
    (∀ s : Sudoku, s.WF → ∃ t : Sudoku, s.Clear = .ok t ∧ t.WF ∧ t.Consistent) ∧
    (∀ (s : Sudoku) (r c v : Int), s.WF → s.Consistent → 0 ≤ r → r < s.dim → 0 ≤ c →
      c < s.dim → 1 ≤ v → v ≤ s.dim →
      ∃ (b : Bool) (t : Sudoku), s.Set r c v = .ok (b, t) ∧ t.WF ∧ t.Consistent) ∧
    (∀ (s : Sudoku) (r c : Int), s.WF → s.Consistent → 0 ≤ r → r < s.dim → 0 ≤ c →
      c < s.dim → s.cell r c ≠ 0 →
      ∃ t : Sudoku, s.Remove r c = .ok t ∧ t.WF ∧ t.Consistent ∧ t.cell r c = 0) := by
  refine ⟨?_, ?_, ?_, ?_⟩
  · intro k rand hk
    obtain ⟨s, e, hwf, hcons, hsize, _⟩ := NewSudoku_spec k rand hk
    exact ⟨s, e, hwf, hcons, hsize⟩
  · intro s hs
    obtain ⟨t, e, hwf, hcons, _⟩ := Sudoku.Clear_spec hs
    exact ⟨t, e, hwf, hcons⟩
  · intro s r c v hs hc hr0 hr hc0 hcd hv1 hv
    obtain ⟨b, t, e, hwf, hcons, _⟩ := Sudoku.Set_consistent hs hc hr0 hr hc0 hcd hv1 hv
    exact ⟨b, t, e, hwf, hcons⟩
  · intro s r c hs hc hr0 hr hc0 hcd hne
    have hval := hc.1 r hr0 hr c hc0 hcd
    refine ⟨s.erase r c, Sudoku.Remove_eq hs hr0 hr hc0 hcd (by omega) hval.2,
      Sudoku.erase_WF hs r c, Sudoku.erase_consistent hs hc hr0 hr hc0 hcd hne, ?_⟩
    rw [Sudoku.cell_erase hs hr0 hr hc0 hcd hr0 hr hc0 hcd, if_pos (And.intro rfl rfl)]

theorem consistency_invariant_witness :
    (∃ (b : Bool) (t : Sudoku), oneCellBoard2.Set 0 0 3 = .ok (b, t) ∧ t.WF ∧ t.Consistent) ∧
    (∃ t : Sudoku, oneCellBoard2.Remove 0 0 = .ok t ∧ t.WF ∧ t.Consistent ∧ t.cell 0 0 = 0) :=
  ⟨consistency_invariant.2.2.1 oneCellBoard2 0 0 3 (by decide!) (by decide!) (by decide!)
      (by decide!) (by decide!) (by decide!) (by decide!) (by decide!),
    consistency_invariant.2.2.2 oneCellBoard2 0 0 (by decide!) (by decide!) (by decide!)
      (by decide!) (by decide!) (by decide!) (by decide!)⟩

/-- The mask `Conflict` builds from the three bits it reads. -/
theorem Sudoku.Conflict_eq {s : Sudoku} (hs : s.WF) {r c v : Int}
    (hr0 : 0 ≤ r) (hr : r < s.dim) (hc0 : 0 ≤ c) (hcd : c < s.dim)
    (hv1 : 1 ≤ v) (hv : v ≤ s.dim) :
    s.Conflict r c v = .ok (if s.cell r c = v then 0 else
      Int.lor (Int.lor (Int.lor 0 (if s.rows.bit r (v - 1) then SudokuSolver.Row else 0))
        (if s.cols.bit c (v - 1) then SudokuSolver.Col else 0))
        (if s.regions.bit (regionIndex s.size r c) (v - 1) then SudokuSolver.Region else 0)) := by
  obtain ⟨g0, g1⟩ := Sudoku.region_bounds hs hr0 hr hc0 hcd
  have eR := Bitmap.At_bit hs.2.2.2.1 hr0 hr (show 0 ≤ v - 1 by omega) (show v - 1 < s.dim by omega)
  have eC := Bitmap.At_bit hs.2.2.2.2.1 hc0 hcd (show 0 ≤ v - 1 by omega)
    (show v - 1 < s.dim by omega)
  have eG := Bitmap.At_bit hs.2.2.2.2.2 g0 g1 (show 0 ≤ v - 1 by omega)
    (show v - 1 < s.dim by omega)
  unfold Sudoku.Conflict
  rw [Sudoku.At_ok hs hr0 hr hc0 hcd, Sudoku.Region_ok hs]
  simp only [bind, Except.bind, pure, Except.pure, eR, eC, eG]
  by_cases hcell : s.cell r c = v
  · simp only [hcell, if_true]
  · simp only [hcell, if_false]
    cases s.rows.bit r (v - 1) <;> cases s.cols.bit c (v - 1) <;>
      cases s.regions.bit (regionIndex s.size r c) (v - 1) <;> rfl

/-- C9. On a consistent board, for an in-range cell and `val` in `1..N`, `Conflict` (which
only reads the board) returns a mask in `0..7` whose Row bit is set iff some other cell of
the row holds `val`, whose Col bit is set iff some other cell of the column holds `val`, and
whose Region bit is set iff some other cell of the region holds `val`; the mask is `0` when
the cell itself holds `val`. -/
theorem Conflict_spec (s : Sudoku) (r c v : Int) (hs : s.WF) (hc : s.Consistent)
    (hr0 : 0 ≤ r) (hr : r < s.dim) (hc0 : 0 ≤ c) (hcd : c < s.dim)
    (hv1 : 1 ≤ v) (hv : v ≤ s.dim) :
    ∃ m : Int, s.Conflict r c v = .ok m ∧ 0 ≤ m ∧ m < 8 ∧
      (Int.land m SudokuSolver.Row ≠ 0 ↔ s.RowHasOther r c v) ∧
      (Int.land m SudokuSolver.Col ≠ 0 ↔ s.ColHasOther r c v) ∧
      (Int.land m SudokuSolver.Region ≠ 0 ↔ s.RegionHasOther r c v) ∧
      (s.cell r c = v → m = 0) := by
  obtain ⟨b1, b2, b3⟩ := Sudoku.bits_iff hs hc hr0 hr hc0 hcd hv1 hv
  obtain ⟨hVal, _, _, _, hRD, hCD, hGD⟩ := hc
  rw [Sudoku.Conflict_eq hs hr0 hr hc0 hcd hv1 hv]
  refine ⟨_, rfl, ?_⟩
  by_cases hcell : s.cell r c = v
  · -- the cell itself holds the value: nothing else in its units does
    have hne : s.cell r c ≠ 0 := by omega
    rw [if_pos hcell]
    have n1 : ¬ s.RowHasOther r c v := by
      rintro ⟨c', a, b, hcc, e⟩
      exact hcc (hRD r hr0 hr c hc0 hcd c' a b hne (by rw [e, hcell])).symm
    have n2 : ¬ s.ColHasOther r c v := by
      rintro ⟨r', a, b, hrr, e⟩
      exact hrr (hCD c hc0 hcd r hr0 hr r' a b hne (by rw [e, hcell])).symm
    have n3 : ¬ s.RegionHasOther r c v := by
      rintro ⟨r', a, b, c', a', b', hdiff, eg, e⟩
      have := hGD r hr0 hr c hc0 hcd r' a b c' a' b' hne eg.symm (by rw [e, hcell])
      omega
    refine ⟨by decide, by decide, ?_, ?_, ?_, fun _ => rfl⟩
    · exact ⟨fun h => absurd rfl h, fun h => absurd h n1⟩
    · exact ⟨fun h => absurd rfl h, fun h => absurd h n2⟩
    · exact ⟨fun h => absurd rfl h, fun h => absurd h n3⟩
  · simp only [hcell, if_false, false_or] at b1 b2 b3 ⊢
    rw [← b1, ← b2, ← b3]
    cases s.rows.bit r (v - 1) <;> cases s.cols.bit c (v - 1) <;>
      cases s.regions.bit (regionIndex s.size r c) (v - 1) <;> decide

theorem Conflict_spec_witness :
    oneCellBoard2.WF ∧ oneCellBoard2.Consistent ∧
      ∃ m : Int, oneCellBoard2.Conflict 0 3 1 = .ok m ∧ 0 ≤ m ∧ m < 8 ∧
        (Int.land m SudokuSolver.Row ≠ 0 ↔ oneCellBoard2.RowHasOther 0 3 1) ∧
        (Int.land m SudokuSolver.Col ≠ 0 ↔ oneCellBoard2.ColHasOther 0 3 1) ∧
        (Int.land m SudokuSolver.Region ≠ 0 ↔ oneCellBoard2.RegionHasOther 0 3 1) ∧
        (oneCellBoard2.cell 0 3 = 1 → m = 0) :=
  ⟨by decide!, by decide!,
    Conflict_spec oneCellBoard2 0 3 1 (by decide!) (by decide!) (by decide!) (by decide!)
      (by decide!) (by decide!) (by decide!) (by decide!)⟩

/-- C10. For every board, if `Set(r, c, v)` returns true then immediately afterwards
`At(r, c)` is `v`, `Conflict(r, c, v)` is the empty mask, and every other cell holds the
value it held before. -/
theorem Set_success (s : Sudoku) (r c v : Int) (t : Sudoku) (hc0 : 0 ≤ c) (hcd : c < s.dim)
    (h : s.Set r c v = .ok (true, t)) :
    t.At r c = .ok v ∧ t.Conflict r c v = .ok 0 ∧
      ∀ r' c' : Int, 0 ≤ c' → c' < s.dim → (r' ≠ r ∨ c' ≠ c) → t.At r' c' = s.At r' c' := by
  obtain ⟨hdata, hsize, _⟩ := Sudoku.Set_true_inv h
  rw [sliceSet_ok_iff] at hdata
  obtain ⟨i0, i1, hdata⟩ := hdata
  have hat : t.At r c = .ok v := by
    unfold Sudoku.At
    rw [hsize, hdata, sliceGet_ok_iff]
    exact ⟨i0, List.getElem?_set_self i1⟩
  refine ⟨hat, ?_, ?_⟩
  · unfold Sudoku.Conflict
    rw [hat]
    simp [bind, Except.bind, pure, Except.pure]
  · intro r' c' hc0' hcd' hne
    unfold Sudoku.At
    rw [hsize, hdata]
    apply sliceGet_set_ne _ _ _ _ i0
    intro he
    obtain ⟨e1, e2⟩ := index_inj hc0 hcd hc0' hcd' he
    omega

theorem Set_success_witness :
    (0 : Int) ≤ 1 ∧ (1 : Int) < oneCellBoard2.dim ∧
      oneCellBoard2.Set 2 1 3 = .ok (true, finalBoard oneCellBoard2 (oneCellBoard2.Set 2 1 3)) ∧
      (finalBoard oneCellBoard2 (oneCellBoard2.Set 2 1 3)).At 2 1 = .ok 3 ∧
      (finalBoard oneCellBoard2 (oneCellBoard2.Set 2 1 3)).Conflict 2 1 3 = .ok 0 :=
  ⟨by decide!, by decide!, eq_ok_true_of_returnsTrue oneCellBoard2 (by decide!),
    (Set_success oneCellBoard2 2 1 3 _ (by decide!) (by decide!)
      (eq_ok_true_of_returnsTrue oneCellBoard2 (by decide!))).1,
    (Set_success oneCellBoard2 2 1 3 _ (by decide!) (by decide!)
      (eq_ok_true_of_returnsTrue oneCellBoard2 (by decide!))).2.1⟩

/-! ## Bitmaps of any dimensions -/

theorem rect_index_bounds {w h x y : Int} (hx0 : 0 ≤ x) (hx : x < w) (hy0 : 0 ≤ y)
    (hy : y < h) : 0 ≤ y * w + x ∧ y * w + x < w * h := by
  constructor
  · have : 0 ≤ y * w := Int.mul_nonneg hy0 (by omega)
    omega
  · have h1 : y * w ≤ (h - 1) * w := Int.mul_le_mul_of_nonneg_right (by omega) (by omega)
    have h2 : (h - 1) * w = w * h - w := by ring
    omega

theorem Bitmap.rect_word_index {b : Bitmap}
    (hlen : b.width * b.height ≤ 64 * (b.data.length : Int)) {x y : Int}
    (hx0 : 0 ≤ x) (hx : x < b.width) (hy0 : 0 ≤ y) (hy : y < b.height) :
    0 ≤ y * b.width + x ∧ (y * b.width + x) / 64 < (b.data.length : Int) ∧
    Int.tdiv (y * b.width + x) 64 = (y * b.width + x) / 64 := by
  have hi := rect_index_bounds hx0 hx hy0 hy
  refine ⟨hi.1, by omega, Int.tdiv_eq_ediv hi.1 (by decide)⟩

theorem Bitmap.rect_At {b : Bitmap}
    (hlen : b.width * b.height ≤ 64 * (b.data.length : Int)) {x y : Int}
    (hx0 : 0 ≤ x) (hx : x < b.width) (hy0 : 0 ≤ y) (hy : y < b.height) :
    b.At x y = .ok ((b.data.getD ((y * b.width + x) / 64).toNat 0).testBit
      ((y * b.width + x) % 64).toNat) := by
  obtain ⟨h0, hlt, htd⟩ := Bitmap.rect_word_index hlen hx0 hx hy0 hy
  unfold Bitmap.At
  simp only [htd]
  rw [sliceGet_eq _ _ 0 (by omega) hlt]
  simp only [bind, Except.bind, pure, Except.pure]
  rw [and_shift_ne_zero]

theorem Bitmap.rect_Set {b : Bitmap}
    (hlen : b.width * b.height ≤ 64 * (b.data.length : Int)) {x y : Int}
    (hx0 : 0 ≤ x) (hx : x < b.width) (hy0 : 0 ≤ y) (hy : y < b.height) (v : Bool) :
    b.Set x y v = .ok (b.put x y v) := by
  obtain ⟨h0, hlt, htd⟩ := Bitmap.rect_word_index hlen hx0 hx hy0 hy
  unfold Bitmap.Set Bitmap.put
  simp only [htd]
  rw [sliceGet_eq _ _ 0 (by omega) hlt]
  simp only [bind, Except.bind, pure, Except.pure]
  rw [sliceSet_eq _ _ _ (by omega) hlt, Nat.one_shiftLeft]

/-- The bits of the words after `put`: only bit `index mod 64` of word `index div 64` may
have changed, and it now is `v`. -/
theorem Bitmap.put_testBit (b : Bitmap) {x y : Int} (v : Bool)
    (h0 : 0 ≤ y * b.width + x) (hlt : (y * b.width + x) / 64 < (b.data.length : Int))
    (j i : Nat) (hi : i < 64) :
    ((b.put x y v).data.getD j 0).testBit i =
      if j = ((y * b.width + x) / 64).toNat ∧ i = ((y * b.width + x) % 64).toNat then v
      else (b.data.getD j 0).testBit i := by
  have hk : ((y * b.width + x) % 64).toNat < 64 := by omega
  have hltn : ((y * b.width + x) / 64).toNat < b.data.length := by omega
  simp only [Bitmap.put]
  by_cases hj : j = ((y * b.width + x) / 64).toNat
  · subst hj
    rw [getD_set_self _ _ _ _ hltn]
    by_cases hii : i = ((y * b.width + x) % 64).toNat
    · subst hii
      rw [if_pos (And.intro rfl rfl)]
      cases v
      · simp only [Bool.false_eq_true, if_false]
        rw [testBit_clearBit _ _ _ hk]; simp
      · simp only [if_true]
        rw [testBit_setBit]; simp
    · have hcond : ¬ (((y * b.width + x) / 64).toNat = ((y * b.width + x) / 64).toNat ∧
          i = ((y * b.width + x) % 64).toNat) := fun h => hii h.2
      rw [if_neg hcond]
      have hne : ((y * b.width + x) % 64).toNat ≠ i := fun h => hii h.symm
      cases v
      · simp only [Bool.false_eq_true, if_false]
        rw [testBit_clearBit _ _ _ hk]
        simp [hne, hi]
      · simp only [if_true]
        rw [testBit_setBit]; simp [hne]
  · have hcond : ¬ (j = ((y * b.width + x) / 64).toNat ∧
        i = ((y * b.width + x) % 64).toNat) := fun h => hj h.1
    rw [if_neg hcond]
    rw [getD_set_ne _ _ _ (fun h => hj h.symm)]

theorem Bitmap.put_length (b : Bitmap) (x y : Int) (v : Bool) :
    (b.put x y v).data.length = b.data.length := by
  simp only [Bitmap.put, List.length_set]

/-- C16. Get-after-set law of the bitmap: for a bitmap of dimensions `(W, H)` whose storage
covers its `W * H` bits, an in-range position `(x, y)` and a boolean `v`, `Set(x, y, v)`
succeeds, afterwards `At(x, y)` returns `v` and `At` is unchanged at every other in-range
position, and the only bit of the storage that may differ is bit `(y*W+x) mod 64` of word
`(y*W+x) div 64`, which now is `v`. -/
theorem Bitmap_get_after_set (b : Bitmap) (x y : Int) (v : Bool)
    (hlen : b.width * b.height ≤ 64 * (b.data.length : Int))
    (hx0 : 0 ≤ x) (hx : x < b.width) (hy0 : 0 ≤ y) (hy : y < b.height) :
    ∃ t : Bitmap, b.Set x y v = .ok t ∧ t.width = b.width ∧ t.height = b.height ∧
      t.data.length = b.data.length ∧ t.At x y = .ok v ∧
      (∀ x' y' : Int, 0 ≤ x' → x' < b.width → 0 ≤ y' → y' < b.height → (x' ≠ x ∨ y' ≠ y) →
        t.At x' y' = b.At x' y') ∧
      (∀ j i : Nat, i < 64 → ((t.data.getD j 0).testBit i =
        if j = ((y * b.width + x) / 64).toNat ∧ i = ((y * b.width + x) % 64).toNat then v
        else (b.data.getD j 0).testBit i)) := by
  obtain ⟨h0, hlt, _⟩ := Bitmap.rect_word_index hlen hx0 hx hy0 hy
  have hlen' : (b.put x y v).width * (b.put x y v).height ≤
      64 * ((b.put x y v).data.length : Int) := by
    rw [Bitmap.put_length]; exact hlen
  refine ⟨b.put x y v, Bitmap.rect_Set hlen hx0 hx hy0 hy v, rfl, rfl, Bitmap.put_length _ _ _ _,
    ?_, ?_, fun j i hi => Bitmap.put_testBit b v h0 hlt j i hi⟩
  · rw [Bitmap.rect_At hlen' hx0 hx hy0 hy]
    show Except.ok (((b.put x y v).data.getD ((y * b.width + x) / 64).toNat 0).testBit
      ((y * b.width + x) % 64).toNat) = _
    rw [Bitmap.put_testBit b v h0 hlt _ _ (by omega), if_pos (And.intro rfl rfl)]
  · intro x' y' hx0' hx' hy0' hy' hne
    obtain ⟨h0', hlt', _⟩ := Bitmap.rect_word_index hlen hx0' hx' hy0' hy'
    rw [Bitmap.rect_At hlen' hx0' hx' hy0' hy', Bitmap.rect_At hlen hx0' hx' hy0' hy']
    show Except.ok (((b.put x y v).data.getD ((y' * b.width + x') / 64).toNat 0).testBit
      ((y' * b.width + x') % 64).toNat) = _
    rw [Bitmap.put_testBit b v h0 hlt _ _ (by omega), if_neg]
    rintro ⟨e1, e2⟩
    have he : y * b.width + x = y' * b.width + x' := by omega
    obtain ⟨a1, a2⟩ := index_inj hx0 hx hx0' hx' he
    omega

theorem Bitmap_get_after_set_witness :
    exampleBitmap.width * exampleBitmap.height ≤ 64 * (exampleBitmap.data.length : Int) ∧
      ∃ t : Bitmap, exampleBitmap.Set 4 6 true = .ok t ∧ t.width = exampleBitmap.width ∧
        t.height = exampleBitmap.height ∧ t.data.length = exampleBitmap.data.length ∧
        t.At 4 6 = .ok true ∧
        (∀ x' y' : Int, 0 ≤ x' → x' < exampleBitmap.width → 0 ≤ y' →
          y' < exampleBitmap.height → (x' ≠ 4 ∨ y' ≠ 6) →
          t.At x' y' = exampleBitmap.At x' y') ∧
        (∀ j i : Nat, i < 64 → ((t.data.getD j 0).testBit i =
          if j = ((6 * exampleBitmap.width + 4) / 64).toNat ∧
              i = ((6 * exampleBitmap.width + 4) % 64).toNat then true
          else (exampleBitmap.data.getD j 0).testBit i)) :=
  ⟨by decide!, Bitmap_get_after_set exampleBitmap 4 6 true (by decide!) (by decide!)
    (by decide!) (by decide!) (by decide!)⟩

/-- C20. Bitmap storage is large enough and starts empty: for all `W, H ≥ 0` whose product
`W * H` is below `2 ^ 63`, so that it is a Go `int`, `NewBitmap(W, H)` allocates exactly
`ceil(W*H/64)` words, all zero, so `At` is false at every in-range position, and for every
in-range position the bit index `y*W+x` is below `2 ^ 63` and the word index
`(y*W+x) div 64` used by `At` and `Set` lies within the storage. -/
theorem NewBitmap_storage (w h : Int) (hw : 0 ≤ w) (hh : 0 ≤ h) (hwh : w * h < 2 ^ 63) :
    ∃ b : Bitmap, NewBitmap w h = .ok b ∧ b.width = w ∧ b.height = h ∧
      b.data = List.replicate ((w * h + 63) / 64).toNat 0 ∧
      w * h ≤ 64 * (b.data.length : Int) ∧ 64 * (b.data.length : Int) < w * h + 64 ∧
      (b.data.length : Int) ≤ 2 ^ 57 ∧
      ∀ x y : Int, 0 ≤ x → x < w → 0 ≤ y → y < h →
        (y * w + x < 2 ^ 63 ∧
          0 ≤ Int.tdiv (y * w + x) 64 ∧ Int.tdiv (y * w + x) 64 < (b.data.length : Int) ∧
          b.At x y = .ok false ∧ ∀ v : Bool, ∃ t, b.Set x y v = .ok t) := by
  have hnn : 0 ≤ w * h := Int.mul_nonneg hw hh
  have e1 := Int.tdiv_eq_ediv hnn (show (0 : Int) ≤ 64 by decide)
  have e2 := Int.tmod_eq_emod hnn (show (0 : Int) ≤ 64 by decide)
  have hnew : NewBitmap w h = .ok ⟨w, h, List.replicate ((w * h + 63) / 64).toNat 0⟩ := by
    unfold NewBitmap
    simp only [e1, e2]
    by_cases hm : w * h % 64 ≠ 0
    · rw [if_pos hm, if_neg (by omega)]
      have : (w * h / 64 + 1).toNat = ((w * h + 63) / 64).toNat := by omega
      rw [this]
    · rw [if_neg hm, if_neg (by omega)]
      have : (w * h / 64).toNat = ((w * h + 63) / 64).toNat := by omega
      rw [this]
  have hlenB : ((List.replicate ((w * h + 63) / 64).toNat (0 : Nat)).length : Int) =
      (w * h + 63) / 64 := by
    rw [List.length_replicate]; omega
  have hcov : (Bitmap.mk w h (List.replicate ((w * h + 63) / 64).toNat 0)).width *
      (Bitmap.mk w h (List.replicate ((w * h + 63) / 64).toNat 0)).height ≤
      64 * (((Bitmap.mk w h (List.replicate ((w * h + 63) / 64).toNat 0)).data.length : Nat) : Int) := by
    show w * h ≤ 64 * ((List.replicate ((w * h + 63) / 64).toNat (0 : Nat)).length : Int)
    rw [hlenB]; omega
  refine ⟨_, hnew, rfl, rfl, rfl, ?_, ?_, ?_, ?_⟩
  · show w * h ≤ 64 * ((List.replicate ((w * h + 63) / 64).toNat (0 : Nat)).length : Int)
    rw [hlenB]; omega
  · show 64 * ((List.replicate ((w * h + 63) / 64).toNat (0 : Nat)).length : Int) < w * h + 64
    rw [hlenB]; omega
  · show ((List.replicate ((w * h + 63) / 64).toNat (0 : Nat)).length : Int) ≤ 2 ^ 57
    rw [hlenB]; omega
  · intro x y hx0 hx hy0 hy
    obtain ⟨h0, hlt, htd⟩ := Bitmap.rect_word_index hcov hx0 hx hy0 hy
    have hidx := (rect_index_bounds hx0 hx hy0 hy).2
    refine ⟨by omega, ?_, ?_, ?_, fun v => ⟨_, Bitmap.rect_Set hcov hx0 hx hy0 hy v⟩⟩
    · rw [htd]; exact Int.ediv_nonneg h0 (by decide)
    · rw [htd]; exact hlt
    · rw [Bitmap.rect_At hcov hx0 hx hy0 hy]
      have : (List.replicate ((w * h + 63) / 64).toNat (0 : Nat)).getD
          ((y * w + x) / 64).toNat 0 = 0 := by
        rw [List.getD_eq_getElem?_getD, List.getElem?_replicate]
        split <;> rfl
      show Except.ok (((List.replicate ((w * h + 63) / 64).toNat (0 : Nat)).getD
        ((y * w + x) / 64).toNat 0).testBit ((y * w + x) % 64).toNat) = _
      rw [this, Nat.zero_testBit]

theorem NewBitmap_storage_witness :
    (0 : Int) ≤ 10 ∧ (0 : Int) ≤ 7 ∧ (10 : Int) * 7 < 2 ^ 63 ∧
      ∃ b : Bitmap, NewBitmap 10 7 = .ok b ∧ b.width = 10 ∧ b.height = 7 ∧
        b.data = List.replicate (((10 : Int) * 7 + 63) / 64).toNat 0 ∧
        (10 : Int) * 7 ≤ 64 * (b.data.length : Int) ∧
        64 * (b.data.length : Int) < (10 : Int) * 7 + 64 ∧
        (b.data.length : Int) ≤ 2 ^ 57 ∧
        ∀ x y : Int, 0 ≤ x → x < 10 → 0 ≤ y → y < 7 →
          (y * 10 + x < 2 ^ 63 ∧
            0 ≤ Int.tdiv (y * 10 + x) 64 ∧ Int.tdiv (y * 10 + x) 64 < (b.data.length : Int) ∧
            b.At x y = .ok false ∧ ∀ v : Bool, ∃ t, b.Set x y v = .ok t) :=
  ⟨by decide, by decide, by decide, NewBitmap_storage 10 7 (by decide) (by decide) (by decide)⟩

/-! ## Single-cell edits, continued -/

/-- A failed `Set` returns the board it was given. -/
theorem Sudoku.Set_false_inv {s t : Sudoku} {r c v : Int} (h : s.Set r c v = .ok (false, t)) :
    t = s := by
  unfold Sudoku.Set at h
  simp only [bind, Except.bind, pure, Except.pure] at h
  cases h0 : s.Region r c with
  | error e => rw [h0] at h; simp at h
  | ok g =>
    rw [h0] at h; simp only at h
    cases h1 : s.rows.At r (v - 1) with
    | error e => rw [h1] at h; simp at h
    | ok b1 =>
      rw [h1] at h; simp only at h
      cases b1
      · simp only [Bool.false_eq_true, if_false] at h
        cases h2 : s.cols.At c (v - 1) with
        | error e => rw [h2] at h; simp at h
        | ok b2 =>
          rw [h2] at h; simp only at h
          cases b2
          · simp only [Bool.false_eq_true, if_false] at h
            cases h3 : s.regions.At g (v - 1) with
            | error e => rw [h3] at h; simp at h
            | ok b3 =>
              rw [h3] at h; simp only at h
              cases b3
              · simp only [Bool.false_eq_true, if_false] at h
                exfalso
                cases h4 : s.Has r c with
                | error e => rw [h4] at h; simp at h
                | ok b4 =>
                  rw [h4] at h; simp only at h
                  cases b4
                  · simp only [Bool.false_eq_true, if_false] at h
                    cases h5 : sliceSet s.data (r * (s.size * s.size) + c) v with
                    | error e => rw [h5] at h; simp at h
                    | ok d =>
                      rw [h5] at h; simp only at h
                      cases h6 : s.rows.Set r (v - 1) true with
                      | error e => rw [h6] at h; simp at h
                      | ok x6 =>
                        rw [h6] at h; simp only at h
                        cases h7 : s.cols.Set c (v - 1) true with
                        | error e => rw [h7] at h; simp at h
                        | ok x7 =>
                          rw [h7] at h; simp only at h
                          cases h8 : s.regions.Set g (v - 1) true with
                          | error e => rw [h8] at h; simp at h
                          | ok x8 => rw [h8] at h; simp at h
                  · simp only [if_true] at h
                    cases h4a : s.At r c with
                    | error e => rw [h4a] at h; simp at h
                    | ok old =>
                      rw [h4a] at h; simp only at h
                      cases h4b : s.rows.Set r (old - 1) false with
                      | error e => rw [h4b] at h; simp at h
                      | ok y1 =>
                        rw [h4b] at h; simp only at h
                        cases h4c : s.cols.Set c (old - 1) false with
                        | error e => rw [h4c] at h; simp at h
                        | ok y2 =>
                          rw [h4c] at h; simp only at h
                          cases h4d : s.regions.Set g (old - 1) false with
                          | error e => rw [h4d] at h; simp at h
                          | ok y3 =>
                            rw [h4d] at h; simp only at h
                            cases h5 : sliceSet s.data (r * (s.size * s.size) + c) v with
                            | error e => rw [h5] at h; simp at h
                            | ok d =>
                              rw [h5] at h; simp only at h
                              cases h6 : y1.Set r (v - 1) true with
                              | error e => rw [h6] at h; simp at h
                              | ok x6 =>
                                rw [h6] at h; simp only at h
                                cases h7 : y2.Set c (v - 1) true with
                                | error e => rw [h7] at h; simp at h
                                | ok x7 =>
                                  rw [h7] at h; simp only at h
                                  cases h8 : y3.Set g (v - 1) true with
                                  | error e => rw [h8] at h; simp at h
                                  | ok x8 => rw [h8] at h; simp at h
              · simp only [if_true, Except.ok.injEq, Prod.mk.injEq, true_and] at h
                exact h.symm
          · simp only [if_true, Except.ok.injEq, Prod.mk.injEq, true_and] at h
            exact h.symm
      · simp only [if_true, Except.ok.injEq, Prod.mk.injEq, true_and] at h
        exact h.symm

/-- C11. `Set` followed by `Remove` is a round trip on an empty cell: if `Set(r, c, v)` on an
empty in-range cell with `v` in `1..N` returns true, then the following `Remove(r, c)`
returns exactly the board from before the `Set` (cells, lock flags, all three matrices and
everything else); on it `Has(r, c)` is false and the bits of `v` for the row, the column
and the region of the cell are false. -/
theorem Set_Remove_roundtrip (s : Sudoku) (r c v : Int) (t : Sudoku) (hs : s.WF)
    (hr0 : 0 ≤ r) (hr : r < s.dim) (hc0 : 0 ≤ c) (hcd : c < s.dim)
    (hv1 : 1 ≤ v) (hv : v ≤ s.dim) (hempty : s.At r c = .ok 0)
    (h : s.Set r c v = .ok (true, t)) :
    ∃ u : Sudoku, t.Remove r c = .ok u ∧ u = s ∧ u.Has r c = .ok false ∧
      u.rows.At r (v - 1) = .ok false ∧ u.cols.At c (v - 1) = .ok false ∧
      (∃ g, u.Region r c = .ok g ∧ u.regions.At g (v - 1) = .ok false) := by
  have hcell : s.cell r c = 0 := by
    unfold Sudoku.cell; rw [hempty]
  obtain ⟨g0, g1⟩ := Sudoku.region_bounds hs hr0 hr hc0 hcd
  rw [Sudoku.Set_eq hs hr0 hr hc0 hcd hv1 hv (by omega)
    (by rw [hcell]; exact le_of_lt (Sudoku.WF.dim_pos hs))] at h
  cases hb : s.blocked r c v
  · rw [hb] at h
    simp only [Bool.false_eq_true, if_false, hcell, if_true, Except.ok.injEq, Prod.mk.injEq,
      true_and] at h
    subst h
    have hcv : (s.place r c v).cell r c = v := by
      rw [Sudoku.cell_place hs v hr0 hr hc0 hcd hr0 hr hc0 hcd, if_pos (And.intro rfl rfl)]
    have hrem := Sudoku.Remove_eq (Sudoku.place_WF hs r c v) hr0 hr hc0 hcd
      (by rw [hcv]; exact hv1) (by rw [hcv]; exact hv)
    rw [Sudoku.erase_place hs hr0 hr hc0 hcd hv1 hv hcell hb] at hrem
    unfold Sudoku.blocked at hb
    simp only [Bool.or_eq_false_iff] at hb
    obtain ⟨⟨f1, f2⟩, f3⟩ := hb
    refine ⟨s, hrem, rfl, ?_, ?_, ?_, _, Sudoku.Region_ok hs r c, ?_⟩
    · rw [Sudoku.Has_ok hs hr0 hr hc0 hcd, hcell]; rfl
    · rw [Bitmap.At_bit hs.2.2.2.1 hr0 hr (by omega) (by omega), f1]
    · rw [Bitmap.At_bit hs.2.2.2.2.1 hc0 hcd (by omega) (by omega), f2]
    · rw [Bitmap.At_bit hs.2.2.2.2.2 g0 g1 (by omega) (by omega), f3]
  · rw [hb] at h
    simp at h

theorem Set_Remove_roundtrip_witness :
    oneCellBoard2.WF ∧ oneCellBoard2.At 2 1 = .ok 0 ∧
      oneCellBoard2.Set 2 1 3 = .ok (true, finalBoard oneCellBoard2 (oneCellBoard2.Set 2 1 3)) ∧
      ∃ u : Sudoku, (finalBoard oneCellBoard2 (oneCellBoard2.Set 2 1 3)).Remove 2 1 = .ok u ∧
        u = oneCellBoard2 ∧ u.Has 2 1 = .ok false ∧
        u.rows.At 2 (3 - 1) = .ok false ∧ u.cols.At 1 (3 - 1) = .ok false ∧
        (∃ g, u.Region 2 1 = .ok g ∧ u.regions.At g (3 - 1) = .ok false) :=
  ⟨by decide!, by decide!, eq_ok_true_of_returnsTrue oneCellBoard2 (by decide!),
    Set_Remove_roundtrip oneCellBoard2 2 1 3 _ (by decide!) (by decide!) (by decide!)
      (by decide!) (by decide!) (by decide!) (by decide!) (by decide!)
      (eq_ok_true_of_returnsTrue oneCellBoard2 (by decide!))⟩

/-- C12. A failed `Set` makes no change at all: for every board and all arguments, if
`Set(row, col, val)` returns false then the board it leaves is the board it was given, so
the cells, the lock flags and all three matrices are identical to their state before. -/
theorem Set_failure_unchanged (s : Sudoku) (r c v : Int) (t : Sudoku)
    (h : s.Set r c v = .ok (false, t)) :
    t = s ∧ t.data = s.data ∧ t.locked = s.locked ∧ t.rows = s.rows ∧ t.cols = s.cols ∧
      t.regions = s.regions := by
  have := Sudoku.Set_false_inv h
  subst this
  exact ⟨rfl, rfl, rfl, rfl, rfl, rfl⟩

theorem Set_failure_unchanged_witness :
    oneCellBoard2.Set 0 3 1 = .ok (false, finalBoard oneCellBoard2 (oneCellBoard2.Set 0 3 1)) ∧
      finalBoard oneCellBoard2 (oneCellBoard2.Set 0 3 1) = oneCellBoard2 :=
  ⟨eq_ok_false_of_returnsFalse oneCellBoard2 (by decide!),
    (Set_failure_unchanged oneCellBoard2 0 3 1 _
      (eq_ok_false_of_returnsFalse oneCellBoard2 (by decide!))).1⟩

/-! ## Clear -/

theorem onesCount64_zero : onesCount64 0 = 0 := by decide

theorem Bitmap.Size_of_zero (b : Bitmap) (hz : ∀ w ∈ b.data, w = 0) : b.Size = 0 := by
  unfold Bitmap.Size
  have key : ∀ (l : List Nat) (acc : Int), (∀ w ∈ l, w = 0) →
      l.foldl (fun total w => total + onesCount64 w) acc = acc := by
    intro l
    induction l with
    | nil => intro acc _; rfl
    | cons x xs ih =>
      intro acc hall
      have hx : x = 0 := hall x (List.mem_cons_self _ _)
      rw [List.foldl_cons, hx, onesCount64_zero, Int.add_zero]
      exact ih acc (fun w hw => hall w (List.mem_cons_of_mem _ hw))
  exact key _ _ hz

/-- C15. After `Clear`, for every board state, every cell `(r, c)` has `Has(r, c)` false and
`IsLocked(r, c)` false, and each of the matrices `rows`, `cols` and `regions` has
population count `Size()` equal to 0. -/
theorem Clear_empties (s : Sudoku) (hs : s.WF) :
    ∃ t : Sudoku, s.Clear = .ok t ∧ t.size = s.size ∧
      (∀ r c : Int, 0 ≤ r → r < s.dim → 0 ≤ c → c < s.dim →
        t.Has r c = .ok false ∧ t.IsLocked r c = .ok false) ∧
      t.rows.Size = 0 ∧ t.cols.Size = 0 ∧ t.regions.Size = 0 := by
  obtain ⟨t, e, twf, _, _, tsize, _, _, tdata, tlocked, trows, tcols, tregs⟩ :=
    Sudoku.Clear_spec hs
  have tdim : t.dim = s.dim := by unfold Sudoku.dim; rw [tsize]
  refine ⟨t, e, tsize, ?_, ?_, ?_, ?_⟩
  · intro r c hr0 hr hc0 hcd
    rw [← tdim] at hr hcd
    obtain ⟨i0, i1, i2⟩ := Sudoku.cell_index twf hr0 hr hc0 hcd
    constructor
    · rw [Sudoku.Has_ok twf hr0 hr hc0 hcd, Sudoku.cell_eq twf hr0 hr hc0 hcd, tdata,
        List.getD_eq_getElem?_getD, List.getElem?_replicate]
      split <;> rfl
    · unfold Sudoku.IsLocked
      have := sliceGet_eq t.locked (r * t.dim + c) false i0 i2
      unfold Sudoku.dim at this
      rw [this, tlocked, List.getD_eq_getElem?_getD, List.getElem?_replicate]
      split <;> rfl
  · rw [trows]; exact Bitmap.Size_of_zero _ (Bitmap.Clear_zero _)
  · rw [tcols]; exact Bitmap.Size_of_zero _ (Bitmap.Clear_zero _)
  · rw [tregs]; exact Bitmap.Size_of_zero _ (Bitmap.Clear_zero _)

theorem Clear_empties_witness :
    stuckBoard2.WF ∧
      ∃ t : Sudoku, stuckBoard2.Clear = .ok t ∧ t.size = stuckBoard2.size ∧
        (∀ r c : Int, 0 ≤ r → r < stuckBoard2.dim → 0 ≤ c → c < stuckBoard2.dim →
          t.Has r c = .ok false ∧ t.IsLocked r c = .ok false) ∧
        t.rows.Size = 0 ∧ t.cols.Size = 0 ∧ t.regions.Size = 0 :=
  ⟨by decide!, Clear_empties stuckBoard2 (by decide!)⟩

/-! ## Counting cells -/

theorem count_set_nonzero (l : List Int) (i : Nat) (hi : i < l.length)
    (hz : l.getD i 0 ≠ 0) : (l.set i 0).count 0 = l.count 0 + 1 := by
  rw [List.count_set _ _ _ _ hi]
  rw [List.getD_eq_getElem _ _ hi] at hz
  simp [hz]

theorem Sudoku.emptyCount_erase {s : Sudoku} (h : s.WF) {r c : Int}
    (hr0 : 0 ≤ r) (hr : r < s.dim) (hc0 : 0 ≤ c) (hc : c < s.dim) (hcell : s.cell r c ≠ 0) :
    (s.erase r c).emptyCount = s.emptyCount + 1 := by
  obtain ⟨i0, i1, _⟩ := Sudoku.cell_index h hr0 hr hc0 hc
  rw [Sudoku.cell_eq h hr0 hr hc0 hc] at hcell
  exact count_set_nonzero _ _ (by omega) hcell

theorem Sudoku.emptyCount_of_full {s : Sudoku} (h : s.WF) (hfull : s.Full) :
    s.emptyCount = 0 := by
  unfold Sudoku.emptyCount
  rw [List.count_eq_zero]
  intro hmem
  obtain ⟨i, hi, hget⟩ := List.getElem_of_mem hmem
  have hd := Sudoku.WF.dim_pos h
  have hlen := h.2.1
  have hiN : ((i : Nat) : Int) < s.dim * s.dim := by omega
  have hr0 : 0 ≤ (i : Int) / s.dim := Int.ediv_nonneg (by omega) (by omega)
  have hr : (i : Int) / s.dim < s.dim := Int.ediv_lt_of_lt_mul hd hiN
  have hc0 := Int.emod_nonneg (i : Int) (show s.dim ≠ 0 by omega)
  have hc := Int.emod_lt_of_pos (i : Int) hd
  have hidx : (i : Int) / s.dim * s.dim + (i : Int) % s.dim = i := by
    have := Int.ediv_add_emod (i : Int) s.dim
    rw [Int.mul_comm]; exact this
  apply hfull _ hr0 hr _ hc0 hc
  rw [Sudoku.cell_eq h hr0 hr hc0 hc, hidx, Int.toNat_ofNat, List.getD_eq_getElem _ _ hi]
  exact hget

theorem Sudoku.filled_add_empty (s : Sudoku) : s.filledCount + s.emptyCount = s.data.length := by
  unfold Sudoku.filledCount Sudoku.emptyCount List.count
  rw [List.length_eq_countP_add_countP (fun v => v != 0) s.data]
  congr 1
  apply List.countP_congr
  intro v _
  simp

/-! ## The phases of Generate, one by one -/

/-- The carve loop removes exactly the cells it still has to remove. -/
theorem carve_count (remove : Int) (fuel : Nat) :
    ∀ (removed : Int) (s t : Sudoku), s.WF → s.Consistent →
      carve s.dim remove fuel removed s = .ok t →
      (t.emptyCount : Int) = s.emptyCount + max 0 (remove - removed) := by
  induction fuel with
  | zero =>
    intro removed s t h hcons hrun
    rw [carve] at hrun
    split at hrun
    · simp at hrun
    · simp only [Except.ok.injEq] at hrun
      subst hrun
      omega
  | succ fuel ih =>
    intro removed s t h hcons hrun
    rw [carve] at hrun
    split at hrun
    · have hd := Sudoku.WF.dim_pos h
      rw [Rand.Intn_eq _ hd] at hrun
      simp only [bind, Except.bind] at hrun
      rw [Rand.Intn_eq _ hd] at hrun
      simp only at hrun
      have r0 := Int.emod_nonneg ((s.rand.draws s.rand.pos : Nat) : Int) (show s.dim ≠ 0 by omega)
      have r1 := Int.emod_lt_of_pos ((s.rand.draws s.rand.pos : Nat) : Int) hd
      have c0 := Int.emod_nonneg ((s.rand.draws (s.rand.pos + 1) : Nat) : Int)
        (show s.dim ≠ 0 by omega)
      have c1 := Int.emod_lt_of_pos ((s.rand.draws (s.rand.pos + 1) : Nat) : Int) hd
      have hw := Sudoku.withRand_WF h ⟨s.rand.draws, s.rand.pos + 1 + 1⟩
      have hhas := Sudoku.Has_ok hw r0 r1 c0 c1
      rw [hhas] at hrun
      simp only at hrun
      split at hrun
      · rename_i hne
        have hne' : s.cell (((s.rand.draws s.rand.pos : Nat) : Int) % s.dim)
            (((s.rand.draws (s.rand.pos + 1) : Nat) : Int) % s.dim) ≠ 0 := by
          simpa using hne
        have hv := hcons.1 _ r0 r1 _ c0 c1
        have hrem := Sudoku.Remove_eq hw r0 r1 c0 c1
          (show 1 ≤ _ by
            have : ∀ x : Int, 0 ≤ x → x ≠ 0 → 1 ≤ x := fun x a b => by omega
            exact this _ hv.1 hne') hv.2
        rw [hrem] at hrun
        simp only at hrun
        have key := ih _ _ t (Sudoku.erase_WF hw _ _)
          (Sudoku.erase_consistent hw hcons r0 r1 c0 c1 hne') hrun
        have hcnt := Sudoku.emptyCount_erase hw r0 r1 c0 c1 hne'
        rw [hcnt] at key
        have he : (({ s with rand := ⟨s.rand.draws, s.rand.pos + 1 + 1⟩ } : Sudoku).emptyCount)
            = s.emptyCount := rfl
        rw [he] at key
        push_cast at key
        omega
      · have key := ih _ _ t hw hcons hrun
        have he : (({ s with rand := ⟨s.rand.draws, s.rand.pos + 1 + 1⟩ } : Sudoku).emptyCount)
            = s.emptyCount := rfl
        rw [he] at key
        omega
    · simp only [Except.ok.injEq] at hrun
      subst hrun
      omega

/-- The lock loop sets the flag of every nonempty cell and leaves the other flags. -/
theorem lockClues_flags {s : Sudoku} (h : s.WF) :
    ∃ l : List Bool, lockClues s = .ok { s with locked := l } ∧
      l.length = s.locked.length ∧
      ∀ j : Nat, l.getD j false = (s.data.getD j 0 != 0 || s.locked.getD j false) := by
  have hlen : (s.locked.length : Int) = s.data.length := by rw [h.2.1, h.2.2.1]
  have hloop := forLoop_inv
    (fun i (locked : List Bool) => do
      if (← sliceGet s.data i) ≠ 0 then sliceSet locked i true
      else pure locked)
    (fun i (locked : List Bool) => locked.length = s.locked.length ∧
      ∀ j : Nat, locked.getD j false =
        if (j : Int) < i then (s.data.getD j 0 != 0 || s.locked.getD j false)
        else s.locked.getD j false)
    s.data.length 0 s.locked
    (by
      intro i l hi0 hi hP
      obtain ⟨hl, hflags⟩ := hP
      simp only [bind, Except.bind, pure, Except.pure, sliceGet_eq s.data i 0 hi0 (by omega)]
      split
      · rename_i hne
        rw [sliceSet_eq _ _ _ hi0 (by omega)]
        refine ⟨_, rfl, by simp [hl], ?_⟩
        intro j
        by_cases hj : i.toNat = j
        · subst hj
          rw [getD_set_self _ _ _ _ (by omega), if_pos (by omega)]
          have hb : (s.data.getD i.toNat 0 != 0) = true := by
            rw [bne_iff_ne]; exact hne
          rw [hb]
          rfl
        · rw [getD_set_ne _ _ _ hj, hflags j]
          by_cases hlt : (j : Int) < i
          · rw [if_pos hlt, if_pos (by omega)]
          · rw [if_neg hlt, if_neg (by omega)]
      · rename_i hne
        refine ⟨_, rfl, hl, ?_⟩
        intro j
        rw [hflags j]
        by_cases hj : i.toNat = j
        · subst hj
          have hz : s.data.getD i.toNat 0 = 0 := by simpa using hne
          rw [if_neg (by omega), if_pos (by omega), hz]
          simp
        · by_cases hlt : (j : Int) < i
          · rw [if_pos hlt, if_pos (by omega)]
          · rw [if_neg hlt, if_neg (by omega)])
    ⟨rfl, fun j => by rw [if_neg (by omega)]⟩
  obtain ⟨l, e, hl, hflags⟩ := hloop
  refine ⟨l, ?_, hl, ?_⟩
  · unfold lockClues
    rw [e]
    rfl
  · intro j
    rw [hflags j]
    by_cases hlt : (j : Int) < 0 + (s.data.length : Int)
    · rw [if_pos hlt]
    · rw [if_neg hlt]
      have h1 : s.data.getD j 0 = 0 := List.getD_eq_default _ _ (by omega)
      rw [h1]
      simp

/-- The run of `Generate`, phase by phase: the seeded board `u`, the solved board `v`, the
carved board `w` and the final lock flags `l`. -/
theorem Sudoku.Generate_phases {s : Sudoku} (h : s.WF) {fuel : Nat} {d : Difficulty} {b : Bool}
    {t : Sudoku} (hrun : s.Generate fuel d = .ok (b, t)) :
    ∃ (u v w : Sudoku) (l : List Bool), b = true ∧ seedPhase s = .ok u ∧
      u.Solve fuel = .ok (true, v) ∧
      carve v.dim (v.dim * v.dim - keepCount (v.dim * v.dim) d) fuel 0 v
        = .ok w ∧
      lockClues w = .ok { w with locked := l } ∧
      t = ⟨w.size, w.data, l, w.rows, w.cols, w.regions, w.rand, false⟩ := by
  obtain ⟨s3, e3, wf3, cons3, size3, ext3, _, _, _⟩ := seedPhase_spec h
  have hG : ValidGrid s3.size (seedGrid s.size (fun g => seedVal s.rand g + seedStart s.rand g)
      (seedStart s.rand)) := by
    rw [size3]; exact seedGrid_valid _ _ _ h.1
  unfold Sudoku.Generate at hrun
  rw [e3] at hrun
  simp only [bind, Except.bind, pure, Except.pure] at hrun
  cases hsol : s3.Solve fuel with
  | error e => rw [hsol] at hrun; simp at hrun
  | ok p =>
    obtain ⟨b1, s4⟩ := p
    rw [hsol] at hrun
    simp only at hrun
    cases b1
    · exact absurd hsol (Sudoku.Solve_ne_false wf3 cons3 hG ext3 fuel s4)
    · have hp := Sudoku.Solve_post fuel s3 true s4 wf3 hsol
      simp only [Bool.not_true, Bool.false_eq_true, if_false] at hrun
      have hdim : s3.size * s3.size = s4.dim := by unfold Sudoku.dim; rw [hp.size_eq]
      rw [hdim] at hrun
      cases hcarve : carve s4.dim
          (s4.dim * s4.dim - keepCount (s4.dim * s4.dim) d) fuel 0 s4 with
      | error e => rw [hcarve] at hrun; simp at hrun
      | ok s5 =>
        rw [hcarve] at hrun
        simp only at hrun
        obtain ⟨wf5, _⟩ :=
          carve_spec _ s4 fuel 0 s4 s5 hp.wf (hp.consistent rfl cons3) rfl
            (Sudoku.CarvedFrom.refl s4) hcarve
        obtain ⟨l, el, _⟩ := lockClues_flags wf5
        rw [el] at hrun
        simp only [Except.ok.injEq, Prod.mk.injEq] at hrun
        obtain ⟨e1, e2⟩ := hrun
        subst e1 e2
        exact ⟨s3, s4, s5, l, rfl, e3, hsol, hcarve, el, rfl⟩

/-- For a nonnegative rational, Go's truncating conversion is the floor. -/
theorem truncToInt_eq_floor {q : ℚ} (hq : 0 ≤ q) : truncToInt q = ⌊q⌋ := by
  unfold truncToInt
  rw [Rat.floor_def, Int.tdiv_eq_ediv (Rat.num_nonneg.mpr hq) (by exact_mod_cast Nat.zero_le _)]

/-- What a run of `Generate` leaves: the carved board `w` with new lock flags `l`. The board
`w` has the storage of the start board, its number of empty cells is the number the carve
loop had to remove, and the flag of a cell is set exactly when the cell is nonempty. -/
theorem Sudoku.Generate_summary {s : Sudoku} (h : s.WF) {fuel : Nat} {d : Difficulty} {b : Bool}
    {t : Sudoku} (hrun : s.Generate fuel d = .ok (b, t)) :
    ∃ (w : Sudoku) (l : List Bool),
      t = ⟨w.size, w.data, l, w.rows, w.cols, w.regions, w.rand, false⟩ ∧ w.WF ∧
      w.size = s.size ∧
      (w.emptyCount : Int)
        = max 0 (s.dim * s.dim - keepCount (s.dim * s.dim) d) ∧
      l.length = w.data.length ∧
      ∀ j : Nat, l.getD j false = (w.data.getD j 0 != 0) := by
  obtain ⟨u, v, w, l, _, eu, ev, ew, el, et⟩ := Sudoku.Generate_phases h hrun
  obtain ⟨u', eu', uwf, ucons, usize, _, _, _, ulocked⟩ := seedPhase_spec h
  rw [eu] at eu'
  simp only [Except.ok.injEq] at eu'
  subst eu'
  have hp := Sudoku.Solve_post fuel u true v uwf ev
  have vcons := hp.consistent rfl ucons
  obtain ⟨wwf, _, wsize, _, wlocked, _⟩ :=
    carve_spec _ v fuel 0 v w hp.wf vcons rfl (Sudoku.CarvedFrom.refl v) ew
  have hcount := carve_count _ fuel 0 v w hp.wf vcons ew
  rw [Sudoku.emptyCount_of_full hp.wf (hp.full rfl)] at hcount
  obtain ⟨l', el', hlen, hflags⟩ := lockClues_flags wwf
  rw [el] at el'
  simp only [Except.ok.injEq] at el'
  have hl : l = l' := congrArg Sudoku.locked el'
  subst hl
  have hdim : v.dim = s.dim := by unfold Sudoku.dim; rw [hp.size_eq, usize]
  refine ⟨w, l, et, wwf, wsize.trans (hp.size_eq.trans usize), ?_, ?_, ?_⟩
  · rw [hcount, hdim]
    simp
  · have h1 := wwf.2.1
    have h2 := wwf.2.2.1
    omega
  · intro j
    rw [hflags j, wlocked, hp.locked_eq, ulocked]
    have : (List.replicate s.locked.length false).getD j false = false := by
      rw [List.getD_eq_getElem?_getD]
      by_cases hj : j < s.locked.length
      · simp [List.getElem?_replicate, hj]
      · simp [List.getElem?_replicate, hj]
    rw [this, Bool.or_false]

/-! ## The float64 model -/

theorem log2Fuel_spec (fuel : Nat) :
    ∀ n : Nat, 0 < n → n ≤ fuel →
      2 ^ log2Fuel fuel n ≤ n ∧ n < 2 ^ (log2Fuel fuel n + 1) := by
  induction fuel with
  | zero => intro n h0 h1; omega
  | succ fuel ih =>
    intro n h0 h1
    unfold log2Fuel
    by_cases h2 : n < 2
    · rw [if_pos h2]
      have : n = 1 := by omega
      subst this
      exact ⟨by norm_num, by norm_num⟩
    · rw [if_neg h2]
      obtain ⟨a1, a2⟩ := ih (n / 2) (by omega) (by omega)
      have e1 : 2 ^ (log2Fuel fuel (n / 2) + 1) = 2 * 2 ^ log2Fuel fuel (n / 2) := by
        rw [pow_succ]; ring
      have e2 : 2 ^ (log2Fuel fuel (n / 2) + 1 + 1) = 2 * 2 ^ (log2Fuel fuel (n / 2) + 1) := by
        rw [pow_succ]; ring
      constructor
      · rw [e1]; omega
      · rw [e2]; omega

theorem floorLog2_spec {n : Nat} (h : 0 < n) :
    2 ^ floorLog2 n ≤ n ∧ n < 2 ^ (floorLog2 n + 1) :=
  log2Fuel_spec n n h (Nat.le_refl n)

theorem pow2_eq (e : Int) : pow2 e = (2 : ℚ) ^ e := by
  unfold pow2
  rw [Rat.mkRat_eq_div]
  by_cases h : 0 ≤ e
  · have h1 : (-e).toNat = 0 := by omega
    rw [h1]
    have h2 : ((e.toNat : Nat) : Int) = e := Int.toNat_of_nonneg h
    conv_rhs => rw [← h2]
    rw [zpow_natCast]
    push_cast
    simp
  · have h1 : e.toNat = 0 := by omega
    rw [h1]
    have h2 : e = -(((-e).toNat : Nat) : Int) := by omega
    conv_rhs => rw [h2]
    rw [zpow_neg, zpow_natCast]
    push_cast
    simp

theorem pow2_pos (e : Int) : 0 < pow2 e := by
  rw [pow2_eq]; positivity

theorem abs_eq_natAbs_div (q : ℚ) : |q| = ((q.num.natAbs : Nat) : ℚ) / (q.den : ℚ) := by
  have hd : (0 : ℚ) < (q.den : ℚ) := by exact_mod_cast q.den_pos
  conv_lhs => rw [← Rat.num_div_den q]
  rw [abs_div, abs_of_pos hd]
  congr 1
  rw [Nat.cast_natAbs]
  push_cast
  rfl

/-- The binary exponent brackets the magnitude. -/
theorem binaryExponent_spec {q : ℚ} (hq : q ≠ 0) :
    (2 : ℚ) ^ binaryExponent q ≤ |q| ∧ |q| < (2 : ℚ) ^ (binaryExponent q + 1) := by
  have hn : 0 < q.num.natAbs := Int.natAbs_pos.mpr (Rat.num_ne_zero.mpr hq)
  have hd : 0 < q.den := q.den_pos
  obtain ⟨a1, a2⟩ := floorLog2_spec hn
  obtain ⟨b1, b2⟩ := floorLog2_spec hd
  have hdq : (0 : ℚ) < (q.den : ℚ) := by exact_mod_cast hd
  have a1' : (2 : ℚ) ^ (floorLog2 q.num.natAbs) ≤ (q.num.natAbs : ℚ) := by exact_mod_cast a1
  have a2' : (q.num.natAbs : ℚ) < (2 : ℚ) ^ (floorLog2 q.num.natAbs + 1) := by
    exact_mod_cast a2
  have b1' : (2 : ℚ) ^ (floorLog2 q.den) ≤ (q.den : ℚ) := by exact_mod_cast b1
  have b2' : (q.den : ℚ) < (2 : ℚ) ^ (floorLog2 q.den + 1) := by exact_mod_cast b2
  have two : (2 : ℚ) ≠ 0 := by norm_num
  have habs := abs_eq_natAbs_div q
  unfold binaryExponent
  simp only
  split
  · rename_i h
    rw [pow2_eq] at h
    refine ⟨h, ?_⟩
    rw [habs, div_lt_iff₀ hdq]
    have e : (2 : ℚ) ^ ((floorLog2 q.num.natAbs : Int) - (floorLog2 q.den : Int) + 1) =
        (2 : ℚ) ^ (floorLog2 q.num.natAbs + 1) / (2 : ℚ) ^ (floorLog2 q.den) := by
      rw [← zpow_natCast, ← zpow_natCast, ← zpow_sub₀ two]
      congr 1
      push_cast
      ring
    rw [e, div_mul_eq_mul_div, lt_div_iff₀ (by positivity)]
    calc (q.num.natAbs : ℚ) * (2 : ℚ) ^ floorLog2 q.den
        ≤ (q.num.natAbs : ℚ) * (q.den : ℚ) :=
          mul_le_mul_of_nonneg_left b1' (by positivity)
      _ < (2 : ℚ) ^ (floorLog2 q.num.natAbs + 1) * (q.den : ℚ) :=
          mul_lt_mul_of_pos_right a2' hdq
  · rename_i h
    rw [pow2_eq, not_le] at h
    constructor
    · rw [habs, le_div_iff₀ hdq]
      have e : (2 : ℚ) ^ ((floorLog2 q.num.natAbs : Int) - (floorLog2 q.den : Int) - 1) =
          (2 : ℚ) ^ (floorLog2 q.num.natAbs) / (2 : ℚ) ^ (floorLog2 q.den + 1) := by
        rw [← zpow_natCast, ← zpow_natCast, ← zpow_sub₀ two]
        congr 1
        push_cast
        ring
      rw [e, div_mul_eq_mul_div, div_le_iff₀ (by positivity)]
      calc (2 : ℚ) ^ floorLog2 q.num.natAbs * (q.den : ℚ)
          ≤ (2 : ℚ) ^ floorLog2 q.num.natAbs * (2 : ℚ) ^ (floorLog2 q.den + 1) :=
            mul_le_mul_of_nonneg_left b2'.le (by positivity)
        _ ≤ (q.num.natAbs : ℚ) * (2 : ℚ) ^ (floorLog2 q.den + 1) :=
            mul_le_mul_of_nonneg_right a1' (by positivity)
    · have e : (floorLog2 q.num.natAbs : Int) - (floorLog2 q.den : Int) - 1 + 1 =
          (floorLog2 q.num.natAbs : Int) - (floorLog2 q.den : Int) := by ring
      rw [e]
      exact h

theorem roundHalfEven_cases (q : ℚ) :
    roundHalfEven q = ⌊q⌋ ∧ q - ⌊q⌋ ≤ 1 / 2 ∨ roundHalfEven q = ⌊q⌋ + 1 ∧ 1 / 2 ≤ q - ⌊q⌋ := by
  unfold roundHalfEven
  simp only
  split
  · rename_i h; exact Or.inl ⟨rfl, h.le⟩
  · rename_i h
    split
    · rename_i h2; exact Or.inr ⟨rfl, h2.le⟩
    · rename_i h2
      have e : q - ⌊q⌋ = 1 / 2 := le_antisymm (not_lt.mp h2) (not_lt.mp h)
      split
      · exact Or.inl ⟨rfl, e.le⟩
      · exact Or.inr ⟨rfl, e.ge⟩

theorem roundHalfEven_err (q : ℚ) : |((roundHalfEven q : Int) : ℚ) - q| ≤ 1 / 2 := by
  have h1 := Int.floor_le q
  have h2 := Int.lt_floor_add_one q
  rw [abs_le]
  rcases roundHalfEven_cases q with ⟨e, h⟩ | ⟨e, h⟩
  · rw [e]; constructor <;> linarith
  · rw [e]; push_cast; constructor <;> linarith

theorem roundHalfEven_nonneg {q : ℚ} (h : 0 ≤ q) : 0 ≤ roundHalfEven q := by
  have hf : 0 ≤ ⌊q⌋ := Int.floor_nonneg.mpr h
  rcases roundHalfEven_cases q with ⟨e, _⟩ | ⟨e, _⟩ <;> rw [e] <;> omega

theorem roundHalfEven_intCast (n : Int) : roundHalfEven (n : ℚ) = n := by
  unfold roundHalfEven
  simp

theorem roundFloat64_zero : roundFloat64 0 = 0 := by
  unfold roundFloat64
  simp only [zero_div]
  have : roundHalfEven (0 : ℚ) = 0 := by
    have := roundHalfEven_intCast 0
    simpa using this
  rw [this]
  simp

theorem roundFloat64_nonneg {q : ℚ} (h : 0 ≤ q) : 0 ≤ roundFloat64 q := by
  unfold roundFloat64
  simp only
  have hu := pow2_pos (max (binaryExponent q) (-1022) - 52)
  have hr := roundHalfEven_nonneg (div_nonneg h hu.le)
  have hr' : (0 : ℚ) ≤ ((roundHalfEven (q / pow2 (max (binaryExponent q) (-1022) - 52)) : Int) : ℚ) := by
    exact_mod_cast hr
  exact mul_nonneg hr' hu.le

/-- The rounding error is at most half the spacing of the `float64` values around `q`. -/
theorem roundFloat64_err {q : ℚ} (h : 0 ≤ q) :
    |roundFloat64 q - q| ≤ q * (2 : ℚ) ^ (-53 : Int) + (2 : ℚ) ^ (-1075 : Int) := by
  by_cases hq : q = 0
  · subst hq
    rw [roundFloat64_zero]
    simp
    positivity
  have hpos : 0 < q := lt_of_le_of_ne h (Ne.symm hq)
  obtain ⟨s1, _⟩ := binaryExponent_spec hq
  rw [abs_of_pos hpos] at s1
  have two : (2 : ℚ) ≠ 0 := by norm_num
  unfold roundFloat64
  simp only
  generalize hu : pow2 (max (binaryExponent q) (-1022) - 52) = u
  have hupos : 0 < u := by rw [← hu]; exact pow2_pos _
  have herr := roundHalfEven_err (q / u)
  have e : ((roundHalfEven (q / u) : Int) : ℚ) * u - q =
      (((roundHalfEven (q / u) : Int) : ℚ) - q / u) * u := by
    field_simp
  rw [e, abs_mul, abs_of_pos hupos]
  have h1 : |((roundHalfEven (q / u) : Int) : ℚ) - q / u| * u ≤ 1 / 2 * u :=
    mul_le_mul_of_nonneg_right herr hupos.le
  have h2 : 1 / 2 * u ≤ q * (2 : ℚ) ^ (-53 : Int) + (2 : ℚ) ^ (-1075 : Int) := by
    rw [← hu, pow2_eq]
    by_cases he : -1022 ≤ binaryExponent q
    · rw [max_eq_left he]
      have e2 : (2 : ℚ) ^ (binaryExponent q - 52) =
          (2 : ℚ) ^ binaryExponent q * (2 : ℚ) ^ (-52 : Int) := by
        rw [← zpow_add₀ two]; congr 1
      have e3 : (1 : ℚ) / 2 * (2 : ℚ) ^ (-52 : Int) = (2 : ℚ) ^ (-53 : Int) := by
        norm_num [zpow_neg]
      have h3 : (2 : ℚ) ^ binaryExponent q * (2 : ℚ) ^ (-53 : Int) ≤
          q * (2 : ℚ) ^ (-53 : Int) := mul_le_mul_of_nonneg_right s1 (by positivity)
      have h4 : (0 : ℚ) < (2 : ℚ) ^ (-1075 : Int) := by positivity
      calc 1 / 2 * (2 : ℚ) ^ (binaryExponent q - 52)
          = (2 : ℚ) ^ binaryExponent q * (1 / 2 * (2 : ℚ) ^ (-52 : Int)) := by rw [e2]; ring
        _ = (2 : ℚ) ^ binaryExponent q * (2 : ℚ) ^ (-53 : Int) := by rw [e3]
        _ ≤ q * (2 : ℚ) ^ (-53 : Int) + (2 : ℚ) ^ (-1075 : Int) := by linarith
    · rw [max_eq_right (by omega)]
      have e3 : (1 : ℚ) / 2 * (2 : ℚ) ^ ((-1022 : Int) - 52) = (2 : ℚ) ^ (-1075 : Int) := by
        have : (2 : ℚ) ^ ((-1022 : Int) - 52) = (2 : ℚ) ^ (-1075 : Int) * 2 := by
          rw [show ((-1022 : Int) - 52) = -1075 + 1 from by norm_num, zpow_add₀ two, zpow_one]
        rw [this]; ring
      rw [e3]
      have : 0 ≤ q * (2 : ℚ) ^ (-53 : Int) := by positivity
      linarith
  exact h1.trans h2

/-- An integer of magnitude below `2 ^ 53` is a `float64`. -/
theorem roundFloat64_intCast {n : Int} (hn : |n| < 2 ^ 53) : roundFloat64 (n : ℚ) = n := by
  by_cases h0 : n = 0
  · subst h0
    simpa using roundFloat64_zero
  have hq : (n : ℚ) ≠ 0 := by exact_mod_cast h0
  obtain ⟨s1, s2⟩ := binaryExponent_spec hq
  have two : (2 : ℚ) ≠ 0 := by norm_num
  have one_lt : (1 : ℚ) < 2 := by norm_num
  have habs1 : (1 : ℚ) ≤ |(n : ℚ)| := by
    have : (1 : Int) ≤ |n| := Int.one_le_abs h0
    exact_mod_cast this
  have habs2 : |(n : ℚ)| < (2 : ℚ) ^ (53 : Int) := by
    have : ((|n| : Int) : ℚ) < ((2 ^ 53 : Int) : ℚ) := by exact_mod_cast hn
    rw [Int.cast_abs] at this
    calc |(n : ℚ)| < ((2 ^ 53 : Int) : ℚ) := this
      _ = (2 : ℚ) ^ (53 : Int) := by norm_num
  have he0 : 0 ≤ binaryExponent (n : ℚ) := by
    have h := lt_of_le_of_lt habs1 s2
    have : (2 : ℚ) ^ (0 : Int) < (2 : ℚ) ^ (binaryExponent (n : ℚ) + 1) := by simpa using h
    have := (zpow_lt_zpow_iff_right₀ one_lt).mp this
    omega
  have he1 : binaryExponent (n : ℚ) ≤ 52 := by
    have h := lt_of_le_of_lt s1 habs2
    have := (zpow_lt_zpow_iff_right₀ one_lt).mp h
    omega
  unfold roundFloat64
  simp only
  rw [max_eq_left (by omega), pow2_eq]
  obtain ⟨m, hm⟩ : ∃ m : Nat, binaryExponent (n : ℚ) - 52 = -(m : Int) :=
    ⟨(52 - binaryExponent (n : ℚ)).toNat, by omega⟩
  rw [hm, zpow_neg, zpow_natCast]
  have e : (n : ℚ) / ((2 : ℚ) ^ m)⁻¹ = ((n * 2 ^ m : Int) : ℚ) := by
    push_cast
    field_simp
  rw [e, roundHalfEven_intCast]
  push_cast
  field_simp

theorem zpow_two_neg53 : (2 : ℚ) ^ (-53 : Int) = 1 / 9007199254740992 := by
  norm_num [zpow_neg]

theorem zpow_two_neg1075 :
    0 < (2 : ℚ) ^ (-1075 : Int) ∧ (2 : ℚ) ^ (-1075 : Int) ≤ 1 / 1152921504606846976 := by
  refine ⟨by positivity, ?_⟩
  have h : (2 : ℚ) ^ (-1075 : Int) ≤ (2 : ℚ) ^ (-60 : Int) :=
    zpow_le_zpow_right₀ (by norm_num) (by norm_num)
  have e : (2 : ℚ) ^ (-60 : Int) = 1 / 1152921504606846976 := by norm_num [zpow_neg]
  rw [e] at h
  exact h

/-- The count `Generate` keeps lies between 0 and the number of cells. -/
theorem keepCount_bounds {M : Int} (hM0 : 0 ≤ M) (hM : M * 100 < 2 ^ 53) {d : ℚ}
    (hd0 : 0 ≤ d) (hd : d ≤ 100) : 0 ≤ keepCount M d ∧ keepCount M d ≤ M := by
  have hMq0 : (0 : ℚ) ≤ (M : ℚ) := by exact_mod_cast hM0
  have hMq : (M : ℚ) * 100 ≤ 9007199254740992 := by
    have : M * 100 ≤ 9007199254740992 := by omega
    exact_mod_cast this
  unfold keepCount float64Div float64Mul float64OfInt
  rw [roundFloat64_intCast (by rw [abs_of_nonneg hM0]; omega)]
  have hA0 : 0 ≤ (M : ℚ) * d := mul_nonneg hMq0 hd0
  have hA : (M : ℚ) * d ≤ (M : ℚ) * 100 := mul_le_mul_of_nonneg_left hd hMq0
  have hp0 := roundFloat64_nonneg hA0
  have hperr := (abs_le.mp (roundFloat64_err hA0)).2
  have hx0 : 0 ≤ roundFloat64 ((M : ℚ) * d) / 100 := div_nonneg hp0 (by norm_num)
  have hq0 := roundFloat64_nonneg hx0
  have hqerr := (abs_le.mp (roundFloat64_err hx0)).2
  obtain ⟨hδ0, hδ⟩ := zpow_two_neg1075
  rw [zpow_two_neg53] at hperr hqerr
  rw [truncToInt_eq_floor hq0]
  refine ⟨Int.floor_nonneg.mpr hq0, ?_⟩
  have hlt : roundFloat64 (roundFloat64 ((M : ℚ) * d) / 100) < ((M + 1 : Int) : ℚ) := by
    push_cast
    generalize roundFloat64 ((M : ℚ) * d) = p at hp0 hperr hx0 hq0 hqerr ⊢
    generalize roundFloat64 (p / 100) = q at hq0 hqerr ⊢
    generalize (2 : ℚ) ^ (-1075 : Int) = δ at hδ0 hδ hperr hqerr
    linarith
  have := Int.floor_lt.mpr hlt
  omega

/-- For an integer percentage the float rounding does not show: the count kept is the
integer quotient. -/
theorem keepCount_intCast {M n : Int} (hM0 : 0 ≤ M) (hM : M * 100 < 2 ^ 53)
    (hn0 : 0 ≤ n) (hn : n ≤ 100) :
    keepCount M (n : ℚ) = M * n / 100 ∧ ⌊(M : ℚ) * (n : ℚ) / 100⌋ = M * n / 100 := by
  have hP0 : 0 ≤ M * n := Int.mul_nonneg hM0 hn0
  have hP : M * n ≤ M * 100 := Int.mul_le_mul_of_nonneg_left hn hM0
  generalize hPdef : M * n = P at hP0 hP
  have hf0 : 0 ≤ P / 100 := Int.ediv_nonneg hP0 (by norm_num)
  have hsplit : P = 100 * (P / 100) + P % 100 := (Int.ediv_add_emod P 100).symm
  have hr0 : 0 ≤ P % 100 := Int.emod_nonneg P (by norm_num)
  have hr1 : P % 100 < 100 := Int.emod_lt_of_pos P (by norm_num)
  have hx : (P : ℚ) / 100 = ((P / 100 : Int) : ℚ) + ((P % 100 : Int) : ℚ) / 100 := by
    have : (P : ℚ) = 100 * ((P / 100 : Int) : ℚ) + ((P % 100 : Int) : ℚ) := by
      exact_mod_cast hsplit
    rw [this]; ring
  have hr0q : (0 : ℚ) ≤ ((P % 100 : Int) : ℚ) := by exact_mod_cast hr0
  have hr1q : ((P % 100 : Int) : ℚ) ≤ 99 := by
    have : P % 100 ≤ 99 := by omega
    exact_mod_cast this
  have hcast : (M : ℚ) * (n : ℚ) = ((P : Int) : ℚ) := by rw [← hPdef]; push_cast; ring
  have hfloor : ⌊(P : ℚ) / 100⌋ = P / 100 := by
    rw [Int.floor_eq_iff, hx]
    constructor <;> linarith
  refine ⟨?_, by rw [hcast]; exact hfloor⟩
  unfold keepCount float64Div float64Mul float64OfInt
  rw [roundFloat64_intCast (by rw [abs_of_nonneg hM0]; omega), hcast,
    roundFloat64_intCast (by rw [abs_of_nonneg hP0]; omega)]
  have hx0 : (0 : ℚ) ≤ (P : ℚ) / 100 := by
    have : (0 : ℚ) ≤ (P : ℚ) := by exact_mod_cast hP0
    positivity
  have hq0 := roundFloat64_nonneg hx0
  rw [truncToInt_eq_floor hq0]
  by_cases hr : P % 100 = 0
  · have e : (P : ℚ) / 100 = ((P / 100 : Int) : ℚ) := by
      rw [hx, hr]; simp
    rw [e, roundFloat64_intCast (by rw [abs_of_nonneg hf0]; omega), Int.floor_intCast]
  · have hr1' : (1 : ℚ) ≤ ((P % 100 : Int) : ℚ) := by
      have : 1 ≤ P % 100 := by omega
      exact_mod_cast this
    have herr := abs_le.mp (roundFloat64_err hx0)
    obtain ⟨hδ0, hδ⟩ := zpow_two_neg1075
    rw [zpow_two_neg53] at herr
    have hPq : (P : ℚ) ≤ 9007199254740991 := by
      have : P ≤ 9007199254740991 := by omega
      exact_mod_cast this
    rw [Int.floor_eq_iff]
    generalize roundFloat64 ((P : ℚ) / 100) = q at hq0 herr ⊢
    generalize (2 : ℚ) ^ (-1075 : Int) = δ at hδ0 hδ herr
    rw [hx] at herr
    have hxP : ((P / 100 : Int) : ℚ) + ((P % 100 : Int) : ℚ) / 100 ≤ 9007199254740991 / 100 := by
      rw [← hx]; linarith
    constructor <;> linarith [herr.1, herr.2]

/-- C13, refuted as stated: the count is not the rounded one. On the empty 4 by 4 board with
fill percentage `Hard` (30), `Generate` returns true and leaves 4 nonempty cells, while
`round (16 * 30 / 100) = round 4.8 = 5`. -/
theorem Generate_round_counterexample :
    returnsTrue (emptyBoard2.Generate 100 Hard) = true ∧
      (finalBoard emptyBoard2 (emptyBoard2.Generate 100 Hard)).filledCount = 4 ∧
      round (((emptyBoard2.dim * emptyBoard2.dim : Int) : ℚ) * Hard / 100) = 5 ∧
      ¬ (∀ (s : Sudoku) (fuel : Nat) (d : Difficulty) (t : Sudoku), s.WF → 0 ≤ d → d ≤ 100 →
        s.Generate fuel d = .ok (true, t) →
        (t.filledCount : Int) = round (((s.dim * s.dim : Int) : ℚ) * d / 100)) := by
  have h2 : (finalBoard emptyBoard2 (emptyBoard2.Generate 100 Hard)).filledCount = 4 := by
    decide!
  have h3 : round (((emptyBoard2.dim * emptyBoard2.dim : Int) : ℚ) * Hard / 100) = 5 := by
    decide!
  refine ⟨by decide!, h2, h3, ?_⟩
  intro h
  have h1 := h emptyBoard2 100 Hard _ (by decide!) (by decide!) (by decide!)
    (eq_ok_true_of_returnsTrue emptyBoard2 (by decide!))
  rw [h2, h3] at h1
  exact absurd h1 (by decide)

/-- C13 (amended). The carve phase of `Generate` removes exactly
`total - int(float64(total) * fillPercent / 100.0)` cells, with `total = N * N`, the product
and the quotient being `float64` operations and `int` the conversion that drops the
fractional part: whenever `Generate` returns true with `0 ≤ fillPercent ≤ 100` (and
`100 * N * N < 2 ^ 53`), the number of nonempty cells left is that count `keepCount`. For
an integer `fillPercent` it is the floor of `N * N * fillPercent / 100`; for `k = 3` and
`fillPercent = 75` this is 60 filled cells. For other values the `float64` rounding can
show: for `k = 3` and the `float64` nearest `11.11111111111111` the count is 9, the floor of
the exact quotient being 8. -/
theorem Generate_filled_count (s : Sudoku) (fuel : Nat) (d : Difficulty) (t : Sudoku)
    (hs : s.WF) (hN : s.dim * s.dim * 100 < 2 ^ 53) (hd0 : 0 ≤ d) (hd : d ≤ 100)
    (h : s.Generate fuel d = .ok (true, t)) :
    (t.filledCount : Int) = keepCount (s.dim * s.dim) d ∧
      (t.emptyCount : Int) = s.dim * s.dim - keepCount (s.dim * s.dim) d ∧
      keepCount (s.dim * s.dim) d =
        truncToInt (roundFloat64 (roundFloat64 (roundFloat64 ((s.dim * s.dim : Int) : ℚ) * d)
          / 100)) ∧
      (∀ n : Int, d = (n : ℚ) →
        keepCount (s.dim * s.dim) d = ⌊((s.dim * s.dim : Int) : ℚ) * d / 100⌋) ∧
      (s.size = 3 → d = Easy → t.filledCount = 60) ∧
      (keepCount 81 exampleFloat = 9 ∧ ⌊(81 : ℚ) * exampleFloat / 100⌋ = 8) := by
  obtain ⟨w, l, et, wwf, wsize, hcount, _, _⟩ := Sudoku.Generate_summary hs h
  have hsq : 0 ≤ s.dim * s.dim := mul_self_nonneg _
  have hb := keepCount_bounds hsq hN hd0 hd
  have hsum := Sudoku.filled_add_empty w
  have hlen := wwf.2.1
  have hdim : w.dim = s.dim := by unfold Sudoku.dim; rw [wsize]
  rw [hdim] at hlen
  have hf : t.filledCount = w.filledCount := by rw [et]; rfl
  have he : t.emptyCount = w.emptyCount := by rw [et]; rfl
  rw [max_eq_right (by omega)] at hcount
  have hfilled : (t.filledCount : Int) = keepCount (s.dim * s.dim) d := by
    rw [hf]; omega
  refine ⟨hfilled, by rw [he]; exact hcount, rfl, ?_, ?_, by decide!, by decide!⟩
  · intro n hn
    subst hn
    have hn0 : 0 ≤ n := by exact_mod_cast hd0
    have hn1 : n ≤ 100 := by exact_mod_cast hd
    obtain ⟨e1, e2⟩ := keepCount_intCast hsq hN hn0 hn1
    rw [e1, e2]
  · intro h3 hE
    have hval : keepCount (s.dim * s.dim) d = 60 := by
      unfold Sudoku.dim
      rw [h3, hE]
      decide!
    rw [hval] at hfilled
    exact_mod_cast hfilled

theorem Generate_filled_count_witness :
    emptyBoard2.WF ∧ emptyBoard2.dim * emptyBoard2.dim * 100 < 2 ^ 53 ∧
      (0 : ℚ) ≤ Hard ∧ Hard ≤ 100 ∧
      emptyBoard2.Generate 100 Hard =
        .ok (true, finalBoard emptyBoard2 (emptyBoard2.Generate 100 Hard)) ∧
      ((finalBoard emptyBoard2 (emptyBoard2.Generate 100 Hard)).filledCount : Int)
        = keepCount (emptyBoard2.dim * emptyBoard2.dim) Hard ∧
      keepCount (emptyBoard2.dim * emptyBoard2.dim) Hard = 4 :=
  ⟨by decide!, by decide!, by decide!, by decide!,
    eq_ok_true_of_returnsTrue emptyBoard2 (by decide!),
    (Generate_filled_count emptyBoard2 100 Hard _ (by decide!) (by decide!) (by decide!)
      (by decide!) (eq_ok_true_of_returnsTrue emptyBoard2 (by decide!))).1, by decide!⟩

/-- C14. After `Generate` returns true the locked cells are exactly the clues: for every
in-range cell, `IsLocked` and `Has` both return, with the same answer, whatever the lock
flags were before the call. -/
theorem Generate_locks_clues (s : Sudoku) (fuel : Nat) (d : Difficulty) (t : Sudoku)
    (hs : s.WF) (h : s.Generate fuel d = .ok (true, t)) :
    t.dim = s.dim ∧
      ∀ r c : Int, 0 ≤ r → r < s.dim → 0 ≤ c → c < s.dim →
        ∃ b : Bool, t.IsLocked r c = .ok b ∧ t.Has r c = .ok b := by
  obtain ⟨w, l, et, wwf, wsize, _, hlen, hflags⟩ := Sudoku.Generate_summary hs h
  have hdim : w.dim = s.dim := by unfold Sudoku.dim; rw [wsize]
  have htdim : t.dim = s.dim := by rw [et]; exact hdim
  refine ⟨htdim, ?_⟩
  intro r c hr0 hr hc0 hc
  rw [← hdim] at hr hc
  obtain ⟨i0, i1, _⟩ := Sudoku.cell_index wwf hr0 hr hc0 hc
  refine ⟨w.data.getD (r * w.dim + c).toNat 0 != 0, ?_, ?_⟩
  · rw [et]
    unfold Sudoku.IsLocked
    show sliceGet l (r * w.dim + c) = _
    rw [sliceGet_eq l _ false i0 (by omega), hflags]
  · rw [et]
    unfold Sudoku.Has Sudoku.At
    show (do let v ← sliceGet w.data (r * w.dim + c); pure (v != 0)) = _
    rw [sliceGet_eq w.data _ 0 i0 i1]
    rfl

theorem Generate_locks_clues_witness :
    lockedBoard2.WF ∧ lockedBoard2.IsLocked 3 3 = .ok true ∧ lockedBoard2.Has 3 3 = .ok false ∧
      lockedBoard2.Generate 100 Medium =
        .ok (true, finalBoard lockedBoard2 (lockedBoard2.Generate 100 Medium)) ∧
      ∀ r c : Int, 0 ≤ r → r < lockedBoard2.dim → 0 ≤ c → c < lockedBoard2.dim →
        ∃ b : Bool,
          (finalBoard lockedBoard2 (lockedBoard2.Generate 100 Medium)).IsLocked r c = .ok b ∧
          (finalBoard lockedBoard2 (lockedBoard2.Generate 100 Medium)).Has r c = .ok b :=
  ⟨by decide!, by decide!, by decide!, eq_ok_true_of_returnsTrue lockedBoard2 (by decide!),
    (Generate_locks_clues lockedBoard2 100 Medium _ (by decide!)
      (eq_ok_true_of_returnsTrue lockedBoard2 (by decide!))).2⟩

/-! ## The cells written by the seed phase -/

theorem seedVisited_zero (k : Int) (start : Int → Int) (r c : Int) :
    ¬ SeedVisited k start 0 r c := by
  rintro ⟨g, row, col, g0, g1, r0, r1, c0, c1, hlt, _, _⟩
  have hk : 0 ≤ k := by omega
  have h1 := Int.mul_nonneg g0 (Int.mul_nonneg hk hk)
  have h2 := Int.mul_nonneg r0 hk
  omega

theorem seedVisited_mono {k : Int} {start : Int → Int} {n m r c : Int} (h : n ≤ m)
    (hv : SeedVisited k start n r c) : SeedVisited k start m r c := by
  obtain ⟨g, row, col, g0, g1, r0, r1, c0, c1, hlt, e1, e2⟩ := hv
  exact ⟨g, row, col, g0, g1, r0, r1, c0, c1, by omega, e1, e2⟩

theorem call_number_inj {k g row col g' row' col' : Int}
    (r0 : 0 ≤ row) (r1 : row < k) (c0 : 0 ≤ col) (c1 : col < k)
    (r0' : 0 ≤ row') (r1' : row' < k) (c0' : 0 ≤ col') (c1' : col' < k)
    (h : g * (k * k) + row * k + col = g' * (k * k) + row' * k + col') :
    g = g' ∧ row = row' ∧ col = col' := by
  have h' : (g * k + row) * k + col = (g' * k + row') * k + col' := by
    have e1 : (g * k + row) * k + col = g * (k * k) + row * k + col := by ring
    have e2 : (g' * k + row') * k + col' = g' * (k * k) + row' * k + col' := by ring
    rw [e1, e2]; exact h
  obtain ⟨hc, h2⟩ := index_inj c0 c1 c0' c1' h'
  obtain ⟨hr, hg⟩ := index_inj r0 r1 r0' r1' h2
  exact ⟨hg, hr, hc⟩

theorem seed_target_inj {k g row g' row' : Int} {a a' : Int} (hk : 0 < k)
    (r0 : 0 ≤ row) (r1 : row < k) (r0' : 0 ≤ row') (r1' : row' < k)
    (h : g * k + (row + a) % k = g' * k + (row' + a') % k) (ha : g = g' → a = a') :
    g = g' ∧ row = row' := by
  obtain ⟨hx, hg⟩ := index_inj (Int.emod_nonneg _ (by omega)) (Int.emod_lt_of_pos _ hk)
    (Int.emod_nonneg _ (by omega)) (Int.emod_lt_of_pos _ hk) h
  refine ⟨hg, ?_⟩
  rw [← ha hg, Int.add_comm row a, Int.add_comm row' a] at hx
  exact emod_add_inj r0 r1 r0' r1' hx

theorem seedVisited_not_self {k : Int} (hk : 0 < k) (start : Int → Int) {g row col : Int}
    (r0 : 0 ≤ row) (r1 : row < k) (c0 : 0 ≤ col) (c1 : col < k) :
    ¬ SeedVisited k start (g * (k * k) + row * k + col)
      (g * k + (row + start g) % k) (g * k + (col + start g) % k) := by
  rintro ⟨g', row', col', _, _, r0', r1', c0', c1', hlt, e1, e2⟩
  obtain ⟨hg, hr⟩ := seed_target_inj hk r0 r1 r0' r1' e1 (fun e => by rw [e])
  obtain ⟨_, hc⟩ := seed_target_inj hk c0 c1 c0' c1' e2 (fun e => by rw [e])
  subst hg hr hc
  omega

theorem seedVisited_succ {k : Int} (start : Int → Int) {g row col : Int}
    (g0 : 0 ≤ g) (g1 : g < k) (r0 : 0 ≤ row) (r1 : row < k) (c0 : 0 ≤ col) (c1 : col < k)
    (r c : Int) :
    SeedVisited k start (g * (k * k) + row * k + col + 1) r c ↔
      (SeedVisited k start (g * (k * k) + row * k + col) r c ∨
        (r = g * k + (row + start g) % k ∧ c = g * k + (col + start g) % k)) := by
  constructor
  · rintro ⟨g', row', col', g0', g1', r0', r1', c0', c1', hlt, e1, e2⟩
    by_cases hn : g' * (k * k) + row' * k + col' < g * (k * k) + row * k + col
    · exact Or.inl ⟨g', row', col', g0', g1', r0', r1', c0', c1', hn, e1, e2⟩
    · obtain ⟨hg, hr, hc⟩ := call_number_inj r0' r1' c0' c1' r0 r1 c0 c1
        (show g' * (k * k) + row' * k + col' = g * (k * k) + row * k + col by omega)
      subst hg hr hc
      exact Or.inr ⟨e1, e2⟩
  · rintro (h | ⟨e1, e2⟩)
    · exact seedVisited_mono (by omega) h
    · exact ⟨g, row, col, g0, g1, r0, r1, c0, c1, by omega, e1, e2⟩

theorem block_div {k g r : Int} (hk : 0 < k) (h0 : g * k ≤ r) (h1 : r < g * k + k) :
    r / k = g ∧ r % k = r - g * k := by
  have e : r = (r - g * k) + g * k := by ring
  constructor
  · rw [e, Int.add_mul_ediv_right _ _ (show k ≠ 0 by omega),
      Int.ediv_eq_zero_of_lt (by omega) (by omega)]
    omega
  · rw [e, Int.add_mul_emod_self, Int.emod_eq_of_lt (by omega) (by omega)]
    omega

theorem seedVisited_diag {k : Int} (hk : 0 < k) (start : Int → Int) {n r c : Int}
    (h : SeedVisited k start n r c) :
    ∃ g, 0 ≤ g ∧ g < k ∧ g * k ≤ r ∧ r < g * k + k ∧ g * k ≤ c ∧ c < g * k + k := by
  obtain ⟨g, row, col, g0, g1, _, _, _, _, _, e1, e2⟩ := h
  have a0 := Int.emod_nonneg (row + start g) (show k ≠ 0 by omega)
  have a1 := Int.emod_lt_of_pos (row + start g) hk
  have b0 := Int.emod_nonneg (col + start g) (show k ≠ 0 by omega)
  have b1 := Int.emod_lt_of_pos (col + start g) hk
  exact ⟨g, g0, g1, by omega, by omega, by omega, by omega⟩

theorem seedVisited_all {k : Int} (hk : 0 < k) (start : Int → Int) {g r c : Int}
    (g0 : 0 ≤ g) (g1 : g < k) (hr0 : g * k ≤ r) (hr1 : r < g * k + k)
    (hc0 : g * k ≤ c) (hc1 : c < g * k + k) :
    SeedVisited k start (k * (k * k)) r c := by
  have hback : ∀ x : Int, ((x - start g) % k + start g) % k = x % k := by
    intro x
    rw [Int.emod_add_emod]
    congr 1
    ring
  have hx : ∀ x : Int, g * k ≤ x → x < g * k + k →
      x = g * k + (((x - g * k) - start g) % k + start g) % k := by
    intro x h0 h1
    rw [hback, Int.emod_eq_of_lt (by omega) (by omega)]
    ring
  have a0 := Int.emod_nonneg ((r - g * k) - start g) (show k ≠ 0 by omega)
  have a1 := Int.emod_lt_of_pos ((r - g * k) - start g) hk
  have b0 := Int.emod_nonneg ((c - g * k) - start g) (show k ≠ 0 by omega)
  have b1 := Int.emod_lt_of_pos ((c - g * k) - start g) hk
  refine ⟨g, ((r - g * k) - start g) % k, ((c - g * k) - start g) % k, g0, g1, a0, a1, b0, b1,
    ?_, hx r hr0 hr1, hx c hc0 hc1⟩
  have hkk : 0 < k * k := Int.mul_pos hk hk
  have h1 : g * (k * k) ≤ (k - 1) * (k * k) :=
    Int.mul_le_mul_of_nonneg_right (by omega) (by omega)
  have h2 : ((r - g * k) - start g) % k * k ≤ (k - 1) * k :=
    Int.mul_le_mul_of_nonneg_right (by omega) (by omega)
  have e1 : (k - 1) * (k * k) = k * (k * k) - k * k := by ring
  have e2 : (k - 1) * k = k * k - k := by ring
  omega

theorem SeedInv2.reseed {k : Int} {rand : Rand} {locked : List Bool} {gen : Bool}
    {G : Int → Int → Int} {start : Int → Int} {n : Int} {s : Sudoku}
    (h : SeedInv2 k rand locked gen G start n s) (rand' : Rand) :
    SeedInv2 k rand' locked gen G start n { s with rand := rand' } :=
  ⟨h.base.withRand rand', h.filled⟩

theorem SeedInv2.at {k : Int} {rand : Rand} {locked : List Bool} {gen : Bool}
    {G : Int → Int → Int} {start : Int → Int} {n m : Int} {s : Sudoku}
    (h : SeedInv2 k rand locked gen G start n s) (e : n = m) :
    SeedInv2 k rand locked gen G start m s := e ▸ h

/-- One `Set` call of the seed phase: the cell it writes is empty, the call returns true,
and the invariant holds with one more cell written. -/
theorem seedCell_step {k : Int} {rand : Rand} {locked : List Bool} {gen : Bool}
    {G : Int → Int → Int} (hG : ValidGrid k G) {start : Int → Int} {s : Sudoku}
    {g val row col : Int} (g0 : 0 ≤ g) (g1 : g < k) (r0 : 0 ≤ row) (r1 : row < k)
    (c0 : 0 ≤ col) (c1 : col < k) (hstart : 0 ≤ start g) (hval : 0 ≤ val)
    (hinv : SeedInv2 k rand locked gen G start (g * (k * k) + row * k + col) s)
    (hgrid : G (g * k + (row + start g) % k) (g * k + (col + start g) % k) =
      (val + start g + (row * k + col)) % (k * k) + 1) :
    ∃ t, s.Set (g * k + Int.tmod (row + start g) k) (g * k + Int.tmod (col + start g) k)
        (Int.tmod (val + start g + (row * k + col)) (k * k) + 1) = .ok (true, t) ∧
      seedCell g (start g) val row col (row * k + col, s) = .ok (row * k + col + 1, t) ∧
      SeedInv2 k rand locked gen G start (g * (k * k) + row * k + col + 1) t := by
  have hk : 0 < k := by omega
  have hb := hinv.base
  have hdim := hb.dim_eq
  have hsz := hb.size_eq
  have hi0 : 0 ≤ row * k + col := by
    have := Int.mul_nonneg r0 (show 0 ≤ k by omega)
    omega
  have e1 : Int.tmod (row + start g) k = (row + start g) % k :=
    Int.tmod_eq_emod (by omega) (by omega)
  have e2 : Int.tmod (col + start g) k = (col + start g) % k :=
    Int.tmod_eq_emod (by omega) (by omega)
  obtain ⟨e3, v1, v2⟩ := candidate_bounds (Int.mul_pos hk hk)
    (show 0 ≤ val + start g + (row * k + col) by omega)
  have p0 := Int.emod_nonneg (row + start g) (show k ≠ 0 by omega)
  have p1 := Int.emod_lt_of_pos (row + start g) hk
  have q0 := Int.emod_nonneg (col + start g) (show k ≠ 0 by omega)
  have q1 := Int.emod_lt_of_pos (col + start g) hk
  have hR := index_bounds p0 p1 g0 g1
  have hC := index_bounds q0 q1 g0 g1
  have hempty : s.cell (g * k + (row + start g) % k) (g * k + (col + start g) % k) = 0 := by
    by_contra hne
    exact seedVisited_not_self hk start r0 r1 c0 c1
      ((hinv.filled _ hR.1 hR.2 _ hC.1 hC.2).mp hne)
  have v2' : (val + start g + (row * k + col)) % (k * k) + 1 ≤ s.dim := by rw [hdim]; exact v2
  have hR' := hR
  have hC' := hC
  rw [← hdim] at hR hC
  have hG' : ValidGrid s.size G := by rw [hsz]; exact hG
  have hfree := Sudoku.not_blocked_of_grid hb.wf hb.consistent hG' hb.ext hR.1 hR.2 hC.1 hC.2
    hempty
  rw [hgrid] at hfree
  have hset := Sudoku.Set_eq hb.wf hR.1 hR.2 hC.1 hC.2 v1 v2' (by rw [hempty])
    (by rw [hempty]; omega)
  rw [hfree, hempty] at hset
  simp only [Bool.false_eq_true, if_false, if_true] at hset
  have hcell : seedCell g (start g) val row col (row * k + col, s) =
      .ok (row * k + col + 1, s.place (g * k + (row + start g) % k)
        (g * k + (col + start g) % k) ((val + start g + (row * k + col)) % (k * k) + 1)) := by
    unfold seedCell
    simp only [hsz, e1, e2, e3, hset, bind, Except.bind, pure, Except.pure]
  obtain ⟨t, et, ht⟩ := seedCell_spec hb g0 g1 r0 c0 hstart hval hi0 hgrid
  rw [hcell] at et
  simp only [Except.ok.injEq, Prod.mk.injEq, true_and] at et
  subst et
  refine ⟨_, by rw [e1, e2, e3]; exact hset, hcell, ht, ?_⟩
  intro r a a' c d d'
  rw [← hdim] at a' d'
  rw [Sudoku.cell_place hb.wf _ hR.1 hR.2 hC.1 hC.2 a a' d d',
    seedVisited_succ start g0 g1 r0 r1 c0 c1 r c]
  rw [hdim] at a' d'
  by_cases hsame : r = g * k + (row + start g) % k ∧ c = g * k + (col + start g) % k
  · rw [if_pos hsame]
    constructor
    · intro _; exact Or.inr hsame
    · intro _; omega
  · rw [if_neg hsame]
    constructor
    · intro h; exact Or.inl ((hinv.filled r a a' c d d').mp h)
    · rintro (h | h)
      · exact (hinv.filled r a a' c d d').mpr h
      · exact absurd h hsame

theorem seedDraws_of_rand {k : Int} (hk : 0 < k) (rand0 : Rand) :
    SeedDraws k (seedGrid k (fun g => seedVal rand0 g + seedStart rand0 g) (seedStart rand0))
      (seedStart rand0) (seedVal rand0) :=
  { pos := hk
    valid := seedGrid_valid _ _ _ hk
    start_nonneg := fun g => by unfold seedStart; omega
    val_nonneg := fun g => by unfold seedVal; omega
    diag := fun g row col r0 r1 c0 c1 =>
      seedGrid_diag hk (fun g => seedVal rand0 g + seedStart rand0 g) (seedStart rand0)
        g row col r0 r1 c0 c1 }

/-- The first `m` iterations of the innermost seed loop. -/
theorem seedInner_spec {k : Int} {G : Int → Int → Int} {start val : Int → Int}
    (hS : SeedDraws k G start val) {rand : Rand} {locked : List Bool} {gen : Bool}
    {g row : Int} (g0 : 0 ≤ g) (g1 : g < k) (r0 : 0 ≤ row) (r1 : row < k)
    (m : Nat) (hm : (m : Int) ≤ k) {s : Sudoku}
    (hinv : SeedInv2 k rand locked gen G start (g * (k * k) + row * k) s) :
    ∃ t, forLoop (seedCell g (start g) (val g) row) m 0 (row * k, s) = .ok (row * k + m, t) ∧
      SeedInv2 k rand locked gen G start (g * (k * k) + row * k + m) t := by
  have hloop := forLoop_inv (seedCell g (start g) (val g) row)
    (fun col (st : Int × Sudoku) => st.1 = row * k + col ∧
      SeedInv2 k rand locked gen G start (g * (k * k) + row * k + col) st.2)
    m 0 (row * k, s)
    (by
      intro col st hcol0 hcol hP
      obtain ⟨i, u⟩ := st
      obtain ⟨hi, hu⟩ := hP
      simp only at hi hu
      subst hi
      obtain ⟨t, _, e, ht⟩ := seedCell_step hS.valid g0 g1 r0 r1 hcol0 (by omega)
        (hS.start_nonneg g) (hS.val_nonneg g) hu (hS.diag g row col r0 r1 hcol0 (by omega))
      exact ⟨(row * k + col + 1, t), e, by simp only; ring, ht.at (by ring)⟩)
    ⟨by simp, hinv.at (by ring)⟩
  obtain ⟨⟨i, t⟩, e, hi, ht⟩ := hloop
  simp only at hi ht
  refine ⟨t, ?_, ht.at (by ring)⟩
  rw [e, hi]
  simp

/-- The first `m` iterations of the loop over the rows of a region. -/
theorem seedMiddle_spec {k : Int} {G : Int → Int → Int} {start val : Int → Int}
    (hS : SeedDraws k G start val) {rand : Rand} {locked : List Bool} {gen : Bool}
    {g : Int} (g0 : 0 ≤ g) (g1 : g < k) (m : Nat) (hm : (m : Int) ≤ k) {s : Sudoku}
    (hinv : SeedInv2 k rand locked gen G start (g * (k * k)) s) :
    ∃ t, forLoop (fun row st => forLoop (seedCell g (start g) (val g) row) k.toNat 0 st)
        m 0 ((0 : Int), s) = .ok ((m : Int) * k, t) ∧
      SeedInv2 k rand locked gen G start (g * (k * k) + m * k) t := by
  have hk := hS.pos
  have hkn : ((k.toNat : Nat) : Int) = k := Int.toNat_of_nonneg (by omega)
  have hloop := forLoop_inv
    (fun row st => forLoop (seedCell g (start g) (val g) row) k.toNat 0 st)
    (fun row (st : Int × Sudoku) => st.1 = row * k ∧
      SeedInv2 k rand locked gen G start (g * (k * k) + row * k) st.2)
    m 0 ((0 : Int), s)
    (by
      intro row st hrow0 hrow hP
      obtain ⟨i, u⟩ := st
      obtain ⟨hi, hu⟩ := hP
      simp only at hi hu
      subst hi
      obtain ⟨t, e, ht⟩ := seedInner_spec hS g0 g1 hrow0 (by omega) k.toNat (by omega) hu
      rw [hkn] at e ht
      exact ⟨(row * k + k, t), e, by simp only; ring, ht.at (by ring)⟩)
    ⟨by simp, hinv.at (by ring)⟩
  obtain ⟨⟨i, t⟩, e, hi, ht⟩ := hloop
  simp only at hi ht
  refine ⟨t, ?_, ht.at (by ring)⟩
  rw [e, hi]
  simp

/-- One iteration of the loop over the diagonal regions. -/
theorem seedRegion_step {k : Int} (hk : 0 < k) (rand0 : Rand) {locked : List Bool} {gen : Bool}
    {s : Sudoku} {g : Int} (g0 : 0 ≤ g) (g1 : g < k)
    (hinv : SeedInv2 k ⟨rand0.draws, rand0.pos + 2 * g.toNat⟩ locked gen
      (seedGrid k (fun g => seedVal rand0 g + seedStart rand0 g) (seedStart rand0))
      (seedStart rand0) (g * (k * k)) s) :
    ∃ t, seedRegion g s = .ok t ∧
      SeedInv2 k ⟨rand0.draws, rand0.pos + 2 * (g + 1).toNat⟩ locked gen
        (seedGrid k (fun g => seedVal rand0 g + seedStart rand0 g) (seedStart rand0))
        (seedStart rand0) ((g + 1) * (k * k)) t := by
  have hS := seedDraws_of_rand hk rand0
  have hrand := hinv.base.rand_eq
  have hsz := hinv.base.size_eq
  have hkn : ((k.toNat : Nat) : Int) = k := Int.toNat_of_nonneg (by omega)
  have hpos : rand0.pos + 2 * (g + 1).toNat = rand0.pos + 2 * g.toNat + 1 + 1 := by omega
  have hstart : ((rand0.draws (rand0.pos + 2 * g.toNat) : Nat) : Int) % 1000 + 1 =
      seedStart rand0 g := rfl
  have hval : ((rand0.draws (rand0.pos + 2 * g.toNat + 1) : Nat) : Int) % 1000 + 1 =
      seedVal rand0 g := rfl
  obtain ⟨t, e, ht⟩ := seedMiddle_spec hS g0 g1 k.toNat (by omega)
    (hinv.reseed ⟨rand0.draws, rand0.pos + 2 * (g + 1).toNat⟩)
  rw [hkn] at e ht
  refine ⟨t, ?_, ht.at (by ring)⟩
  unfold seedRegion
  rw [hrand, Rand.Intn_eq _ (by decide)]
  simp only [bind, Except.bind, pure, Except.pure]
  rw [Rand.Intn_eq _ (by decide)]
  simp only [hstart, hval]
  rw [show s.size.toNat = k.toNat from by rw [hsz], ← hpos, e]

/-- The first `m` iterations of the loop over the diagonal regions. -/
theorem seedOuter_spec {k : Int} (hk : 0 < k) (rand0 : Rand) {locked : List Bool} {gen : Bool}
    (m : Nat) (hm : (m : Int) ≤ k) {s : Sudoku}
    (hinv : SeedInv2 k ⟨rand0.draws, rand0.pos⟩ locked gen
      (seedGrid k (fun g => seedVal rand0 g + seedStart rand0 g) (seedStart rand0))
      (seedStart rand0) 0 s) :
    ∃ t, forLoop seedRegion m 0 s = .ok t ∧
      SeedInv2 k ⟨rand0.draws, rand0.pos + 2 * m⟩ locked gen
        (seedGrid k (fun g => seedVal rand0 g + seedStart rand0 g) (seedStart rand0))
        (seedStart rand0) (m * (k * k)) t := by
  have hloop := forLoop_inv seedRegion
    (fun g t => SeedInv2 k ⟨rand0.draws, rand0.pos + 2 * g.toNat⟩ locked gen
      (seedGrid k (fun g => seedVal rand0 g + seedStart rand0 g) (seedStart rand0))
      (seedStart rand0) (g * (k * k)) t)
    m 0 s
    (by
      intro g t g0 g1 hP
      exact seedRegion_step hk rand0 g0 (by omega) hP)
    (by simpa using hinv)
  obtain ⟨t, e, ht⟩ := hloop
  refine ⟨t, e, ?_⟩
  have h1 : (0 + (m : Int)).toNat = m := by omega
  have h2 : (0 + (m : Int)) * (k * k) = m * (k * k) := by ring
  rw [h1, h2] at ht
  exact ht

/-- A counted loop, split at its iteration number `m`. -/
theorem forLoop_split {σ : Type} (body : Int → σ → Exec σ) (m : Nat) :
    ∀ (n : Nat) (lo : Int) (st : σ), m < n →
      forLoop body n lo st =
        (forLoop body m lo st).bind (fun st1 =>
          (body (lo + m) st1).bind (forLoop body (n - m - 1) (lo + m + 1))) := by
  induction m with
  | zero =>
    intro n lo st hn
    obtain ⟨n, rfl⟩ : ∃ j, n = j + 1 := ⟨n - 1, by omega⟩
    simp only [forLoop, bind, Except.bind, Nat.cast_zero, Int.add_zero, Nat.add_sub_cancel,
      Nat.sub_zero]
  | succ m ih =>
    intro n lo st hn
    obtain ⟨n, rfl⟩ : ∃ j, n = j + 1 := ⟨n - 1, by omega⟩
    simp only [forLoop, bind]
    cases body lo st with
    | error e => rfl
    | ok st1 =>
      simp only [Except.bind]
      rw [ih n (lo + 1) st1 (by omega)]
      have e1 : lo + 1 + (m : Int) = lo + ((m + 1 : Nat) : Int) := by push_cast; ring
      have e2 : n - m - 1 = n + 1 - (m + 1) - 1 := by omega
      rw [e1, e2]
      rfl

/-- The board the seed phase starts its loops on: the cleared board, nothing written yet. -/
theorem seedStart_inv {s : Sudoku} (h : s.WF) :
    ∃ u, ({ s with generating := true } : Sudoku).Clear = .ok u ∧ u.size = s.size ∧
      SeedInv2 s.size ⟨s.rand.draws, s.rand.pos⟩ (List.replicate s.locked.length false) true
        (seedGrid s.size (fun g => seedVal s.rand g + seedStart s.rand g) (seedStart s.rand))
        (seedStart s.rand) 0 u := by
  obtain ⟨u, eu, uwf, ucons, uext, usize, urand, ugen, udata, ulocked, _⟩ :=
    Sudoku.Clear_spec (s := { s with generating := true }) h
  refine ⟨u, eu, usize, ⟨⟨uwf, ucons, usize, urand, ulocked, ugen, uext _⟩, ?_⟩⟩
  intro r r0 r1 c c0 c1
  have hdim : u.dim = s.size * s.size := by unfold Sudoku.dim; rw [usize]
  rw [← hdim] at r1 c1
  have hz : u.cell r c = 0 := by
    rw [Sudoku.cell_eq uwf r0 r1 c0 c1, udata, List.getD_eq_getElem?_getD]
    by_cases hj : (r * u.dim + c).toNat < ({ s with generating := true } : Sudoku).data.length
    · simp [List.getElem?_replicate, hj]
    · simp [List.getElem?_replicate, hj]
  constructor
  · intro hne; exact absurd hz hne
  · intro hv; exact absurd hv (seedVisited_zero _ _ _ _)

/-- The seed phase as a whole: it returns, and its board satisfies the invariant with all
`k * k * k` cells written. -/
theorem seedPhase_filled {s : Sudoku} (h : s.WF) :
    ∃ t, seedPhase s = .ok t ∧
      SeedInv2 s.size ⟨s.rand.draws, s.rand.pos + 2 * s.size.toNat⟩
        (List.replicate s.locked.length false) true
        (seedGrid s.size (fun g => seedVal s.rand g + seedStart s.rand g) (seedStart s.rand))
        (seedStart s.rand) (s.size * (s.size * s.size)) t := by
  have hk := h.1
  have hkn : ((s.size.toNat : Nat) : Int) = s.size := Int.toNat_of_nonneg (by omega)
  obtain ⟨u, eu, usize, hu⟩ := seedStart_inv h
  obtain ⟨t, et, ht⟩ := seedOuter_spec hk s.rand s.size.toNat (by omega) hu
  rw [hkn] at ht
  refine ⟨t, ?_, ht⟩
  unfold seedPhase
  simp only [bind, Except.bind]
  rw [eu]
  simp only [usize]
  exact et

/-- The state of the seed phase at its `Set` call for position `(row, col)` of region
`region`: the draws, the counter and the board `u` there, and the whole phase is that `Set`
call on `u` followed by the rest of the loops. -/
theorem seedPrefix_spec {s : Sudoku} (h : s.WF) (region row col : Nat)
    (hg : (region : Int) < s.size) (hr : (row : Int) < s.size) (hc : (col : Int) < s.size) :
    ∃ u, seedPrefix s region row col =
        .ok (seedStart s.rand region, seedVal s.rand region, (row : Int) * s.size + col, u) ∧
      SeedInv2 s.size ⟨s.rand.draws, s.rand.pos + 2 * (region + 1)⟩
        (List.replicate s.locked.length false) true
        (seedGrid s.size (fun g => seedVal s.rand g + seedStart s.rand g) (seedStart s.rand))
        (seedStart s.rand) ((region : Int) * (s.size * s.size) + row * s.size + col) u ∧
      seedPhase s =
        (seedCell region (seedStart s.rand region) (seedVal s.rand region) row col
          ((row : Int) * s.size + col, u)).bind
          (seedSuffix s.size region row col (seedStart s.rand region) (seedVal s.rand region)) := by
  have hk := h.1
  have hS := seedDraws_of_rand hk s.rand
  obtain ⟨u, eu, usize, hu⟩ := seedStart_inv h
  obtain ⟨v, ev, hv⟩ := seedOuter_spec hk s.rand region (by omega) hu
  have hrand := hv.base.rand_eq
  have hsz := hv.base.size_eq
  have hstart : ((s.rand.draws (s.rand.pos + 2 * region) : Nat) : Int) % 1000 + 1 =
      seedStart s.rand region := by unfold seedStart; simp
  have hval : ((s.rand.draws (s.rand.pos + 2 * region + 1) : Nat) : Int) % 1000 + 1 =
      seedVal s.rand region := by unfold seedVal; simp
  have hv2 := hv.reseed ⟨s.rand.draws, s.rand.pos + 2 * (region + 1)⟩
  obtain ⟨w, ew, hw⟩ := seedMiddle_spec hS (Int.ofNat_nonneg region) hg row (by omega) hv2
  obtain ⟨x, ex, hx⟩ := seedInner_spec hS (Int.ofNat_nonneg region) hg (Int.ofNat_nonneg row) hr
    col (by omega) hw
  have hpos : s.rand.pos + 2 * region + 1 + 1 = s.rand.pos + 2 * (region + 1) := by omega
  refine ⟨x, ?_, hx, ?_⟩
  · unfold seedPrefix
    simp only [bind, Except.bind, pure, Except.pure]
    rw [eu]
    simp only [usize]
    rw [ev]
    simp only [hrand]
    rw [Rand.Intn_eq _ (by decide)]
    simp only
    rw [Rand.Intn_eq _ (by decide)]
    simp only [hstart, hval]
    rw [show v.size.toNat = s.size.toNat from by rw [hsz], hpos, ew]
    simp only
    rw [ex]
  · have hphase : seedPhase s = forLoop seedRegion s.size.toNat 0 u := by
      unfold seedPhase
      simp only [bind, Except.bind]
      rw [eu]
      simp only [usize]
    rw [hphase, forLoop_split seedRegion region _ _ _ (by omega), ev]
    simp only [Except.bind, Int.zero_add]
    unfold seedRegion
    rw [hrand, Rand.Intn_eq _ (by decide)]
    simp only [bind, Except.bind, pure, Except.pure]
    rw [Rand.Intn_eq _ (by decide)]
    simp only [hstart, hval]
    rw [show v.size.toNat = s.size.toNat from by rw [hsz], hpos,
      forLoop_split _ row _ _ _ (by omega), ew]
    simp only [Except.bind, Int.zero_add]
    rw [forLoop_split _ col _ _ _ (by omega), ex]
    simp only [Except.bind, Int.zero_add]
    unfold seedSuffix
    simp only [bind, Except.bind, pure, Except.pure]
    generalize seedCell (region : Int) (seedStart s.rand region) (seedVal s.rand region)
      (row : Int) (col : Int) ((row : Int) * s.size + col, x) = A
    cases A with
    | error e => rfl
    | ok st1 =>
      simp only
      generalize forLoop (seedCell (region : Int) (seedStart s.rand region)
        (seedVal s.rand region) (row : Int)) (s.size.toNat - col - 1) ((col : Int) + 1) st1 = B
      cases B with
      | error e => rfl
      | ok st2 =>
        simp only
        generalize forLoop (fun row st => forLoop (seedCell (region : Int)
          (seedStart s.rand region) (seedVal s.rand region) row) s.size.toNat 0 st)
          (s.size.toNat - row - 1) ((row : Int) + 1) st2 = C
        cases C with
        | error e => rfl
        | ok st3 => rfl

theorem block_range {k g r : Int} (g0 : 0 ≤ g) (g1 : g < k) (h0 : g * k ≤ r)
    (h1 : r < g * k + k) : 0 ≤ r ∧ r < k * k := by
  have hk : 0 ≤ k := by omega
  have a := Int.mul_nonneg g0 hk
  have b : (g + 1) * k ≤ k * k := Int.mul_le_mul_of_nonneg_right (by omega) hk
  have e : (g + 1) * k = g * k + k := by ring
  omega

/-- C17. The seed phase of `Generate` cannot fail, whatever the random draws: at each of
its `Set` calls, for position `(row, col)` of the loop over diagonal region `region`, the
run has reached a board `u` on which that call returns true, and the phase continues from
the board the call leaves; and the phase returns a board on which every diagonal region
(rows and columns `g * k .. g * k + k - 1`) holds every symbol `1..N` exactly once while
every cell outside the diagonal regions is empty. -/
theorem seed_phase_cannot_fail (s : Sudoku) (hs : s.WF) :
    (∀ region row col : Nat, (region : Int) < s.size → (row : Int) < s.size →
      (col : Int) < s.size →
      ∃ u t : Sudoku,
        seedPrefix s region row col = .ok (seedStart s.rand region, seedVal s.rand region,
          (row : Int) * s.size + col, u) ∧
        u.size = s.size ∧
        u.Set (region * s.size + Int.tmod (row + seedStart s.rand region) s.size)
          (region * s.size + Int.tmod (col + seedStart s.rand region) s.size)
          (Int.tmod (seedVal s.rand region + seedStart s.rand region +
            ((row : Int) * s.size + col)) (s.size * s.size) + 1) = .ok (true, t) ∧
        seedCell region (seedStart s.rand region) (seedVal s.rand region) row col
          ((row : Int) * s.size + col, u) = .ok ((row : Int) * s.size + col + 1, t) ∧
        seedPhase s = seedSuffix s.size region row col (seedStart s.rand region)
          (seedVal s.rand region) ((row : Int) * s.size + col + 1, t)) ∧
    ∃ t : Sudoku, seedPhase s = .ok t ∧ t.size = s.size ∧
      (∀ g : Int, 0 ≤ g → g < s.size → ∀ v : Int, 1 ≤ v → v ≤ s.dim →
        ∃ r c : Int, g * s.size ≤ r ∧ r < g * s.size + s.size ∧
          g * s.size ≤ c ∧ c < g * s.size + s.size ∧ t.cell r c = v ∧
          ∀ r' c' : Int, g * s.size ≤ r' → r' < g * s.size + s.size →
            g * s.size ≤ c' → c' < g * s.size + s.size → t.cell r' c' = v →
            r' = r ∧ c' = c) ∧
      (∀ r c : Int, 0 ≤ r → r < s.dim → 0 ≤ c → c < s.dim →
        (∀ g : Int, ¬ (g * s.size ≤ r ∧ r < g * s.size + s.size ∧
          g * s.size ≤ c ∧ c < g * s.size + s.size)) → t.cell r c = 0) := by
  have hk := hs.1
  have hS := seedDraws_of_rand hk s.rand
  constructor
  · intro region row col hg hr hc
    obtain ⟨u, eu, hu, hphase⟩ := seedPrefix_spec hs region row col hg hr hc
    obtain ⟨t, hset, hcell, _⟩ := seedCell_step hS.valid (Int.ofNat_nonneg region) hg
      (Int.ofNat_nonneg row) hr (Int.ofNat_nonneg col) hc (hS.start_nonneg _)
      (hS.val_nonneg _) hu (hS.diag _ _ _ (Int.ofNat_nonneg row) hr (Int.ofNat_nonneg col) hc)
    refine ⟨u, t, eu, hu.base.size_eq, hset, hcell, ?_⟩
    rw [hphase, hcell]
    rfl
  · obtain ⟨t, et, ht⟩ := seedPhase_filled hs
    have tsize := ht.base.size_eq
    have twf := ht.base.wf
    have tdim : t.dim = s.size * s.size := ht.base.dim_eq
    have sdim : s.dim = s.size * s.size := rfl
    refine ⟨t, et, tsize, ?_, ?_⟩
    · intro g g0 g1 v v1 v2
      rw [sdim] at v2
      have hkk : 0 < s.size * s.size := Int.mul_pos hk hk
      obtain ⟨j, hj, hjv⟩ := candidate_covers (i := seedVal s.rand g + seedStart s.rand g)
        hkk v1 v2
      have hjlt : (j : Int) < s.size * s.size := by omega
      obtain ⟨p0, p1, q0, q1, hsplit⟩ := split_index hk (Int.ofNat_nonneg j) hjlt
      have a0 := Int.emod_nonneg ((j : Int) / s.size + seedStart s.rand g)
        (show s.size ≠ 0 by omega)
      have a1 := Int.emod_lt_of_pos ((j : Int) / s.size + seedStart s.rand g) hk
      have b0 := Int.emod_nonneg ((j : Int) % s.size + seedStart s.rand g)
        (show s.size ≠ 0 by omega)
      have b1 := Int.emod_lt_of_pos ((j : Int) % s.size + seedStart s.rand g) hk
      have hR := block_range g0 g1
        (show g * s.size ≤ g * s.size + ((j : Int) / s.size + seedStart s.rand g) % s.size
          by omega) (by omega)
      have hC := block_range g0 g1
        (show g * s.size ≤ g * s.size + ((j : Int) % s.size + seedStart s.rand g) % s.size
          by omega) (by omega)
      have hvis := seedVisited_all hk (seedStart s.rand) g0 g1
        (show g * s.size ≤ g * s.size + ((j : Int) / s.size + seedStart s.rand g) % s.size
          by omega) (by omega)
        (show g * s.size ≤ g * s.size + ((j : Int) % s.size + seedStart s.rand g) % s.size
          by omega) (by omega)
      have hne := (ht.filled _ hR.1 hR.2 _ hC.1 hC.2).mpr hvis
      have hcellv : t.cell (g * s.size + ((j : Int) / s.size + seedStart s.rand g) % s.size)
          (g * s.size + ((j : Int) % s.size + seedStart s.rand g) % s.size) = v := by
        rw [← ht.base.ext _ hR.1 (by rw [tdim]; exact hR.2) _ hC.1 (by rw [tdim]; exact hC.2)
          hne, hS.diag g _ _ p0 p1 q0 q1, ← hjv]
        congr 2
        have : (j : Int) / s.size * s.size + (j : Int) % s.size = j := by
          rw [Int.mul_comm]; exact Int.ediv_add_emod _ _
        rw [this]
      refine ⟨_, _, by omega, by omega, by omega, by omega, hcellv, ?_⟩
      intro r' c' hr0 hr1 hc0 hc1 hv'
      have hR' := block_range g0 g1 hr0 hr1
      have hC' := block_range g0 g1 hc0 hc1
      have hreg : t.regionOf (g * s.size + ((j : Int) / s.size + seedStart s.rand g) % s.size)
          (g * s.size + ((j : Int) % s.size + seedStart s.rand g) % s.size) =
          t.regionOf r' c' := by
        rw [Sudoku.regionOf_eq twf, Sudoku.regionOf_eq twf, tsize,
          regionIndex_eq_iff hk hR.1 hR.2 hC.1 hC.2 hR'.1 hR'.2 hC'.1 hC'.2,
          (block_div hk hr0 hr1).1, (block_div hk hc0 hc1).1,
          (block_div hk (show g * s.size ≤ g * s.size +
            ((j : Int) / s.size + seedStart s.rand g) % s.size by omega) (by omega)).1,
          (block_div hk (show g * s.size ≤ g * s.size +
            ((j : Int) % s.size + seedStart s.rand g) % s.size by omega) (by omega)).1]
        exact ⟨rfl, rfl⟩
      have hdist := ht.base.consistent.2.2.2.2.2.2 _ hR.1 (by rw [tdim]; exact hR.2) _ hC.1
        (by rw [tdim]; exact hC.2) r' hR'.1 (by rw [tdim]; exact hR'.2) c' hC'.1
        (by rw [tdim]; exact hC'.2) hne hreg (by rw [hcellv, hv'])
      exact ⟨hdist.1.symm, hdist.2.symm⟩
    · intro r c r0 r1 c0 c1 hout
      rw [sdim] at r1 c1
      by_contra hne
      obtain ⟨g, _, _, h1, h2, h3, h4⟩ :=
        seedVisited_diag hk (seedStart s.rand) ((ht.filled r r0 r1 c c0 c1).mp hne)
      exact hout g ⟨h1, h2, h3, h4⟩

theorem seed_phase_cannot_fail_witness :
    stuckBoard2.WF ∧ faulted (seedPhase stuckBoard2) = false ∧
      (boardOf stuckBoard2 (seedPhase stuckBoard2)).data =
        [3, 2, 0, 0, 1, 4, 0, 0, 0, 0, 1, 4, 0, 0, 3, 2] ∧
      ∃ u t : Sudoku, seedPrefix stuckBoard2 1 0 1 = .ok (391, 2, 1, u) ∧
        u.Set 3 2 3 = .ok (true, t) ∧
        seedPhase stuckBoard2 = seedSuffix 2 1 0 1 391 2 (2, t) := by
  refine ⟨by decide!, by decide!, by decide!, ?_⟩
  obtain ⟨u, t, e1, _, e2, _, e3⟩ :=
    (seed_phase_cannot_fail stuckBoard2 (by decide!)).1 1 0 1 (by decide) (by decide)
      (by decide)
  exact ⟨u, t, e1, e2, e3⟩

/-! ## The recursive calls of a level of Solve -/

/-- A level of `Solve` passes to its recursive call only boards with one empty cell fewer:
replacing the recursive call by any function that agrees with it on those boards leaves the
level unchanged. -/
theorem solveLoop_calls (solve solve' : Sudoku → Exec (Bool × Sudoku)) (m : Nat)
    (hpost : ∀ u b t, u.WF → solve u = .ok (b, t) → SolvePost u b t)
    (hagree : ∀ u : Sudoku, u.WF → u.emptyCount + 1 = m → solve' u = solve u)
    {row col : Int} (n : Nat) :
    ∀ (i : Int) (s : Sudoku), 0 ≤ i → s.WF → s.emptyCount = m →
      0 ≤ row → row < s.dim → 0 ≤ col → col < s.dim → s.cell row col = 0 →
      solveLoop solve' row col n i s = solveLoop solve row col n i s := by
  induction n with
  | zero =>
    intro i s _ _ _ _ _ _ _ _
    rfl
  | succ n ih =>
    intro i s hi h hcount hr0 hr hc0 hc hcell
    obtain ⟨_, v1, v2⟩ := candidate_bounds (Sudoku.WF.dim_pos h) hi
    rw [solveLoop_step h hr0 hr hc0 hc hcell solve n i hi,
      solveLoop_step h hr0 hr hc0 hc hcell solve' n i hi]
    cases hb : s.blocked row col (i % s.dim + 1)
    · simp only [Bool.false_eq_true, if_false]
      have hu := Sudoku.place_WF h row col (i % s.dim + 1)
      have hcnt := Sudoku.emptyCount_place h hr0 hr hc0 hc (show i % s.dim + 1 ≠ 0 by omega) hcell
      rw [hagree _ hu (by omega)]
      cases hsol : solve (s.place row col (i % s.dim + 1)) with
      | error e => rfl
      | ok p =>
        obtain ⟨b1, t1⟩ := p
        have hp := hpost _ _ _ hu hsol
        cases b1
        · simp only
          obtain ⟨d1, d2, d3, d4⟩ := hp.restored rfl
          have ht1 : t1 = ({ s with rand := t1.rand } : Sudoku).place row col (i % s.dim + 1) :=
            Sudoku.eq_withRand hp.size_eq d1 hp.locked_eq d2 d3 d4 hp.generating_eq
          have hs' : ({ s with rand := t1.rand } : Sudoku).WF := h
          have herase : t1.erase row col = { s with rand := t1.rand } := by
            rw [ht1]
            exact Sudoku.erase_place hs' hr0 hr hc0 hc v1 v2 hcell hb
          have hcell1 : t1.cell row col = i % s.dim + 1 := by
            rw [ht1]
            rw [Sudoku.cell_place hs' _ hr0 hr hc0 hc hr0 hr hc0 hc, if_pos (And.intro rfl rfl)]
          have hdim1 : t1.dim = s.dim := by unfold Sudoku.dim; rw [hp.size_eq]; rfl
          have hrem : t1.Remove row col = .ok (t1.erase row col) :=
            Sudoku.Remove_eq hp.wf hr0 (by rw [hdim1]; exact hr) hc0 (by rw [hdim1]; exact hc)
              (by rw [hcell1]; exact v1) (by rw [hcell1, hdim1]; exact v2)
          rw [hrem, herase]
          exact ih (i + 1) _ (by omega) hs' hcount hr0 hr hc0 hc hcell
        · rfl
    · simp only [if_true]
      exact ih (i + 1) s (by omega) h hcount hr0 hr hc0 hc hcell

/-- The candidates of a level of `Solve` that starts at `start`: every symbol of `1..N` is
the candidate of exactly one of the `N` iterations. -/
theorem candidate_unique {d start v : Int} (hd : 0 < d) (hs : 0 ≤ start) (h1 : 1 ≤ v)
    (h2 : v ≤ d) :
    ∃ j : Nat, (j : Int) < d ∧ Int.tmod (start + j) d + 1 = v ∧
      ∀ j' : Nat, (j' : Int) < d → Int.tmod (start + j') d + 1 = v → j' = j := by
  obtain ⟨j, hj, hjv⟩ := candidate_covers (i := start) hd h1 h2
  have e : ∀ x : Nat, Int.tmod (start + x) d = (start + x) % d := fun x =>
    Int.tmod_eq_emod (by omega) (by omega)
  refine ⟨j, by omega, by rw [e, hjv], ?_⟩
  intro j' hj' hv'
  rw [e] at hv'
  have := emod_add_inj (Int.ofNat_nonneg j') hj' (Int.ofNat_nonneg j) (by omega)
    (show (start + (j' : Int)) % d = (start + (j : Int)) % d by omega)
  exact_mod_cast this

/-! ## Remove on an empty cell -/

theorem tdiv_small_neg {a : Int} (h0 : -64 < a) (h1 : a < 0) : Int.tdiv a 64 = 0 := by
  have : a = -(-a) := by omega
  rw [this, Int.neg_tdiv, Int.tdiv_eq_ediv (by omega) (by decide),
    Int.ediv_eq_zero_of_lt (by omega) (by omega)]
  rfl

/-- Clearing position `(x, -1)` of an `n` by `n` bitmap with `n < 64`: the index `x - n` is
negative, the word is word 0 and the bit is bit `64 - n + x`. -/
theorem Bitmap.Set_below {b : Bitmap} {n x : Int} (hb : b.WF n) (hn : n < 64) (hx0 : 0 ≤ x)
    (hx : x < n) :
    ∃ t : Bitmap, b.Set x (0 - 1) false = .ok t ∧ t.width = b.width ∧ t.height = b.height ∧
      t.data.length = b.data.length ∧
      ∀ j i : Nat, i < 64 → (t.data.getD j 0).testBit i =
        if j = 0 ∧ i = (64 - n + x).toNat then false else (b.data.getD j 0).testBit i := by
  have hidx : (0 - 1) * b.width + x = x - n := by rw [hb.1]; ring
  have htd : Int.tdiv (x - n) 64 = 0 := tdiv_small_neg (by omega) (by omega)
  have hmod : (x - n) % 64 = 64 - n + x := by omega
  have hlen : 0 < b.data.length := by
    have h1 := hb.2.2.1
    have h2 : 0 < n * n := Int.mul_pos (by omega) (by omega)
    omega
  have hp : (64 - n + x).toNat < 64 := by omega
  refine ⟨⟨b.width, b.height, b.data.set 0
      (b.data.getD 0 0 &&& (2 ^ (64 - n + x).toNat ^^^ maxUint64))⟩, ?_, rfl, rfl, ?_, ?_⟩
  · unfold Bitmap.Set
    simp only [hidx, htd, hmod, Nat.one_shiftLeft]
    rw [sliceGet_eq _ _ 0 (by omega) (by omega)]
    simp only [bind, Except.bind, pure, Except.pure, Bool.false_eq_true, if_false]
    rw [sliceSet_eq _ _ _ (by omega) (by omega)]
    rfl
  · simp only [List.length_set]
  · intro j i hi
    simp only
    by_cases hj : j = 0
    · subst hj
      rw [getD_set_self _ _ _ _ hlen, testBit_clearBit _ _ _ hp]
      by_cases hii : i = (64 - n + x).toNat
      · rw [if_pos ⟨rfl, hii⟩]
        simp [hii]
      · have hcond : ¬ ((0 : Nat) = 0 ∧ i = (64 - n + x).toNat) := fun h => hii h.2
        rw [if_neg hcond]
        have hne : (64 - n + x).toNat ≠ i := fun h => hii h.symm
        simp [hne, hi]
    · have hcond : ¬ (j = 0 ∧ i = (64 - n + x).toNat) := fun h => hj h.1
      rw [if_neg hcond, getD_set_ne _ _ _ (fun h => hj h.symm)]

/-- What `Remove` does on an empty cell of a board with `N < 64`: it returns, the cells are
unchanged, and in word 0 of each matrix bit `64 - N + i` is cleared, with `i` the row, the
column and the region of the cell. -/
theorem Sudoku.Remove_empty {s : Sudoku} (h : s.WF) (hN : s.dim < 64) {row col : Int}
    (hr0 : 0 ≤ row) (hr : row < s.dim) (hc0 : 0 ≤ col) (hc : col < s.dim)
    (hcell : s.cell row col = 0) :
    ∃ t : Sudoku, s.Remove row col = .ok t ∧ t.size = s.size ∧ t.data = s.data ∧
      t.locked = s.locked ∧
      (t.rows.width = s.rows.width ∧ t.rows.height = s.rows.height ∧
        t.rows.data.length = s.rows.data.length ∧
        ∀ j i : Nat, i < 64 → (t.rows.data.getD j 0).testBit i =
          if j = 0 ∧ i = (64 - s.dim + row).toNat then false
          else (s.rows.data.getD j 0).testBit i) ∧
      (t.cols.width = s.cols.width ∧ t.cols.height = s.cols.height ∧
        t.cols.data.length = s.cols.data.length ∧
        ∀ j i : Nat, i < 64 → (t.cols.data.getD j 0).testBit i =
          if j = 0 ∧ i = (64 - s.dim + col).toNat then false
          else (s.cols.data.getD j 0).testBit i) ∧
      (t.regions.width = s.regions.width ∧ t.regions.height = s.regions.height ∧
        t.regions.data.length = s.regions.data.length ∧
        ∀ j i : Nat, i < 64 → (t.regions.data.getD j 0).testBit i =
          if j = 0 ∧ i = (64 - s.dim + regionIndex s.size row col).toNat then false
          else (s.regions.data.getD j 0).testBit i) := by
  obtain ⟨i0, i1, _⟩ := Sudoku.cell_index h hr0 hr hc0 hc
  obtain ⟨g0, g1⟩ := Sudoku.region_bounds h hr0 hr hc0 hc
  have hget : sliceGet s.data (row * (s.size * s.size) + col) = .ok 0 := by
    have := Sudoku.At_ok h hr0 hr hc0 hc
    rw [hcell] at this
    exact this
  have hz : s.data.getD (row * s.dim + col).toNat 0 = 0 := by
    rw [← Sudoku.cell_eq h hr0 hr hc0 hc]; exact hcell
  have hset : sliceSet s.data (row * (s.size * s.size) + col) 0 = .ok s.data := by
    have e := sliceSet_eq s.data (row * s.dim + col) 0 i0 i1
    have e2 : s.data.set (row * s.dim + col).toNat 0 = s.data := by
      have := set_getD_self s.data (row * s.dim + col).toNat 0 (by omega)
      rw [hz] at this
      exact this
    rw [e2] at e
    exact e
  obtain ⟨tr, er, r1, r2, r3, r4⟩ := Bitmap.Set_below h.2.2.2.1 hN hr0 hr
  obtain ⟨tc, ec, c1, c2, c3, c4⟩ := Bitmap.Set_below h.2.2.2.2.1 hN hc0 hc
  obtain ⟨tg, eg, q1, q2, q3, q4⟩ := Bitmap.Set_below h.2.2.2.2.2 hN g0 g1
  refine ⟨{ s with rows := tr, cols := tc, regions := tg }, ?_, rfl, rfl, rfl,
    ⟨r1, r2, r3, r4⟩, ⟨c1, c2, c3, c4⟩, ⟨q1, q2, q3, q4⟩⟩
  unfold Sudoku.Remove
  simp only [bind, Except.bind, pure, Except.pure, hget, hset, er, ec, eg,
    Sudoku.Region_ok h row col]

/-- C18. Termination of `Solve`, for every board with the storage of `NewSudoku` and every
sequence of random draws: the board has at most `N * N` empty cells and `Solve` returns as
soon as the recursion may go one level deeper than the number of empty cells, with the same
result for every larger bound; a level with an empty cell `(row, col)` passes to its
recursive call only boards with exactly one empty cell fewer (any function that agrees with
the recursive call on those boards gives the same level); and the `N` candidates
`(start + j) mod N + 1`, `j < N`, of a level hold every symbol of `1..N` exactly once. -/
theorem Solve_terminates (s : Sudoku) (hs : s.WF) :
    (s.emptyCount : Int) ≤ s.dim * s.dim ∧
    (∀ fuel : Nat, s.emptyCount < fuel →
      ∃ (b : Bool) (t : Sudoku), s.Solve fuel = .ok (b, t) ∧
        ∀ fuel' : Nat, fuel ≤ fuel' → s.Solve fuel' = .ok (b, t)) ∧
    (∀ (fuel : Nat) (row col : Int), s.FindNextEmpty = .ok (some (row, col)) →
      s.cell row col = 0 ∧ 0 < s.emptyCount ∧
      (∀ v : Int, 1 ≤ v → (s.place row col v).emptyCount + 1 = s.emptyCount) ∧
      ∀ solve' : Sudoku → Exec (Bool × Sudoku),
        (∀ u : Sudoku, u.WF → u.emptyCount + 1 = s.emptyCount → solve' u = u.Solve fuel) →
        s.Solve (fuel + 1) = solveLoop solve' row col (s.size * s.size).toNat
          (((s.rand.draws s.rand.pos : Nat) : Int) % 1000 + 1)
          { s with rand := ⟨s.rand.draws, s.rand.pos + 1⟩ }) ∧
    (∀ start v : Int, 0 ≤ start → 1 ≤ v → v ≤ s.dim →
      ∃ j : Nat, (j : Int) < s.dim ∧ Int.tmod (start + j) (s.size * s.size) + 1 = v ∧
        ∀ j' : Nat, (j' : Int) < s.dim → Int.tmod (start + j') (s.size * s.size) + 1 = v →
          j' = j) := by
  refine ⟨?_, ?_, ?_, ?_⟩
  · have h1 := hs.2.1
    have h2 : s.emptyCount ≤ s.data.length := List.count_le_length _ _
    omega
  · intro fuel hfuel
    obtain ⟨b, t, e⟩ := Sudoku.Solve_total fuel s hs hfuel
    exact ⟨b, t, e, fun fuel' hle => Sudoku.Solve_mono_le hle e⟩
  · intro fuel row col hfind
    rcases Sudoku.FindNextEmpty_spec hs with ⟨e, _⟩ | ⟨r, c, e, hr0, hr, hc0, hc, hcell⟩
    · rw [e] at hfind
      simp at hfind
    · rw [e] at hfind
      simp only [Except.ok.injEq, Option.some.injEq, Prod.mk.injEq] at hfind
      obtain ⟨e1, e2⟩ := hfind
      subst e1 e2
      have hplace : ∀ v : Int, 1 ≤ v → (s.place r c v).emptyCount + 1 = s.emptyCount :=
        fun v hv => Sudoku.emptyCount_place hs hr0 hr hc0 hc (show v ≠ 0 by omega) hcell
      refine ⟨hcell, by have := hplace 1 (by omega); omega, hplace, ?_⟩
      intro solve' hagree
      rw [Sudoku.Solve, e, Rand.Intn_eq _ (by decide)]
      simp only [bind, Except.bind]
      have hpos : (0 : Int) ≤ ((s.rand.draws s.rand.pos : Nat) : Int) % 1000 + 1 := by omega
      exact (solveLoop_calls (Sudoku.Solve fuel) solve' s.emptyCount (Sudoku.Solve_post fuel)
        hagree _ _ _ hpos (Sudoku.withRand_WF hs { s.rand with pos := s.rand.pos + 1 }) rfl
        hr0 hr hc0 hc hcell).symm
  · intro start v hstart h1 h2
    exact candidate_unique (Sudoku.WF.dim_pos hs) hstart h1 h2

theorem Solve_terminates_witness :
    oneCellBoard2.WF ∧ oneCellBoard2.emptyCount = 15 ∧
      returnsTrue (oneCellBoard2.Solve 16) = true ∧
      ∃ (b : Bool) (t : Sudoku), oneCellBoard2.Solve 16 = .ok (b, t) ∧
        ∀ fuel' : Nat, 16 ≤ fuel' → oneCellBoard2.Solve fuel' = .ok (b, t) :=
  ⟨by decide!, by decide!, by decide!,
    (Solve_terminates oneCellBoard2 (by decide!)).2.1 16 (by decide!)⟩

/-- C19. `Remove` on an empty cell is not a no-op and does not fault. On a board with
`N < 64` it returns, leaves the cells as they are, and clears bit `64 - N + i` of word 0 of
each matrix, with `i` the row, the column and the region of the cell. For `k = 3`, on the
consistent board with 7 at `(1, 0)`, `Remove(0, 5)` clears bit 55 of `rows`, which is
`row 1 contains 7`; the board is no longer consistent, and `Set(1, 8, 7)` then returns true
and puts 7 twice in row 1. For `k = 2` the cleared bits, 60 and up, lie outside the 16
logical bits and every `At` query of the three matrices is unchanged. -/
theorem Remove_empty_cell :
    (∀ (s : Sudoku) (row col : Int), s.WF → s.dim < 64 → 0 ≤ row → row < s.dim → 0 ≤ col →
      col < s.dim → s.At row col = .ok 0 →
      ∃ t : Sudoku, s.Remove row col = .ok t ∧ t.data = s.data ∧
        (∀ j i : Nat, i < 64 → (t.rows.data.getD j 0).testBit i =
          if j = 0 ∧ i = (64 - s.dim + row).toNat then false
          else (s.rows.data.getD j 0).testBit i) ∧
        (∀ j i : Nat, i < 64 → (t.cols.data.getD j 0).testBit i =
          if j = 0 ∧ i = (64 - s.dim + col).toNat then false
          else (s.cols.data.getD j 0).testBit i) ∧
        (∀ j i : Nat, i < 64 → (t.regions.data.getD j 0).testBit i =
          if j = 0 ∧ i = (64 - s.dim + regionIndex s.size row col).toNat then false
          else (s.regions.data.getD j 0).testBit i)) ∧
    (sevenBoard3.WF ∧ sevenBoard3.Consistent ∧ sevenBoard3.At 1 0 = .ok 7 ∧
      sevenBoard3.At 0 5 = .ok 0 ∧ sevenBoard3.rows.At 1 6 = .ok true ∧
      (sevenBoard3.rows.data.getD 0 0).testBit 55 = true ∧
      sevenBoard3.Remove 0 5 = .ok removedBoard3 ∧
      removedBoard3.data = sevenBoard3.data ∧
      (removedBoard3.rows.data.getD 0 0).testBit 55 = false ∧
      removedBoard3.rows.At 1 6 = .ok false ∧ removedBoard3.At 1 0 = .ok 7 ∧
      ¬ removedBoard3.Consistent ∧
      removedBoard3.Set 1 8 7 = .ok (true, finalBoard removedBoard3 (removedBoard3.Set 1 8 7)) ∧
      (finalBoard removedBoard3 (removedBoard3.Set 1 8 7)).At 1 0 = .ok 7 ∧
      (finalBoard removedBoard3 (removedBoard3.Set 1 8 7)).At 1 8 = .ok 7) ∧
    (∀ (s : Sudoku) (row col : Int), s.WF → s.size = 2 → 0 ≤ row → row < 4 → 0 ≤ col →
      col < 4 → s.At row col = .ok 0 →
      ∃ t : Sudoku, s.Remove row col = .ok t ∧ t.data = s.data ∧
        ∀ x y : Int, 0 ≤ x → x < 4 → 0 ≤ y → y < 4 →
          t.rows.At x y = s.rows.At x y ∧ t.cols.At x y = s.cols.At x y ∧
          t.regions.At x y = s.regions.At x y) := by
  have hcell : ∀ (s : Sudoku) (row col : Int), s.At row col = .ok 0 → s.cell row col = 0 := by
    intro s row col h
    unfold Sudoku.cell
    rw [h]
  refine ⟨?_, ?_, ?_⟩
  · intro s row col hs hN hr0 hr hc0 hc hat
    obtain ⟨t, e, _, hdata, _, hrows, hcols, hregs⟩ :=
      Sudoku.Remove_empty hs hN hr0 hr hc0 hc (hcell s row col hat)
    exact ⟨t, e, hdata, hrows.2.2.2, hcols.2.2.2, hregs.2.2.2⟩
  · refine ⟨by decide!, by decide!, by decide!, by decide!, by decide!, by decide!,
      eq_ok_of_not_faulted sevenBoard3 (by decide!), by decide!, by decide!, by decide!,
      by decide!, by decide!, eq_ok_true_of_returnsTrue removedBoard3 (by decide!),
      by decide!, by decide!⟩
  · intro s row col hs h2 hr0 hr hc0 hc hat
    have hdim : s.dim = 4 := by unfold Sudoku.dim; rw [h2]; rfl
    obtain ⟨t, e, _, hdata, _, hrows, hcols, hregs⟩ :=
      Sudoku.Remove_empty hs (by omega) hr0 (by omega) hc0 (by omega) (hcell s row col hat)
    obtain ⟨g0, g1⟩ := Sudoku.region_bounds hs hr0 (show row < s.dim by omega) hc0
      (show col < s.dim by omega)
    refine ⟨t, e, hdata, ?_⟩
    have key : ∀ (b b' : Bitmap) (i : Int), b.WF 4 → 0 ≤ i → i < 4 → b'.width = b.width →
        b'.height = b.height → b'.data.length = b.data.length →
        (∀ j n : Nat, n < 64 → (b'.data.getD j 0).testBit n =
          if j = 0 ∧ n = (64 - 4 + i).toNat then false else (b.data.getD j 0).testBit n) →
        ∀ x y : Int, 0 ≤ x → x < 4 → 0 ≤ y → y < 4 → b'.At x y = b.At x y := by
      intro b b' i hb hi0 hi hw hh hl hbits x y hx0 hx hy0 hy
      obtain ⟨w4, h4, hlen, _⟩ := hb
      have hlen1 : b.width * b.height ≤ 64 * (b.data.length : Int) := by
        rw [w4, h4]; exact hlen
      have hlen2 : b'.width * b'.height ≤ 64 * (b'.data.length : Int) := by
        rw [hw, hh, hl]; exact hlen1
      rw [Bitmap.rect_At hlen1 hx0 (by omega) hy0 (by omega),
        Bitmap.rect_At hlen2 hx0 (by omega) hy0 (by omega), hw, w4]
      have hn : ((y * 4 + x) % 64).toNat < 64 := by omega
      rw [hbits _ _ hn, if_neg (by
        intro hcond
        have := hcond.2
        omega)]
    rw [hdim] at hrows hcols hregs g1
    have hR := hs.2.2.2.1
    have hC := hs.2.2.2.2.1
    have hG := hs.2.2.2.2.2
    rw [hdim] at hR hC hG
    intro x y hx0 hx hy0 hy
    exact ⟨key _ _ row hR hr0 hr hrows.1 hrows.2.1 hrows.2.2.1 hrows.2.2.2 x y hx0 hx hy0 hy,
      key _ _ col hC hc0 hc hcols.1 hcols.2.1 hcols.2.2.1 hcols.2.2.2 x y hx0 hx hy0 hy,
      key _ _ _ hG g0 g1 hregs.1 hregs.2.1 hregs.2.2.1 hregs.2.2.2 x y hx0 hx hy0 hy⟩

theorem Remove_empty_cell_witness :
    oneCellBoard2.WF ∧ oneCellBoard2.size = 2 ∧ oneCellBoard2.At 1 1 = .ok 0 ∧
      ∃ t : Sudoku, oneCellBoard2.Remove 1 1 = .ok t ∧ t.data = oneCellBoard2.data ∧
        ∀ x y : Int, 0 ≤ x → x < 4 → 0 ≤ y → y < 4 →
          t.rows.At x y = oneCellBoard2.rows.At x y ∧
          t.cols.At x y = oneCellBoard2.cols.At x y ∧
          t.regions.At x y = oneCellBoard2.regions.At x y :=
  ⟨by decide!, by decide!, by decide!,
    Remove_empty_cell.2.2 oneCellBoard2 1 1 (by decide!) (by decide!) (by decide) (by decide)
      (by decide) (by decide) (by decide!)⟩

end SudokuSolver
